import Mathlib

/-!
# ICPC scoreboard engine: ranking comparator and freeze / scroll reveal

A shallow embedding of `src/main.cpp` (class `ICPCSystem`) and the properties
of its specification that are settled on it.

Modelling conventions
* `int` is modelled by `Int`; signed overflow is undefined behaviour in C++, so
  the development speaks about executions in which no `int` overflows.
* `char` (problem identifier) is modelled by `Char`, `std::string` by `String`,
  `std::vector` by `List`.
* `std::map<char, ProblemStatus>` is an association list kept in increasing key
  order (`findProblem` is `find`, `getProblem` / `setProblem` are `operator[]`).
* The class holds every team twice, through the same pointer: in the map
  `teams` (by name) and in the vector `scoreboard` (by position).  Both get
  their entries in `addTeam` only, so the state is represented by the list of
  teams in scoreboard order; `teams.find(name)` is a search of that list by
  name and a pointer is a position in the list.
* `submit` dereferences `teams[team_name]`; for an unknown team this is a null
  pointer and the model returns `none`.
* `std::sort` is modelled by an insertion sort; `compareTeams` is a strict total
  order on teams with different names, so on a scoreboard without duplicate
  names the sorted arrangement is unique (`sortTeams_unique`) and every sorting
  algorithm returns it.
* `std::lower_bound` is modelled by its halving loop.
* The `while (true)` loop of `scroll` is run with a fuel argument: one unit for
  every evaluation of the target search at the head of the loop.
-/

namespace ICPC

/-! ## Data model -/

/-- One submission record: `struct Submission`. -/
structure Submission where
  problem : String
  status : String
  time : Int
deriving DecidableEq, Repr

/-- Per team, per problem state: `struct ProblemStatus`. -/
structure ProblemStatus where
  solved : Bool := false
  wrong_attempts : Int := 0
  solve_time : Int := 0
  frozen_submissions : Int := 0
  frozen_subs : List Submission := []
deriving DecidableEq, Repr

/-- A team: `struct Team`. -/
structure Team where
  name : String
  solved_count : Int := 0
  penalty : Int := 0
  solve_times : List Int := []
  problems : List (Char × ProblemStatus) := []
  all_submissions : List Submission := []
  ranking : Int := 0
deriving DecidableEq, Repr

/-- The engine state: the data members of `class ICPCSystem`. -/
structure ICPCSystem where
  scoreboard : List Team := []
  started : Bool := false
  frozen : Bool := false
  duration_time : Int := 0
  problem_count : Int := 0
  freeze_time : Int := -1
deriving DecidableEq, Repr

/-! ## Ranking comparator -/

/-- The loop of `compareTeams` over the common prefix of the two solve-time
vectors: the pair of values at the first index where they differ, if any. -/
def firstDiff : List Int → List Int → Option (Int × Int)
  | x :: xs, y :: ys => if x ≠ y then some (x, y) else firstDiff xs ys
  | _, _ => none

/-- The part of `compareTeams` that follows the solved-count and penalty tests,
as a function of the two solve-time vectors and the two names. -/
def compareTail (xs : List Int) (n : String) (ys : List Int) (m : String) : Bool :=
  match firstDiff xs ys with
  | some (x, y) => decide (x < y)
  | none =>
    if xs.length ≠ ys.length then decide (xs.length > ys.length)
    else decide (n.toList < m.toList)

/-- The comparator `ICPCSystem::compareTeams`: `true` when `a` ranks strictly
better than `b`.  `std::string::operator<` compares the two character
sequences lexicographically, which is the order of the character lists. -/
def compareTeams (a b : Team) : Bool :=
  if a.solved_count ≠ b.solved_count then decide (a.solved_count > b.solved_count)
  else if a.penalty ≠ b.penalty then decide (a.penalty < b.penalty)
  else
    match firstDiff a.solve_times b.solve_times with
    | some (x, y) => decide (x < y)
    | none =>
      if a.solve_times.length ≠ b.solve_times.length then
        decide (a.solve_times.length > b.solve_times.length)
      else decide (a.name.toList < b.name.toList)

/-- The second loop of `updateRankings`: the team at position `i` gets ranking
`i + 1` (`i` is the position of the head of the list). -/
def assignRankings : List Team → Nat → List Team
  | [], _ => []
  | t :: ts, i => { t with ranking := (i : Int) + 1 } :: assignRankings ts (i + 1)

/-- The call of `std::sort` in `updateRankings`, as an insertion sort with
`compareTeams` as the "comes before" test. -/
def sortTeams (sb : List Team) : List Team :=
  sb.insertionSort (fun a b => compareTeams a b = true)

/-- The scoreboard after `ICPCSystem::updateRankings`. -/
def updateRankings (sb : List Team) : List Team :=
  assignRankings (sortTeams sb) 0

/-! ## The per-team problem map -/

/-- The result of `std::map::find`. -/
def findProblem : List (Char × ProblemStatus) → Char → Option ProblemStatus
  | [], _ => none
  | (k, v) :: m, c => if k = c then some v else findProblem m c

/-- The value that `problems[c]` refers to: the stored status, or a freshly
default-constructed one. -/
def getProblem (m : List (Char × ProblemStatus)) (c : Char) : ProblemStatus :=
  match findProblem m c with
  | some ps => ps
  | none => {}

/-- The map after `problems[c]` has been created if needed and assigned `ps`. -/
def setProblem : List (Char × ProblemStatus) → Char → ProblemStatus →
    List (Char × ProblemStatus)
  | [], c, ps => [(c, ps)]
  | (k, v) :: m, c, ps =>
    if c < k then (c, ps) :: (k, v) :: m
    else if c = k then (c, ps) :: m
    else (k, v) :: setProblem m c ps

/-! ## Submission processing -/

/-- The loop of `std::lower_bound` over `[first, first + len)` with the
comparison `greater<int>`, one iteration per unit of fuel. -/
def lowerBoundLoop (v : List Int) (val : Int) : Nat → Nat → Nat → Nat
  | 0, first, _ => first
  | fuel + 1, first, len =>
    if len > 0 then
      match v[first + len / 2]? with
      | some x =>
        if x > val then lowerBoundLoop v val fuel (first + len / 2 + 1) (len - len / 2 - 1)
        else lowerBoundLoop v val fuel first (len / 2)
      | none => first
    else first

/-- The position returned by
`lower_bound(v.begin(), v.end(), val, greater<int>())`: the range is halved in
every iteration, so `v.length` iterations are enough. -/
def lower_bound (v : List Int) (val : Int) : Nat :=
  lowerBoundLoop v val v.length 0 v.length

/-- The vector after `v.insert(v.begin() + pos, val)`. -/
def insertAt (v : List Int) (pos : Nat) (val : Int) : List Int :=
  v.take pos ++ val :: v.drop pos

/-- The judging block shared by `submit` (live branch) and the replay loop of
`scroll`: an accepted submission marks the problem solved and updates the
score of the team, any other verdict counts one wrong attempt. -/
def judge (status : String) (time : Int) (t : Team) (ps : ProblemStatus) :
    Team × ProblemStatus :=
  if status = "Accepted" then
    ({ t with
        solved_count := t.solved_count + 1
        penalty := t.penalty + (20 * ps.wrong_attempts + time)
        solve_times := insertAt t.solve_times (lower_bound t.solve_times time) time },
     { ps with solved := true, solve_time := time })
  else (t, { ps with wrong_attempts := ps.wrong_attempts + 1 })

/-- The body of `ICPCSystem::submit` on the team object it has looked up. -/
def submitTeam (frozen : Bool) (problem : Char) (status : String) (time : Int)
    (team : Team) : Team :=
  let team1 := { team with
    all_submissions := team.all_submissions ++ [⟨String.singleton problem, status, time⟩] }
  let ps := getProblem team1.problems problem
  if frozen && !ps.solved then
    let ps1 := { ps with
      frozen_submissions := ps.frozen_submissions + 1
      frozen_subs := ps.frozen_subs ++ [⟨String.singleton problem, status, time⟩] }
    { team1 with problems := setProblem team1.problems problem ps1 }
  else if !frozen && !ps.solved then
    let r := judge status time team1 ps
    { r.1 with problems := setProblem team1.problems problem r.2 }
  else { team1 with problems := setProblem team1.problems problem ps }

/-- Apply `f` to the team that `teams[name]` points to: the first team of the
list with that name; `none` when there is no such team. -/
def modifyTeam (f : Team → Team) (name : String) : List Team → Option (List Team)
  | [] => none
  | t :: ts =>
    if t.name = name then some (f t :: ts)
    else (modifyTeam f name ts).map (fun r => t :: r)

/-- The result of `teams.find(name) != teams.end()`. -/
def hasTeam (sb : List Team) (name : String) : Bool :=
  sb.any (fun t => decide (t.name = name))

/-- The team object that `teams[name]` points to. -/
def getTeam (sb : List Team) (name : String) : Option Team :=
  sb.find? (fun t => decide (t.name = name))

/-! ## Output -/

/-- What the engine writes to standard output, one value per line. -/
inductive Output where
  | info (msg : String)
  | error (msg : String)
  | warning (msg : String)
  | row (name : String) (ranking solved penalty : Int) (cells : List String)
  | rankChange (team replaced : String) (solved penalty : Int)
  | rank (name : String) (ranking : Int)
  | submission (team problem status : String) (time : Int)
  | noSubmission
deriving DecidableEq, Repr

/-- The cell written by `ICPCSystem::printProblemStatus`. -/
def printProblemStatus (team : Team) (prob : Char) : String :=
  match findProblem team.problems prob with
  | none => "."
  | some ps =>
    if ps.solved && decide (ps.frozen_submissions = 0) then
      if ps.wrong_attempts = 0 then "+" else "+" ++ toString ps.wrong_attempts
    else if ps.frozen_submissions > 0 then
      if ps.wrong_attempts = 0 then "0/" ++ toString ps.frozen_submissions
      else "-" ++ toString ps.wrong_attempts ++ "/" ++ toString ps.frozen_submissions
    else if ps.wrong_attempts > 0 then "-" ++ toString ps.wrong_attempts
    else "."

/-- The lines written by `ICPCSystem::printScoreboard`. -/
def printScoreboard (problem_count : Int) (sb : List Team) : List Output :=
  sb.map (fun team => Output.row team.name team.ranking team.solved_count team.penalty
    ((List.range problem_count.toNat).map (fun i => printProblemStatus team (Char.ofNat (65 + i)))))

/-! ## Scroll -/

/-- The inner loop of the target search: does the team have a problem with
frozen submissions. -/
def hasFrozen (team : Team) : Bool :=
  team.problems.any (fun p => decide (p.2.frozen_submissions > 0))

/-- The target search of `scroll`, `for (i = size - 1; i >= 0; i--)`: the
argument is `i + 1`, the number of positions still to visit; the result is the
position of the first team found with frozen problems. -/
def findTarget (sb : List Team) : Nat → Option Nat
  | 0 => none
  | i + 1 =>
    match sb[i]? with
    | some team => if hasFrozen team then some i else findTarget sb i
    | none => findTarget sb i

/-- The loop that selects `min_problem`, starting from `'Z' + 1`. -/
def minProblem (target : Team) : Char :=
  target.problems.foldl
    (fun m p => if p.2.frozen_submissions > 0 ∧ p.1 < m then p.1 else m) (Char.ofNat 91)

/-- The replay loop over `ps.frozen_subs`. -/
def replay : List Submission → Team → ProblemStatus → Team × ProblemStatus
  | [], t, ps => (t, ps)
  | sub :: subs, t, ps =>
    if !ps.solved then
      replay subs (judge sub.status sub.time t ps).1 (judge sub.status sub.time t ps).2
    else replay subs t ps

/-- The target team after its problem `min_problem` has been resolved: the
frozen submissions replayed, then the pending count and list cleared. -/
def resolveProblem (target : Team) (min_problem : Char) : Team :=
  let ps := getProblem target.problems min_problem
  let r := replay ps.frozen_subs target ps
  let ps1 := { r.2 with frozen_submissions := 0, frozen_subs := [] }
  { r.1 with problems := setProblem target.problems min_problem ps1 }

/-- The loop computing `new_rank - 1`: the number of teams `t` of the
scoreboard with `t != target && compareTeams(t, target)`; `i` is the position
of the target and `j` the position of the head of the list. -/
def countBetter (target : Team) (i : Nat) : List Team → Nat → Nat
  | [], _ => 0
  | t :: ts, j =>
    (if j ≠ i ∧ compareTeams t target = true then 1 else 0) + countBetter target i ts (j + 1)

/-- The quantities of one resolution step of `scroll`. -/
structure StepInfo where
  min_problem : Char
  old_ranking : Int
  new_rank : Int
  replaced_name : String
  resolved : List Team
  result : List Team
  output : List Output
deriving DecidableEq, Repr

/-- One iteration of the `while` loop of `scroll` once the target has been
found at position `i`. -/
def scrollStep (sb : List Team) (i : Nat) (target : Team) : StepInfo :=
  let min_problem := minProblem target
  let old_ranking := target.ranking
  let target1 := resolveProblem target min_problem
  let sb1 := sb.set i target1
  let new_rank : Int := 1 + (countBetter target1 i sb1 0 : Nat)
  let replaced_name :=
    if new_rank < old_ranking then
      match sb1[(new_rank - 1).toNat]? with
      | some t => t.name
      | none => ""
    else ""
  { min_problem := min_problem
    old_ranking := old_ranking
    new_rank := new_rank
    replaced_name := replaced_name
    resolved := sb1
    result := updateRankings sb1
    output :=
      if replaced_name ≠ "" then
        [Output.rankChange target1.name replaced_name target1.solved_count target1.penalty]
      else [] }

/-- The `while (true)` loop of `scroll`: `none` when the fuel runs out before
the loop exits. -/
def scrollLoop : Nat → List Team → Option (List Team × List Output)
  | 0, _ => none
  | fuel + 1, sb =>
    match findTarget sb sb.length with
    | none => some (sb, [])
    | some i =>
      match sb[i]? with
      | none => none
      | some target =>
        (scrollLoop fuel (scrollStep sb i target).result).map
          (fun r => (r.1, (scrollStep sb i target).output ++ r.2))

/-! ## Operations -/

namespace ICPCSystem

/-- The effect of `ICPCSystem::addTeam`. -/
def addTeam (s : ICPCSystem) (name : String) : ICPCSystem × List Output :=
  if s.started then (s, [Output.error "Add failed: competition has started."])
  else if hasTeam s.scoreboard name then (s, [Output.error "Add failed: duplicated team name."])
  else ({ s with scoreboard := s.scoreboard ++ [{ name := name }] },
        [Output.info "Add successfully."])

/-- The effect of `ICPCSystem::startCompetition`. -/
def startCompetition (s : ICPCSystem) (duration problems : Int) : ICPCSystem × List Output :=
  if s.started then (s, [Output.error "Start failed: competition has started."])
  else ({ s with
          started := true
          duration_time := duration
          problem_count := problems
          scoreboard := updateRankings s.scoreboard },
        [Output.info "Competition starts."])

/-- The effect of `ICPCSystem::submit`; `none` for an unknown team. -/
def submit (s : ICPCSystem) (problem : Char) (team_name status : String) (time : Int) :
    Option ICPCSystem :=
  (modifyTeam (submitTeam s.frozen problem status time) team_name s.scoreboard).map
    (fun sb => { s with scoreboard := sb })

/-- The effect of `ICPCSystem::flush`. -/
def flush (s : ICPCSystem) : ICPCSystem × List Output :=
  ({ s with scoreboard := updateRankings s.scoreboard }, [Output.info "Flush scoreboard."])

/-- The effect of `ICPCSystem::freeze`. -/
def freeze (s : ICPCSystem) : ICPCSystem × List Output :=
  if s.frozen then (s, [Output.error "Freeze failed: scoreboard has been frozen."])
  else ({ s with frozen := true }, [Output.info "Freeze scoreboard."])

/-- The effect of `ICPCSystem::scroll`; `none` when the fuel does not suffice
for the loop to exit. -/
def scroll (s : ICPCSystem) (fuel : Nat) : Option (ICPCSystem × List Output) :=
  if !s.frozen then
    some (s, [Output.error "Scroll failed: scoreboard has not been frozen."])
  else
    match scrollLoop fuel (updateRankings s.scoreboard) with
    | none => none
    | some r =>
      some ({ s with scoreboard := r.1, frozen := false },
        [Output.info "Scroll scoreboard."]
          ++ printScoreboard s.problem_count (updateRankings s.scoreboard)
          ++ r.2 ++ printScoreboard s.problem_count r.1)

/-- The output of `ICPCSystem::queryRanking`. -/
def queryRanking (s : ICPCSystem) (name : String) : List Output :=
  match getTeam s.scoreboard name with
  | none => [Output.error "Query ranking failed: cannot find the team."]
  | some team =>
    [Output.info "Complete query ranking."]
      ++ (if s.frozen then
            [Output.warning
              "Scoreboard is frozen. The ranking may be inaccurate until it were scrolled."]
          else [])
      ++ [Output.rank name team.ranking]

/-- The reverse scan of `querySubmission`: the last record of the history that
passes both filters. -/
def lastMatch (problem status : String) (subs : List Submission) : Option Submission :=
  subs.reverse.find? (fun sub =>
    !(decide (problem ≠ "ALL") && decide (sub.problem ≠ problem))
      && !(decide (status ≠ "ALL") && decide (sub.status ≠ status)))

/-- The output of `ICPCSystem::querySubmission`. -/
def querySubmission (s : ICPCSystem) (team_name problem status : String) : List Output :=
  match getTeam s.scoreboard team_name with
  | none => [Output.error "Query submission failed: cannot find the team."]
  | some team =>
    [Output.info "Complete query submission."]
      ++ (match lastMatch problem status team.all_submissions with
          | none => [Output.noSubmission]
          | some r => [Output.submission team_name r.problem r.status r.time])

end ICPCSystem

/-! ## Reachable states -/

/-- The states the engine can be in: those obtained from the initial state by
the state-changing operations (the queries change nothing). -/
inductive Reachable : ICPCSystem → Prop where
  | init : Reachable {}
  | addTeam {s : ICPCSystem} (name : String) : Reachable s → Reachable (s.addTeam name).1
  | start {s : ICPCSystem} (duration problems : Int) :
      Reachable s → Reachable (s.startCompetition duration problems).1
  | submit {s s1 : ICPCSystem} (problem : Char) (team_name status : String) (time : Int) :
      Reachable s → s.submit problem team_name status time = some s1 → Reachable s1
  | flush {s : ICPCSystem} : Reachable s → Reachable s.flush.1
  | freeze {s : ICPCSystem} : Reachable s → Reachable s.freeze.1
  | scroll {s : ICPCSystem} (fuel : Nat) (r : ICPCSystem × List Output) :
      Reachable s → s.scroll fuel = some r → Reachable r.1

/-! ## Predicates used by the statements -/

/-- A sequence of `submit` calls, each given as (problem, team, verdict, time);
`none` as soon as one of them fails. -/
def submitAll : ICPCSystem → List (Char × String × String × Int) → Option ICPCSystem
  | s, [] => some s
  | s, q :: rest => (s.submit q.1 q.2.1 q.2.2.1 q.2.2.2).bind (fun s1 => submitAll s1 rest)

/-- Team `t1` shows the same name, rank and score as team `t`: the same name,
solved count, penalty, solve-time list and ranking, and for every problem the same
solved flag, solve time and wrong-attempt count. -/
structure ScoreEq (t t1 : Team) : Prop where
  name : t1.name = t.name
  solved_count : t1.solved_count = t.solved_count
  penalty : t1.penalty = t.penalty
  solve_times : t1.solve_times = t.solve_times
  ranking : t1.ranking = t.ranking
  problems : ∀ c : Char,
    (getProblem t1.problems c).solved = (getProblem t.problems c).solved ∧
    (getProblem t1.problems c).solve_time = (getProblem t.problems c).solve_time ∧
    (getProblem t1.problems c).wrong_attempts = (getProblem t.problems c).wrong_attempts

/-- The sum of `g` over the statuses stored in a problem map. -/
def mapSum {β : Type} [AddCommMonoid β] (g : ProblemStatus → β)
    (m : List (Char × ProblemStatus)) : β :=
  (m.map (fun p => g p.2)).sum

/-- The value of `g` at the status stored for `c`, zero when there is none. -/
def valueAt {β : Type} [AddCommMonoid β] (g : ProblemStatus → β)
    (m : List (Char × ProblemStatus)) (c : Char) : β :=
  match findProblem m c with
  | some v => g v
  | none => 0

/-- One for a solved problem, zero otherwise. -/
def solvedOf (ps : ProblemStatus) : Nat := if ps.solved then 1 else 0

/-- The penalty charged for a problem: `20 × wrong_attempts + solve_time` when
solved, nothing otherwise. -/
def penaltyOf (ps : ProblemStatus) : Int :=
  if ps.solved then 20 * ps.wrong_attempts + ps.solve_time else 0

/-- One for a problem with a non-zero pending count, zero otherwise. -/
def pendingOf (ps : ProblemStatus) : Nat := if ps.frozen_submissions ≠ 0 then 1 else 0

/-- The number of (team, problem) pairs with a non-zero pending count. -/
def pendingPairs (sb : List Team) : Nat :=
  (sb.map (fun t => mapSum pendingOf t.problems)).sum

/-- Every problem with a positive pending count has an identifier in
`'A'..'Z'`. -/
def PendingInRange (sb : List Team) : Prop :=
  ∀ t ∈ sb, ∀ p ∈ t.problems, p.2.frozen_submissions > 0 → 'A' ≤ p.1 ∧ p.1 ≤ 'Z'

/-- The keys of a problem map are strictly increasing, as in a `std::map`. -/
def KeysSorted (m : List (Char × ProblemStatus)) : Prop :=
  m.Pairwise (fun p q => p.1 < q.1)

/-- The pending count of a problem is the length of its pending list, and a
solved problem has nothing pending. -/
def PendingOk (ps : ProblemStatus) : Prop :=
  ps.frozen_submissions = (ps.frozen_subs.length : Int) ∧
    (ps.solved = true → ps.frozen_submissions = 0)

/-- The score fields of team `t` agree with the problem map `m`: the solve-time
list is sorted in descending order and as long as the solved count, the solved
count is the number of solved problems of `m` and the penalty is the sum of
their charges. -/
structure ScoreOk (m : List (Char × ProblemStatus)) (t : Team) : Prop where
  sorted : t.solve_times.Pairwise (fun x y => x ≥ y)
  length : (t.solve_times.length : Int) = t.solved_count
  solved : t.solved_count = (mapSum solvedOf m : Nat)
  penalty : t.penalty = mapSum penaltyOf m

/-- The invariant of one team object. -/
structure TeamInv (t : Team) : Prop where
  keys : KeysSorted t.problems
  score : ScoreOk t.problems t
  pending : ∀ p ∈ t.problems, PendingOk p.2

/-- The invariant of the engine state. -/
structure Inv (s : ICPCSystem) : Prop where
  names : (s.scoreboard.map (fun t => t.name)).Nodup
  teams : ∀ t ∈ s.scoreboard, TeamInv t
  live : s.frozen = false → ∀ t ∈ s.scoreboard, ∀ p ∈ t.problems, p.2.frozen_submissions = 0

/-- The scoreboards at the head of the `while` loop of `scroll`: the re-sorted
scoreboard of a reachable frozen state at entry, and the result of a
resolution step after every iteration. -/
inductive ScrollState : List Team → Prop where
  | entry {s : ICPCSystem} : Reachable s → s.frozen = true →
      ScrollState (updateRankings s.scoreboard)
  | step {sb : List Team} {i : Nat} {target : Team} : ScrollState sb →
      findTarget sb sb.length = some i → sb[i]? = some target →
      ScrollState (scrollStep sb i target).result

/-! ## Example states -/

/-- Teams `b` and `a` registered (in this order) and the contest started with
three problems. -/
def demoStart : ICPCSystem :=
  (((({} : ICPCSystem).addTeam "b").1.addTeam "a").1.startCompetition 10 3).1

/-- After `demoStart`: `b` fails problem `A` at 3 and solves it at 5, then the
scoreboard is flushed. -/
def demoLive : ICPCSystem :=
  ((submitAll demoStart [('A', "b", "Wrong", 3), ('A', "b", "Accepted", 5)]).getD demoStart).flush.1

/-- After `demoLive`: the scoreboard is frozen, `a` submits accepted solutions
of `B`, `A` and `C`, and `b` one of `C`. -/
def demoFrozen : ICPCSystem :=
  (submitAll demoLive.freeze.1
    [('B', "a", "Accepted", 7), ('A', "a", "Accepted", 8), ('C', "a", "Accepted", 6),
     ('C', "b", "Accepted", 6)]).getD demoLive

/-- After `demoFrozen`: the scoreboard is scrolled. -/
def demoFinal : ICPCSystem :=
  ((demoFrozen.scroll 5).getD (demoFrozen, [])).1

/-- Team `a` in `demoFinal`. -/
def demoTeamA : Team :=
  (getTeam demoFinal.scoreboard "a").getD { name := "a" }

/-- Team `b` in `demoFinal`. -/
def demoTeamB : Team :=
  (getTeam demoFinal.scoreboard "b").getD { name := "b" }

/-- Team `b` in `demoLive`. -/
def demoLiveB : Team :=
  (getTeam demoLive.scoreboard "b").getD { name := "b" }

/-- The scoreboard at the head of the scroll loop when `demoFrozen` is
scrolled. -/
def demoBoard : List Team := updateRankings demoFrozen.scoreboard

/-- A frozen state with a team whose name is the empty string: teams `""` and
`b` registered, the contest started and frozen, and `b` submits an accepted
solution of problem `A`. -/
def demoEmpty : ICPCSystem :=
  (((((({} : ICPCSystem).addTeam "").1.addTeam "b").1.startCompetition 10 1).1.freeze.1.submit
    'A' "b" "Accepted" 5).getD {})

/-- The scoreboard at the head of the scroll loop when `demoEmpty` is
scrolled. -/
def demoEmptyBoard : List Team := updateRankings demoEmpty.scoreboard

/-- The team found by the target search on `demoBoard`: team `a`, at
position 1. -/
def demoTarget : Team := demoBoard.getD 1 { name := "" }

/-- The team found by the target search on `demoEmptyBoard`: team `b`, at
position 1. -/
def demoEmptyTarget : Team := demoEmptyBoard.getD 1 { name := "" }

/-! ## Operations as a step relation, filters and failures -/

/-- One state-changing operation of the engine takes the first state to the
second. -/
inductive Step : ICPCSystem → ICPCSystem → Prop where
  | addTeam (s : ICPCSystem) (name : String) : Step s (s.addTeam name).1
  | start (s : ICPCSystem) (duration problems : Int) :
      Step s (s.startCompetition duration problems).1
  | submit (s s1 : ICPCSystem) (problem : Char) (team_name status : String) (time : Int) :
      s.submit problem team_name status time = some s1 → Step s s1
  | flush (s : ICPCSystem) : Step s s.flush.1
  | freeze (s : ICPCSystem) : Step s s.freeze.1
  | scroll (s : ICPCSystem) (fuel : Nat) (r : ICPCSystem × List Output) :
      s.scroll fuel = some r → Step s r.1

/-- A finite sequence of state-changing operations takes the first state to the
second. -/
inductive Steps : ICPCSystem → ICPCSystem → Prop where
  | refl (s : ICPCSystem) : Steps s s
  | tail {s s1 s2 : ICPCSystem} : Steps s s1 → Step s1 s2 → Steps s s2

/-- The record passes the two filters of a submission query: each filter is
the wildcard `ALL` or equals the corresponding field of the record. -/
def matchesFilter (problem status : String) (sub : Submission) : Prop :=
  (problem = "ALL" ∨ sub.problem = problem) ∧ (status = "ALL" ∨ sub.status = status)

instance matchesFilterDecidable (problem status : String) (sub : Submission) :
    Decidable (matchesFilter problem status sub) :=
  inferInstanceAs (Decidable
    ((problem = "ALL" ∨ sub.problem = problem) ∧ (status = "ALL" ∨ sub.status = status)))

/-- The operation has failed: all it wrote is one error line. -/
def isError (out : List Output) : Prop :=
  ∃ msg : String, out = [Output.error msg]

/-- Team `b` in `demoFrozen`. -/
def demoFrozenB : Team :=
  (getTeam demoFrozen.scoreboard "b").getD { name := "b" }

/-- Problem `c` of team `t` is solved with solve time `time` and `wa` wrong
attempts, and its pending list is empty. -/
def SolvedFields (c : Char) (time wa : Int) (t : Team) : Prop :=
  (getProblem t.problems c).solved = true ∧ (getProblem t.problems c).solve_time = time ∧
    (getProblem t.problems c).wrong_attempts = wa ∧ (getProblem t.problems c).frozen_subs = []

/-- The scoreboard has a team called `name`, and every team of that name has
problem `c` solved with solve time `time`, `wa` wrong attempts and an empty
pending list. -/
def SolvedOn (name : String) (c : Char) (time wa : Int) (sb : List Team) : Prop :=
  hasTeam sb name = true ∧ ∀ t ∈ sb, t.name = name → SolvedFields c time wa t

/-- The team with its ranking field reset: what a team is apart from the rank
last written into it. -/
def unranked (t : Team) : Team := { t with ranking := 0 }

/-- The scoreboard `post` is the scoreboard `pre` re-sorted: it holds the same
teams (apart from the ranking fields), every team outranks all teams after it
under `compareTeams`, and the team at 0-based position `i` has ranking
`i + 1`, so that the rankings are `1, 2, ..., n` in this order. -/
structure Resorted (pre post : List Team) : Prop where
  perm : (post.map unranked).Perm (pre.map unranked)
  sorted : post.Pairwise (fun a b => compareTeams a b = true)
  ranking : ∀ (i : Nat) (t : Team), post[i]? = some t → t.ranking = (i : Int) + 1
  ranks : post.map (fun t => t.ranking) = (List.range post.length).map (fun i : Nat => (i : Int) + 1)

/-- The state after the teams `names` have been registered, in this order, and
nothing else has happened. -/
def registered (names : List String) : ICPCSystem :=
  names.foldl (fun s n => (s.addTeam n).1) {}

/-- The fields of a team that `compareTeams` reads. -/
def scoreOnly (t : Team) : Team :=
  { name := t.name, solved_count := t.solved_count, penalty := t.penalty,
    solve_times := t.solve_times }

/-- A frozen state whose only pending submission is a rejected one: teams `a`
and `b` registered, the contest started and frozen, and `b` submits a wrong
answer to problem `A`. -/
def demoWrong : ICPCSystem :=
  (((((({} : ICPCSystem).addTeam "a").1.addTeam "b").1.startCompetition 10 1).1.freeze.1.submit
    'A' "b" "Wrong" 3).getD {})

/-- The scoreboard at the head of the scroll loop when `demoWrong` is
scrolled. -/
def demoWrongBoard : List Team := updateRankings demoWrong.scoreboard

/-- The team found by the target search on `demoWrongBoard`: team `b`, at
position 1. -/
def demoWrongTarget : Team := demoWrongBoard.getD 1 { name := "" }

/-! ## What a pending list resolves to -/

/-- The problem-status component of `judge`: it does not depend on the team. -/
def judgePs (status : String) (time : Int) (ps : ProblemStatus) : ProblemStatus :=
  if status = "Accepted" then { ps with solved := true, solve_time := time }
  else { ps with wrong_attempts := ps.wrong_attempts + 1 }

/-- The problem-status component of `replay`. -/
def replayPs : List Submission → ProblemStatus → ProblemStatus
  | [], ps => ps
  | sub :: subs, ps =>
    if !ps.solved then replayPs subs (judgePs sub.status sub.time ps) else replayPs subs ps

/-- The problem status with its pending count and pending list cleared. -/
def clearPending (ps : ProblemStatus) : ProblemStatus :=
  { ps with frozen_submissions := 0, frozen_subs := [] }

/-- The status a problem has once its pending list has been resolved. -/
def settlePs (ps : ProblemStatus) : ProblemStatus :=
  clearPending (replayPs ps.frozen_subs ps)

/-- The problem map of a team once all its pending lists have been resolved. -/
def settleMap (m : List (Char × ProblemStatus)) : List (Char × ProblemStatus) :=
  m.map (fun p => (p.1, settlePs p.2))

/-- The solve time of a solved problem, as a multiset with one element; the
empty multiset for an unsolved problem. -/
def timesOf (ps : ProblemStatus) : Multiset Int :=
  if ps.solved then {ps.solve_time} else 0

/-- The solve-time list of team `t` holds exactly the solve times of the solved
problems of the map `m`. -/
def TimesOk (m : List (Char × ProblemStatus)) (t : Team) : Prop :=
  (↑t.solve_times : Multiset Int) = mapSum timesOf m

/-- Team `tL` is what team `tF` becomes when all its pending lists are
resolved, as far as name, history and problem map go. -/
structure Sim (tF tL : Team) : Prop where
  name : tL.name = tF.name
  history : tL.all_submissions = tF.all_submissions
  problems : tL.problems = settleMap tF.problems

/-- Name, history and settled problem map of a team. -/
def settledKey (t : Team) : String × List Submission × List (Char × ProblemStatus) :=
  (t.name, t.all_submissions, settleMap t.problems)

/-- Name, history and problem map of a team. -/
def teamKey (t : Team) : String × List Submission × List (Char × ProblemStatus) :=
  (t.name, t.all_submissions, t.problems)

/-! ## The comparator is a strict total order -/

theorem compareTeams_eq_compareTail (a b : Team) :
    compareTeams a b =
      if a.solved_count ≠ b.solved_count then decide (a.solved_count > b.solved_count)
      else if a.penalty ≠ b.penalty then decide (a.penalty < b.penalty)
      else compareTail a.solve_times a.name b.solve_times b.name := rfl

theorem compareTail_nil_nil (n m : String) :
    compareTail [] n [] m = decide (n.toList < m.toList) := rfl

theorem compareTail_nil_cons (n m : String) (y : Int) (ys : List Int) :
    compareTail [] n (y :: ys) m = false := by
  simp [compareTail, firstDiff]

theorem compareTail_cons_nil (n m : String) (x : Int) (xs : List Int) :
    compareTail (x :: xs) n [] m = true := by
  simp [compareTail, firstDiff]

theorem compareTail_cons_cons (n m : String) (x y : Int) (xs ys : List Int) :
    compareTail (x :: xs) n (y :: ys) m =
      if x ≠ y then decide (x < y) else compareTail xs n ys m := by
  by_cases h : x = y
  · simp [compareTail, firstDiff, h]
  · simp [compareTail, firstDiff, h]

theorem name_lt_irrefl (n : String) : ¬ n.toList < n.toList := by
  rw [← String.lt_iff_toList_lt]; exact lt_irrefl n

theorem name_lt_trans {n m k : String} (h1 : n.toList < m.toList) (h2 : m.toList < k.toList) :
    n.toList < k.toList := by
  rw [← String.lt_iff_toList_lt] at *; exact lt_trans h1 h2

theorem name_lt_asymm {n m : String} (h1 : n.toList < m.toList) : ¬ m.toList < n.toList := by
  rw [← String.lt_iff_toList_lt] at *; exact lt_asymm h1

theorem name_lt_total {n m : String} (h : n ≠ m) : n.toList < m.toList ∨ m.toList < n.toList := by
  rw [← String.lt_iff_toList_lt, ← String.lt_iff_toList_lt]; exact lt_or_gt_of_ne h

theorem compareTail_irrefl (xs : List Int) (n : String) : compareTail xs n xs n = false := by
  induction xs with
  | nil => simp [compareTail_nil_nil, name_lt_irrefl]
  | cons x xs ih => simp [compareTail_cons_cons, ih]

theorem compareTail_trans (n m k : String) :
    ∀ xs ys zs : List Int, compareTail xs n ys m = true → compareTail ys m zs k = true →
      compareTail xs n zs k = true := by
  intro xs
  induction xs with
  | nil =>
    intro ys zs h1 h2
    cases ys with
    | nil =>
      cases zs with
      | nil =>
        simp only [compareTail_nil_nil, decide_eq_true_eq] at *
        exact name_lt_trans h1 h2
      | cons z zs => simp [compareTail_nil_cons] at h2
    | cons y ys => simp [compareTail_nil_cons] at h1
  | cons x xs ih =>
    intro ys zs h1 h2
    cases ys with
    | nil =>
      cases zs with
      | nil => exact compareTail_cons_nil _ _ _ _
      | cons z zs => simp [compareTail_nil_cons] at h2
    | cons y ys =>
      cases zs with
      | nil => exact compareTail_cons_nil _ _ _ _
      | cons z zs =>
        rw [compareTail_cons_cons] at h1 h2 ⊢
        by_cases hxy : x = y
        · subst hxy
          by_cases hxz : x = z
          · subst hxz
            simp only [ne_eq, not_true_eq_false, if_false] at h1 h2 ⊢
            exact ih ys zs h1 h2
          · simpa [hxz] using h2
        · by_cases hyz : y = z
          · subst hyz
            simpa [hxy] using h1
          · simp only [ne_eq, hxy, hyz, not_false_eq_true, if_true, decide_eq_true_eq] at h1 h2
            have hxz : x ≠ z := by omega
            simp only [ne_eq, hxz, not_false_eq_true, if_true, decide_eq_true_eq]
            omega

theorem compareTail_total (n m : String) (hnm : n ≠ m) :
    ∀ xs ys : List Int, (compareTail xs n ys m = true ∧ compareTail ys m xs n = false) ∨
      (compareTail xs n ys m = false ∧ compareTail ys m xs n = true) := by
  intro xs
  induction xs with
  | nil =>
    intro ys
    cases ys with
    | nil =>
      simp only [compareTail_nil_nil, decide_eq_true_eq, decide_eq_false_iff_not]
      rcases name_lt_total hnm with h | h
      · exact Or.inl ⟨h, name_lt_asymm h⟩
      · exact Or.inr ⟨name_lt_asymm h, h⟩
    | cons y ys => simp [compareTail_nil_cons, compareTail_cons_nil]
  | cons x xs ih =>
    intro ys
    cases ys with
    | nil => simp [compareTail_nil_cons, compareTail_cons_nil]
    | cons y ys =>
      rw [compareTail_cons_cons, compareTail_cons_cons]
      by_cases hxy : x = y
      · subst hxy
        simpa using ih ys
      · have hyx : y ≠ x := fun h => hxy h.symm
        simp only [ne_eq, hxy, hyx, not_false_eq_true, if_true, decide_eq_true_eq,
          decide_eq_false_iff_not]
        omega

theorem compareTeams_irrefl (a : Team) : compareTeams a a = false := by
  simp [compareTeams_eq_compareTail, compareTail_irrefl]

theorem compareTeams_trans (a b c : Team) (h1 : compareTeams a b = true)
    (h2 : compareTeams b c = true) : compareTeams a c = true := by
  rw [compareTeams_eq_compareTail] at h1 h2 ⊢
  by_cases e1 : a.solved_count = b.solved_count
  · by_cases e2 : b.solved_count = c.solved_count
    · have e3 : a.solved_count = c.solved_count := e1.trans e2
      simp only [ne_eq, e1, e2, e3, not_true_eq_false, if_false] at h1 h2 ⊢
      by_cases p1 : a.penalty = b.penalty
      · by_cases p2 : b.penalty = c.penalty
        · have p3 : a.penalty = c.penalty := p1.trans p2
          simp only [ne_eq, p1, p2, p3, not_true_eq_false, if_false] at h1 h2 ⊢
          exact compareTail_trans _ _ _ _ _ _ h1 h2
        · simp only [ne_eq, p1, p2, not_true_eq_false, not_false_eq_true, if_false, if_true,
            decide_eq_true_eq] at h1 h2 ⊢
          simp [p2, h2]
      · by_cases p2 : b.penalty = c.penalty
        · simp only [ne_eq, p1, p2, not_true_eq_false, not_false_eq_true, if_false, if_true,
            decide_eq_true_eq] at h1 h2 ⊢
          have : ¬ a.penalty = c.penalty := by omega
          simp only [this, not_false_eq_true, if_true, decide_eq_true_eq] at h1 ⊢
          omega
        · simp only [ne_eq, p1, p2, not_false_eq_true, if_true, decide_eq_true_eq] at h1 h2 ⊢
          have : ¬ a.penalty = c.penalty := by omega
          simp only [this, not_false_eq_true, if_true, decide_eq_true_eq]
          omega
    · simp only [ne_eq, e1, e2, not_true_eq_false, not_false_eq_true, if_false, if_true,
        decide_eq_true_eq] at h1 h2 ⊢
      simp [e2, h2]
  · by_cases e2 : b.solved_count = c.solved_count
    · simp only [ne_eq, e1, e2, not_true_eq_false, not_false_eq_true, if_false, if_true,
        decide_eq_true_eq] at h1 h2 ⊢
      have : ¬ a.solved_count = c.solved_count := by omega
      simp only [this, not_false_eq_true, if_true, decide_eq_true_eq] at h1 ⊢
      omega
    · simp only [ne_eq, e1, e2, not_false_eq_true, if_true, decide_eq_true_eq] at h1 h2 ⊢
      have : ¬ a.solved_count = c.solved_count := by omega
      simp only [this, not_false_eq_true, if_true, decide_eq_true_eq]
      omega

theorem compareTeams_total (a b : Team) (h : a.name ≠ b.name) :
    (compareTeams a b = true ∧ compareTeams b a = false) ∨
      (compareTeams a b = false ∧ compareTeams b a = true) := by
  rw [compareTeams_eq_compareTail, compareTeams_eq_compareTail]
  by_cases e1 : a.solved_count = b.solved_count
  · by_cases p1 : a.penalty = b.penalty
    · simp only [ne_eq, e1, p1, not_true_eq_false, if_false]
      exact compareTail_total _ _ h _ _
    · have p2 : ¬ b.penalty = a.penalty := fun h => p1 h.symm
      simp only [ne_eq, e1, p1, p2, not_true_eq_false, not_false_eq_true, if_false, if_true,
        decide_eq_true_eq, decide_eq_false_iff_not]
      omega
  · have e2 : ¬ b.solved_count = a.solved_count := fun h => e1 h.symm
    simp only [ne_eq, e1, e2, not_false_eq_true, if_true, decide_eq_true_eq,
      decide_eq_false_iff_not]
    omega

theorem firstDiff_of_take (x y : Int) (hxy : x ≠ y) :
    ∀ (i : Nat) (xs ys : List Int), xs.take i = ys.take i → xs[i]? = some x →
      ys[i]? = some y → firstDiff xs ys = some (x, y) := by
  intro i
  induction i with
  | zero =>
    intro xs ys _ hx hy
    cases xs with
    | nil => simp at hx
    | cons a xs =>
      cases ys with
      | nil => simp at hy
      | cons b ys =>
        simp only [List.getElem?_cons_zero, Option.some.injEq] at hx hy
        subst hx hy
        simp [firstDiff, hxy]
  | succ i ih =>
    intro xs ys ht hx hy
    cases xs with
    | nil => simp at hx
    | cons a xs =>
      cases ys with
      | nil => simp at hy
      | cons b ys =>
        simp only [List.take_succ_cons, List.cons.injEq] at ht
        simp only [List.getElem?_cons_succ] at hx hy
        simp [firstDiff, ht.1, ih xs ys ht.2 hx hy]

theorem firstDiff_self (xs : List Int) : firstDiff xs xs = none := by
  induction xs with
  | nil => rfl
  | cons x xs ih => simp [firstDiff, ih]

theorem compareTail_self (xs : List Int) (n m : String) :
    compareTail xs n xs m = decide (n.toList < m.toList) := by
  simp [compareTail, firstDiff_self]

theorem compareTail_of_firstDiff {xs ys : List Int} {x y : Int} (n m : String)
    (h : firstDiff xs ys = some (x, y)) : compareTail xs n ys m = decide (x < y) := by
  simp [compareTail, h]

/-- C1: `compareTeams` is a strict total order on teams: it is irreflexive and
transitive on arbitrary team states, and of two teams with different names
exactly one ranks before the other. -/
theorem compareTeams_strict_total_order (a b c : Team) :
    compareTeams a a = false ∧
    (compareTeams a b = true → compareTeams b c = true → compareTeams a c = true) ∧
    (a.name ≠ b.name →
      (compareTeams a b = true ∧ compareTeams b a = false) ∨
      (compareTeams a b = false ∧ compareTeams b a = true)) :=
  ⟨compareTeams_irrefl a, compareTeams_trans a b c, compareTeams_total a b⟩

/-- The order of C1 at three concrete teams: `B` (2 solved, penalty 30) is
before `A` (2 solved, penalty 40), which is before `C` (1 solved). -/
theorem compareTeams_strict_total_order_witness :
    compareTeams { name := "B", solved_count := 2, penalty := 30 }
        { name := "C", solved_count := 1, penalty := 5 } = true ∧
    ((compareTeams { name := "B", solved_count := 2, penalty := 30 }
        { name := "A", solved_count := 2, penalty := 40 } = true ∧
      compareTeams { name := "A", solved_count := 2, penalty := 40 }
        { name := "B", solved_count := 2, penalty := 30 } = false) ∨
     (compareTeams { name := "B", solved_count := 2, penalty := 30 }
        { name := "A", solved_count := 2, penalty := 40 } = false ∧
      compareTeams { name := "A", solved_count := 2, penalty := 40 }
        { name := "B", solved_count := 2, penalty := 30 } = true)) :=
  ⟨(compareTeams_strict_total_order { name := "B", solved_count := 2, penalty := 30 }
      { name := "A", solved_count := 2, penalty := 40 }
      { name := "C", solved_count := 1, penalty := 5 }).2.1 (by decide) (by decide),
   (compareTeams_strict_total_order { name := "B", solved_count := 2, penalty := 30 }
      { name := "A", solved_count := 2, penalty := 40 }
      { name := "C", solved_count := 1, penalty := 5 }).2.2 (by decide)⟩

/-- C2: `compareTeams` follows the tie-break chain in order: more solved
problems first; then lower penalty; then the smaller value at the first
position where the two solve-time lists differ; and when solved count, penalty
and solve-time lists are all equal, the lexicographically smaller name. -/
theorem compareTeams_tie_break_chain (a b : Team) :
    (a.solved_count > b.solved_count → compareTeams a b = true ∧ compareTeams b a = false) ∧
    (a.solved_count = b.solved_count → a.penalty < b.penalty →
      compareTeams a b = true ∧ compareTeams b a = false) ∧
    (a.solved_count = b.solved_count → a.penalty = b.penalty →
      ∀ (i : Nat) (x y : Int), a.solve_times.take i = b.solve_times.take i →
        a.solve_times[i]? = some x → b.solve_times[i]? = some y → x < y →
        compareTeams a b = true ∧ compareTeams b a = false) ∧
    (a.solved_count = b.solved_count → a.penalty = b.penalty →
      a.solve_times = b.solve_times → a.name < b.name →
      compareTeams a b = true ∧ compareTeams b a = false) := by
  refine ⟨?_, ?_, ?_, ?_⟩
  · intro h
    have h1 : a.solved_count ≠ b.solved_count := by omega
    have h2 : b.solved_count ≠ a.solved_count := by omega
    simp only [compareTeams_eq_compareTail, h1, h2, ne_eq, not_false_eq_true, if_true,
      decide_eq_true_eq, decide_eq_false_iff_not]
    omega
  · intro e h
    have h1 : a.penalty ≠ b.penalty := by omega
    have h2 : b.penalty ≠ a.penalty := by omega
    simp only [compareTeams_eq_compareTail, e, h1, h2, ne_eq, not_true_eq_false,
      not_false_eq_true, if_false, if_true, decide_eq_true_eq, decide_eq_false_iff_not]
    omega
  · intro e p i x y ht hx hy hlt
    have hxy : x ≠ y := by omega
    have hyx : y ≠ x := by omega
    have d1 := firstDiff_of_take x y hxy i _ _ ht hx hy
    have d2 := firstDiff_of_take y x hyx i _ _ ht.symm hy hx
    simp only [compareTeams_eq_compareTail, e, p, ne_eq, not_true_eq_false, if_false,
      compareTail_of_firstDiff _ _ d1, compareTail_of_firstDiff _ _ d2, decide_eq_true_eq,
      decide_eq_false_iff_not]
    omega
  · intro e p t hn
    have hn1 := String.lt_iff_toList_lt.mp hn
    simp only [compareTeams_eq_compareTail, e, p, t, ne_eq, not_true_eq_false, if_false,
      compareTail_self, decide_eq_true_eq, decide_eq_false_iff_not]
    exact ⟨hn1, name_lt_asymm hn1⟩

/-- The example of C2: `A` (solved 2, penalty 40) against `B` (solved 2,
penalty 30): `B` ranks above `A`. -/
theorem compareTeams_tie_break_chain_witness :
    compareTeams { name := "B", solved_count := 2, penalty := 30 }
        { name := "A", solved_count := 2, penalty := 40 } = true ∧
    compareTeams { name := "A", solved_count := 2, penalty := 40 }
        { name := "B", solved_count := 2, penalty := 30 } = false :=
  (compareTeams_tie_break_chain { name := "B", solved_count := 2, penalty := 30 }
    { name := "A", solved_count := 2, penalty := 40 }).2.1 (by decide) (by decide)

/-! ## The problem map -/

theorem findProblem_setProblem_same (m : List (Char × ProblemStatus)) (c : Char)
    (ps : ProblemStatus) : findProblem (setProblem m c ps) c = some ps := by
  induction m with
  | nil => simp [setProblem, findProblem]
  | cons kv m ih =>
    obtain ⟨k, v⟩ := kv
    unfold setProblem
    by_cases h1 : c < k
    · simp [h1, findProblem]
    · by_cases h2 : c = k
      · simp [h1, h2, findProblem]
      · have h3 : ¬ k = c := fun h => h2 h.symm
        simp [h1, h2, h3, findProblem, ih]

theorem findProblem_setProblem_other (m : List (Char × ProblemStatus)) (c d : Char)
    (ps : ProblemStatus) (hd : d ≠ c) :
    findProblem (setProblem m c ps) d = findProblem m d := by
  have hd1 : ¬ c = d := fun h => hd h.symm
  induction m with
  | nil => simp [setProblem, findProblem, hd1]
  | cons kv m ih =>
    obtain ⟨k, v⟩ := kv
    unfold setProblem
    by_cases h1 : c < k
    · simp [h1, findProblem, hd1]
    · by_cases h2 : c = k
      · subst h2
        simp [h1, findProblem, hd1]
      · by_cases h3 : k = d
        · subst h3
          simp [h1, h2, findProblem]
        · simp [h1, h2, h3, findProblem, ih]

theorem getProblem_setProblem_same (m : List (Char × ProblemStatus)) (c : Char)
    (ps : ProblemStatus) : getProblem (setProblem m c ps) c = ps := by
  simp [getProblem, findProblem_setProblem_same]

theorem getProblem_setProblem_other (m : List (Char × ProblemStatus)) (c d : Char)
    (ps : ProblemStatus) (hd : d ≠ c) :
    getProblem (setProblem m c ps) d = getProblem m d := by
  simp [getProblem, findProblem_setProblem_other m c d ps hd]

/-! ## Freeze isolation -/

theorem scoreEq_refl (t : Team) : ScoreEq t t :=
  ⟨Eq.refl _, Eq.refl _, Eq.refl _, Eq.refl _, Eq.refl _, fun _ => ⟨Eq.refl _, Eq.refl _, Eq.refl _⟩⟩

theorem scoreEq_trans {a b c : Team} (h1 : ScoreEq a b) (h2 : ScoreEq b c) : ScoreEq a c :=
  ⟨h2.name.trans h1.name, h2.solved_count.trans h1.solved_count, h2.penalty.trans h1.penalty,
    h2.solve_times.trans h1.solve_times, h2.ranking.trans h1.ranking,
    fun d => ⟨(h2.problems d).1.trans (h1.problems d).1,
      (h2.problems d).2.1.trans (h1.problems d).2.1,
      (h2.problems d).2.2.trans (h1.problems d).2.2⟩⟩

theorem scoreEq_compareTeams {a a1 b b1 : Team} (ha : ScoreEq a a1) (hb : ScoreEq b b1) :
    compareTeams a1 b1 = compareTeams a b := by
  simp only [compareTeams, ha.name, ha.solved_count, ha.penalty, ha.solve_times, hb.name,
    hb.solved_count, hb.penalty, hb.solve_times]

theorem submitTeam_frozen_scoreEq (problem : Char) (status : String) (time : Int) (team : Team) :
    ScoreEq team (submitTeam true problem status time team) := by
  by_cases hs : (getProblem team.problems problem).solved = true
  · refine ⟨?_, ?_, ?_, ?_, ?_, fun d => ?_⟩ <;> try simp [submitTeam, hs]
    by_cases hd : d = problem
    · subst hd
      simp [submitTeam, hs, getProblem_setProblem_same]
    · simp [submitTeam, hs, getProblem_setProblem_other _ _ _ _ hd]
  · have hs1 : (getProblem team.problems problem).solved = false := by simpa using hs
    refine ⟨?_, ?_, ?_, ?_, ?_, fun d => ?_⟩ <;> try simp [submitTeam, hs1]
    by_cases hd : d = problem
    · subst hd
      simp [submitTeam, hs1, getProblem_setProblem_same]
    · simp [submitTeam, hs1, getProblem_setProblem_other _ _ _ _ hd]

theorem modifyTeam_isSome (f : Team → Team) (name : String) (sb : List Team)
    (h : hasTeam sb name = true) : ∃ sb1, modifyTeam f name sb = some sb1 := by
  induction sb with
  | nil => simp [hasTeam] at h
  | cons t ts ih =>
    unfold modifyTeam
    by_cases hn : t.name = name
    · exact ⟨f t :: ts, by simp [hn]⟩
    · have h1 : hasTeam ts name = true := by
        simpa [hasTeam, hn] using h
      obtain ⟨r, hr⟩ := ih h1
      exact ⟨t :: r, by simp [hn, hr]⟩

theorem modifyTeam_forall₂ (R : Team → Team → Prop) (hrefl : ∀ t, R t t) (f : Team → Team)
    (hf : ∀ t, R t (f t)) (name : String) :
    ∀ sb sb1 : List Team, modifyTeam f name sb = some sb1 → List.Forall₂ R sb sb1 := by
  intro sb
  induction sb with
  | nil => intro sb1 h; simp [modifyTeam] at h
  | cons t ts ih =>
    intro sb1 h
    unfold modifyTeam at h
    by_cases hn : t.name = name
    · simp only [hn, if_true, Option.some.injEq] at h
      subst h
      exact List.Forall₂.cons (hf t) (List.forall₂_same.mpr (fun x _ => hrefl x))
    · simp only [hn, if_false, Option.map_eq_some'] at h
      obtain ⟨r, hr, rfl⟩ := h
      exact List.Forall₂.cons (hrefl t) (ih r hr)

theorem hasTeam_of_forall₂ {sb sb1 : List Team} (h : List.Forall₂ ScoreEq sb sb1)
    (name : String) : hasTeam sb1 name = hasTeam sb name := by
  induction h with
  | nil => rfl
  | cons hab _ ih =>
    simp only [hasTeam, List.any_cons] at ih ⊢
    rw [ih, hab.name]

theorem orderedInsert_scoreEq {a a1 : Team} (ha : ScoreEq a a1) :
    ∀ {l l1 : List Team}, List.Forall₂ ScoreEq l l1 →
      List.Forall₂ ScoreEq (l.orderedInsert (fun a b => compareTeams a b = true) a)
        (l1.orderedInsert (fun a b => compareTeams a b = true) a1) := by
  intro l l1 h
  induction h with
  | nil => exact List.Forall₂.cons ha List.Forall₂.nil
  | cons hb hl ih =>
    rename_i b b1 l l1
    simp only [List.orderedInsert, scoreEq_compareTeams ha hb]
    by_cases hc : compareTeams a b = true
    · simp only [hc, if_true]
      exact List.Forall₂.cons ha (List.Forall₂.cons hb hl)
    · simp only [hc, if_false]
      exact List.Forall₂.cons hb ih

theorem sortTeams_scoreEq {l l1 : List Team} (h : List.Forall₂ ScoreEq l l1) :
    List.Forall₂ ScoreEq (sortTeams l) (sortTeams l1) := by
  induction h with
  | nil => exact List.Forall₂.nil
  | cons ha _ ih =>
    simp only [sortTeams, List.insertionSort] at ih ⊢
    exact orderedInsert_scoreEq ha ih

theorem assignRankings_scoreEq {l l1 : List Team} (h : List.Forall₂ ScoreEq l l1) :
    ∀ i : Nat, List.Forall₂ ScoreEq (assignRankings l i) (assignRankings l1 i) := by
  induction h with
  | nil => intro i; exact List.Forall₂.nil
  | cons ha _ ih =>
    intro i
    simp only [assignRankings]
    exact List.Forall₂.cons
      ⟨ha.name, ha.solved_count, ha.penalty, ha.solve_times, Eq.refl _, ha.problems⟩ (ih (i + 1))

theorem updateRankings_scoreEq {l l1 : List Team} (h : List.Forall₂ ScoreEq l l1) :
    List.Forall₂ ScoreEq (updateRankings l) (updateRankings l1) :=
  assignRankings_scoreEq (sortTeams_scoreEq h) 0

theorem submit_frozen_scoreEq (s : ICPCSystem) (hf : s.frozen = true) (problem : Char)
    (team_name status : String) (time : Int) (ht : hasTeam s.scoreboard team_name = true) :
    ∃ s1, s.submit problem team_name status time = some s1 ∧ s1.frozen = true ∧
      s1.started = s.started ∧ List.Forall₂ ScoreEq s.scoreboard s1.scoreboard := by
  obtain ⟨sb1, h1⟩ := modifyTeam_isSome (submitTeam s.frozen problem status time) team_name
    s.scoreboard ht
  refine ⟨{ s with scoreboard := sb1 }, by simp [ICPCSystem.submit, h1], hf, Eq.refl _, ?_⟩
  refine modifyTeam_forall₂ ScoreEq scoreEq_refl _ ?_ team_name _ _ h1
  intro t
  rw [hf]
  exact submitTeam_frozen_scoreEq problem status time t

theorem forall₂_scoreEq_trans {l1 l2 l3 : List Team} (h1 : List.Forall₂ ScoreEq l1 l2)
    (h2 : List.Forall₂ ScoreEq l2 l3) : List.Forall₂ ScoreEq l1 l3 := by
  induction h1 generalizing l3 with
  | nil => cases h2; exact List.Forall₂.nil
  | cons ha _ ih =>
    cases h2 with
    | cons hb hl => exact List.Forall₂.cons (scoreEq_trans ha hb) (ih hl)

theorem submitAll_frozen_scoreEq (subs : List (Char × String × String × Int)) :
    ∀ s : ICPCSystem, s.frozen = true →
      (∀ q ∈ subs, hasTeam s.scoreboard q.2.1 = true) →
      ∃ s2, submitAll s subs = some s2 ∧ s2.frozen = true ∧
        List.Forall₂ ScoreEq s.scoreboard s2.scoreboard := by
  induction subs with
  | nil =>
    intro s hf _
    exact ⟨s, rfl, hf, List.forall₂_same.mpr (fun x _ => scoreEq_refl x)⟩
  | cons q rest ih =>
    intro s hf ht
    obtain ⟨s1, e1, f1, _, r1⟩ := submit_frozen_scoreEq s hf q.1 q.2.1 q.2.2.1 q.2.2.2
      (ht q (List.mem_cons_self _ _))
    obtain ⟨s2, e2, f2, r2⟩ := ih s1 f1 (fun q1 hq1 => by
      rw [hasTeam_of_forall₂ r1]
      exact ht q1 (List.mem_cons_of_mem _ hq1))
    exact ⟨s2, by simp [submitAll, e1, e2], f2, forall₂_scoreEq_trans r1 r2⟩

/-- C3: freeze isolation.  In a frozen state a `submit` of an existing team
succeeds and leaves the scoreboard order and, for every team, the name, solved
count, penalty, solve-time list, ranking and every problem's solved flag, solve
time and wrong-attempt count unchanged; and after any number of such
submissions a refresh gives the same order, ranks and scores as a refresh
before them. -/
theorem freeze_isolation (s : ICPCSystem) (hf : s.frozen = true) :
    (∀ (problem : Char) (team_name status : String) (time : Int),
      hasTeam s.scoreboard team_name = true →
      ∃ s1, s.submit problem team_name status time = some s1 ∧ s1.frozen = true ∧
        List.Forall₂ ScoreEq s.scoreboard s1.scoreboard) ∧
    (∀ subs : List (Char × String × String × Int),
      (∀ q ∈ subs, hasTeam s.scoreboard q.2.1 = true) →
      ∃ s2, submitAll s subs = some s2 ∧
        List.Forall₂ ScoreEq s.flush.1.scoreboard s2.flush.1.scoreboard) := by
  constructor
  · intro problem team_name status time ht
    obtain ⟨s1, e1, f1, _, r1⟩ := submit_frozen_scoreEq s hf problem team_name status time ht
    exact ⟨s1, e1, f1, r1⟩
  · intro subs ht
    obtain ⟨s2, e2, _, r2⟩ := submitAll_frozen_scoreEq subs s hf ht
    exact ⟨s2, e2, updateRankings_scoreEq r2⟩

/-! ## Invariants of the problem map -/

theorem mem_setProblem {m : List (Char × ProblemStatus)} {c : Char} {ps : ProblemStatus}
    {p : Char × ProblemStatus} (h : p ∈ setProblem m c ps) : p = (c, ps) ∨ p ∈ m := by
  induction m with
  | nil => simpa [setProblem] using h
  | cons kv m ih =>
    obtain ⟨k, v⟩ := kv
    unfold setProblem at h
    by_cases h1 : c < k
    · simp only [h1, if_true, List.mem_cons] at h
      rcases h with h | h | h
      · exact Or.inl h
      · exact Or.inr (by simp [h])
      · exact Or.inr (by simp [h])
    · by_cases h2 : c = k
      · subst h2
        simp only [h1, if_false, if_true, List.mem_cons] at h
        rcases h with h | h
        · exact Or.inl h
        · exact Or.inr (by simp [h])
      · simp only [h1, h2, if_false, List.mem_cons] at h
        rcases h with h | h
        · exact Or.inr (by simp [h])
        · rcases ih h with h | h
          · exact Or.inl h
          · exact Or.inr (by simp [h])

theorem findProblem_none_of_lt {m : List (Char × ProblemStatus)} {c : Char}
    (h : ∀ p ∈ m, c < p.1) : findProblem m c = none := by
  induction m with
  | nil => rfl
  | cons kv m ih =>
    obtain ⟨k, v⟩ := kv
    have hk : c < k := h (k, v) (List.mem_cons_self _ _)
    have hne : ¬ k = c := fun e => by rw [e] at hk; exact lt_irrefl _ hk
    simp only [findProblem, hne, if_false]
    exact ih (fun p hp => h p (List.mem_cons_of_mem _ hp))

theorem keysSorted_setProblem {m : List (Char × ProblemStatus)} (c : Char) (ps : ProblemStatus)
    (h : KeysSorted m) : KeysSorted (setProblem m c ps) := by
  induction m with
  | nil => simp [setProblem, KeysSorted]
  | cons kv m ih =>
    obtain ⟨k, v⟩ := kv
    unfold KeysSorted at h ih ⊢
    rw [List.pairwise_cons] at h
    unfold setProblem
    by_cases h1 : c < k
    · simp only [h1, if_true]
      refine List.Pairwise.cons ?_ (List.Pairwise.cons h.1 h.2)
      intro q hq
      rcases List.mem_cons.mp hq with hq | hq
      · rw [hq]; exact h1
      · exact lt_trans h1 (h.1 q hq)
    · by_cases h2 : c = k
      · subst h2
        simp only [h1, if_false, if_true]
        exact List.Pairwise.cons h.1 h.2
      · simp only [h1, h2, if_false]
        refine List.Pairwise.cons ?_ (ih h.2)
        intro q hq
        rcases mem_setProblem hq with hq | hq
        · rw [hq]
          exact lt_of_le_of_ne (not_lt.mp h1) (fun e => h2 e.symm)
        · exact h.1 q hq

theorem mapSum_setProblem {β : Type} [AddCommMonoid β] (g : ProblemStatus → β)
    {m : List (Char × ProblemStatus)} (c : Char) (ps : ProblemStatus) (h : KeysSorted m) :
    mapSum g (setProblem m c ps) + valueAt g m c = mapSum g m + g ps := by
  induction m with
  | nil => simp [setProblem, mapSum, valueAt, findProblem]
  | cons kv m ih =>
    obtain ⟨k, v⟩ := kv
    unfold KeysSorted at h ih
    rw [List.pairwise_cons] at h
    unfold setProblem
    by_cases h1 : c < k
    · have hnone : findProblem ((k, v) :: m) c = none := by
        apply findProblem_none_of_lt
        intro q hq
        rcases List.mem_cons.mp hq with hq | hq
        · rw [hq]; exact h1
        · exact lt_trans h1 (h.1 q hq)
      simp only [h1, if_true, valueAt, hnone, mapSum, List.map_cons, List.sum_cons, add_zero]
      exact add_comm _ _
    · by_cases h2 : c = k
      · subst h2
        simp only [h1, if_false, if_true, valueAt, findProblem, mapSum, List.map_cons,
          List.sum_cons]
        abel
      · have h3 : ¬ k = c := fun e => h2 e.symm
        have ih1 := ih h.2
        simp only [h1, h2, if_false, valueAt, findProblem, h3, mapSum, List.map_cons,
          List.sum_cons] at ih1 ⊢
        rw [add_assoc, ih1, add_assoc]

/-! ## The binary search of `lower_bound` and the sorted insertion -/

theorem sorted_index {v : List Int} (h : v.Pairwise (fun x y => x ≥ y)) {i j : Nat} {x y : Int}
    (hij : i ≤ j) (hx : v[i]? = some x) (hy : v[j]? = some y) : y ≤ x := by
  rcases Nat.eq_or_lt_of_le hij with e | l
  · subst e
    rw [hx] at hy
    cases hy
    exact le_refl _
  · obtain ⟨hi, ex⟩ := List.getElem?_eq_some.mp hx
    obtain ⟨hj, ey⟩ := List.getElem?_eq_some.mp hy
    have := List.pairwise_iff_getElem.mp h i j hi hj l
    rw [ex, ey] at this
    exact this

theorem lowerBoundLoop_spec (v : List Int) (val : Int) (hs : v.Pairwise (fun x y => x ≥ y)) :
    ∀ (fuel first len : Nat), len ≤ fuel → first + len ≤ v.length →
      (∀ j x, j < first → v[j]? = some x → x > val) →
      (∀ j x, first + len ≤ j → v[j]? = some x → x ≤ val) →
      lowerBoundLoop v val fuel first len ≤ v.length ∧
      (∀ j x, j < lowerBoundLoop v val fuel first len → v[j]? = some x → x > val) ∧
      (∀ j x, lowerBoundLoop v val fuel first len ≤ j → v[j]? = some x → x ≤ val) := by
  intro fuel
  induction fuel with
  | zero =>
    intro first len hl hb hlo hhi
    have : len = 0 := by omega
    subst this
    exact ⟨by simpa [lowerBoundLoop] using hb, by simpa [lowerBoundLoop] using hlo,
      by simpa [lowerBoundLoop] using hhi⟩
  | succ fuel ih =>
    intro first len hl hb hlo hhi
    unfold lowerBoundLoop
    by_cases hpos : len > 0
    · have hmid : first + len / 2 < v.length := by
        have : len / 2 < len := Nat.div_lt_self hpos (by decide)
        omega
      have hget : v[first + len / 2]? = some v[first + len / 2] := List.getElem?_eq_getElem hmid
      simp only [hpos, if_true, hget]
      by_cases hx : v[first + len / 2] > val
      · simp only [hx, if_true]
        apply ih
        · omega
        · have : len / 2 < len := Nat.div_lt_self hpos (by decide)
          omega
        · intro j x hj hjx
          have := sorted_index hs (Nat.le_of_lt_succ hj) hjx hget
          omega
        · intro j x hj hjx
          apply hhi j x _ hjx
          have : len / 2 < len := Nat.div_lt_self hpos (by decide)
          omega
      · simp only [hx, if_false]
        apply ih
        · have : len / 2 < len := Nat.div_lt_self hpos (by decide)
          omega
        · omega
        · exact hlo
        · intro j x hj hjx
          have := sorted_index hs hj hget hjx
          omega
    · have : len = 0 := by omega
      subst this
      simp only [gt_iff_lt, lt_self_iff_false, if_false]
      exact ⟨by omega, hlo, by simpa using hhi⟩

theorem lower_bound_spec (v : List Int) (val : Int) (hs : v.Pairwise (fun x y => x ≥ y)) :
    (∀ x ∈ v.take (lower_bound v val), x > val) ∧
    (∀ y ∈ v.drop (lower_bound v val), y ≤ val) := by
  obtain ⟨_, h2, h3⟩ := lowerBoundLoop_spec v val hs v.length 0 v.length (le_refl _) (by omega)
    (fun j x hj _ => absurd hj (Nat.not_lt_zero j))
    (fun j x hj hjx => by
      have := (List.getElem?_eq_some.mp hjx).1
      omega)
  constructor
  · intro x hx
    obtain ⟨i, hi, rfl⟩ := List.mem_take_iff_getElem.mp hx
    have hi1 : i < v.length := by omega
    have hi2 : i < lower_bound v val := by omega
    exact h2 i _ hi2 (List.getElem?_eq_getElem hi1)
  · intro y hy
    obtain ⟨i, hi, rfl⟩ := List.mem_drop_iff_getElem.mp hy
    have hi1 : lower_bound v val + i < v.length := by omega
    have hi2 : lower_bound v val ≤ lower_bound v val + i := by omega
    exact h3 _ _ hi2 (List.getElem?_eq_getElem hi1)

theorem insertAt_lower_bound_sorted (v : List Int) (val : Int)
    (hs : v.Pairwise (fun x y => x ≥ y)) :
    (insertAt v (lower_bound v val) val).Pairwise (fun x y => x ≥ y) := by
  obtain ⟨h1, h2⟩ := lower_bound_spec v val hs
  have hsplit : (v.take (lower_bound v val) ++ v.drop (lower_bound v val)).Pairwise
      (fun x y => x ≥ y) := by
    rw [List.take_append_drop]; exact hs
  rw [List.pairwise_append] at hsplit
  unfold insertAt
  rw [List.pairwise_append]
  refine ⟨hsplit.1, List.Pairwise.cons (fun y hy => h2 y hy) hsplit.2.1, ?_⟩
  intro x hx y hy
  rcases List.mem_cons.mp hy with hy | hy
  · rw [hy]; exact le_of_lt (h1 x hx)
  · exact hsplit.2.2 x hx y hy

theorem insertAt_length (v : List Int) (pos : Nat) (val : Int) :
    (insertAt v pos val).length = v.length + 1 := by
  have : (v.take pos ++ v.drop pos).length = v.length := by rw [List.take_append_drop]
  simp only [List.length_append] at this
  simp only [insertAt, List.length_append, List.length_cons]
  omega

/-! ## Sums over the problem map under the updates of `submit` and `scroll` -/

theorem setProblem_setProblem (m : List (Char × ProblemStatus)) (c : Char)
    (ps ps1 : ProblemStatus) : setProblem (setProblem m c ps) c ps1 = setProblem m c ps1 := by
  induction m with
  | nil => simp [setProblem]
  | cons kv m ih =>
    obtain ⟨k, v⟩ := kv
    by_cases h1 : c < k
    · simp [setProblem, h1]
    · by_cases h2 : c = k
      · subst h2
        simp [setProblem]
      · simp [setProblem, h1, h2, ih]

theorem valueAt_setProblem_same {β : Type} [AddCommMonoid β] (g : ProblemStatus → β)
    (m : List (Char × ProblemStatus)) (c : Char) (ps : ProblemStatus) :
    valueAt g (setProblem m c ps) c = g ps := by
  simp [valueAt, findProblem_setProblem_same]

theorem valueAt_eq_getProblem {β : Type} [AddCommMonoid β] (g : ProblemStatus → β)
    (hg : g {} = 0) (m : List (Char × ProblemStatus)) (c : Char) :
    valueAt g m c = g (getProblem m c) := by
  unfold valueAt getProblem
  cases findProblem m c with
  | none => exact hg.symm
  | some v => rfl

theorem mapSum_setProblem_twice {β : Type} [AddCommMonoid β] (g : ProblemStatus → β)
    {m : List (Char × ProblemStatus)} (c : Char) (ps ps1 : ProblemStatus) (h : KeysSorted m) :
    mapSum g (setProblem m c ps1) + g ps = mapSum g (setProblem m c ps) + g ps1 := by
  have := mapSum_setProblem g c ps1 (keysSorted_setProblem c ps h)
  rw [setProblem_setProblem, valueAt_setProblem_same] at this
  exact this

theorem mapSum_setProblem_congr {β : Type} [AddCancelCommMonoid β] (g : ProblemStatus → β)
    {m : List (Char × ProblemStatus)} (c : Char) (ps ps1 : ProblemStatus) (h : KeysSorted m)
    (hg : g ps = g ps1) : mapSum g (setProblem m c ps1) = mapSum g (setProblem m c ps) := by
  have := mapSum_setProblem_twice g c ps ps1 h
  rw [hg] at this
  exact add_right_cancel this

theorem mapSum_setProblem_get {β : Type} [AddCancelCommMonoid β] (g : ProblemStatus → β)
    (hg : g {} = 0) {m : List (Char × ProblemStatus)} (c : Char) (h : KeysSorted m) :
    mapSum g (setProblem m c (getProblem m c)) = mapSum g m := by
  have := mapSum_setProblem g c (getProblem m c) h
  rw [valueAt_eq_getProblem g hg] at this
  exact add_right_cancel this

theorem scoreOk_congr {m m1 : List (Char × ProblemStatus)} {t t1 : Team}
    (h : ScoreOk m t) (e1 : mapSum solvedOf m1 = mapSum solvedOf m)
    (e2 : mapSum penaltyOf m1 = mapSum penaltyOf m) (e3 : t1.solve_times = t.solve_times)
    (e4 : t1.solved_count = t.solved_count) (e5 : t1.penalty = t.penalty) : ScoreOk m1 t1 :=
  ⟨by rw [e3]; exact h.sorted, by rw [e3, e4]; exact h.length, by rw [e4, e1]; exact h.solved,
    by rw [e5, e2]; exact h.penalty⟩

theorem judge_scoreOk {m : List (Char × ProblemStatus)} (c : Char) (hk : KeysSorted m)
    (status : String) (time : Int) (t : Team) (ps : ProblemStatus) (hs : ps.solved = false)
    (h : ScoreOk (setProblem m c ps) t) :
    ScoreOk (setProblem m c (judge status time t ps).2) (judge status time t ps).1 := by
  unfold judge
  by_cases ha : status = "Accepted"
  · simp only [ha, if_true]
    have e1 := mapSum_setProblem_twice solvedOf c ps
      ({ ps with solved := true, solve_time := time }) hk
    have e2 := mapSum_setProblem_twice penaltyOf c ps
      ({ ps with solved := true, solve_time := time }) hk
    simp only [solvedOf, penaltyOf, hs, Bool.false_eq_true, if_false, if_true, add_zero] at e1 e2
    refine ⟨insertAt_lower_bound_sorted _ _ h.sorted, ?_, ?_, ?_⟩
    · simp only [insertAt_length]
      have := h.length
      push_cast
      omega
    · have := h.solved
      simp only [solvedOf] at this ⊢
      rw [e1]
      push_cast
      omega
    · have := h.penalty
      simp only [penaltyOf] at this ⊢
      rw [e2, this]
  · simp only [ha, if_false]
    refine scoreOk_congr h ?_ ?_ rfl rfl rfl
    · exact mapSum_setProblem_congr solvedOf c ps _ hk (by simp [solvedOf])
    · exact mapSum_setProblem_congr penaltyOf c ps _ hk (by simp [penaltyOf, hs])

theorem judge_frame (status : String) (time : Int) (t : Team) (ps : ProblemStatus) :
    (judge status time t ps).1.name = t.name ∧
    (judge status time t ps).1.problems = t.problems ∧
    (judge status time t ps).1.all_submissions = t.all_submissions ∧
    (judge status time t ps).1.ranking = t.ranking ∧
    (judge status time t ps).2.frozen_submissions = ps.frozen_submissions ∧
    (judge status time t ps).2.frozen_subs = ps.frozen_subs := by
  unfold judge
  by_cases ha : status = "Accepted" <;> simp [ha]

theorem replay_scoreOk {m : List (Char × ProblemStatus)} (c : Char) (hk : KeysSorted m)
    (subs : List Submission) :
    ∀ (t : Team) (ps : ProblemStatus), ScoreOk (setProblem m c ps) t →
      ScoreOk (setProblem m c (replay subs t ps).2) (replay subs t ps).1 := by
  induction subs with
  | nil => intro t ps h; exact h
  | cons sub subs ih =>
    intro t ps h
    unfold replay
    by_cases hs : ps.solved = true
    · simp only [hs, Bool.not_true, Bool.false_eq_true, if_false]
      exact ih t ps h
    · have hs1 : ps.solved = false := by simpa using hs
      simp only [hs1, Bool.not_false, if_true]
      exact ih _ _ (judge_scoreOk c hk sub.status sub.time t ps hs1 h)

theorem replay_frame (subs : List Submission) :
    ∀ (t : Team) (ps : ProblemStatus),
      (replay subs t ps).1.name = t.name ∧
      (replay subs t ps).1.problems = t.problems ∧
      (replay subs t ps).1.all_submissions = t.all_submissions ∧
      (replay subs t ps).1.ranking = t.ranking ∧
      (replay subs t ps).2.frozen_submissions = ps.frozen_submissions ∧
      (replay subs t ps).2.frozen_subs = ps.frozen_subs := by
  induction subs with
  | nil => intro t ps; exact ⟨rfl, rfl, rfl, rfl, rfl, rfl⟩
  | cons sub subs ih =>
    intro t ps
    unfold replay
    by_cases hs : ps.solved = true
    · simp only [hs, Bool.not_true, Bool.false_eq_true, if_false]
      exact ih t ps
    · have hs1 : ps.solved = false := by simpa using hs
      simp only [hs1, Bool.not_false, if_true]
      obtain ⟨a1, a2, a3, a4, a5, a6⟩ := ih (judge sub.status sub.time t ps).1
        (judge sub.status sub.time t ps).2
      obtain ⟨b1, b2, b3, b4, b5, b6⟩ := judge_frame sub.status sub.time t ps
      exact ⟨a1.trans b1, a2.trans b2, a3.trans b3, a4.trans b4, a5.trans b5, a6.trans b6⟩

/-! ## The team invariant under `submit` and under the resolution of a problem -/

theorem findProblem_mem {m : List (Char × ProblemStatus)} {c : Char} {v : ProblemStatus}
    (h : findProblem m c = some v) : (c, v) ∈ m := by
  induction m with
  | nil => simp [findProblem] at h
  | cons kv m ih =>
    obtain ⟨k, w⟩ := kv
    unfold findProblem at h
    by_cases hk : k = c
    · simp only [hk, if_true, Option.some.injEq] at h
      simp [hk, h]
    · simp only [hk, if_false] at h
      exact List.mem_cons_of_mem _ (ih h)

theorem getProblem_of_forall (P : ProblemStatus → Prop) (hd : P {})
    {m : List (Char × ProblemStatus)} (h : ∀ p ∈ m, P p.2) (c : Char) : P (getProblem m c) := by
  unfold getProblem
  cases hf : findProblem m c with
  | none => exact hd
  | some v => exact h (c, v) (findProblem_mem hf)

theorem forall_setProblem (P : ProblemStatus → Prop) {m : List (Char × ProblemStatus)}
    (h : ∀ p ∈ m, P p.2) (c : Char) {ps : ProblemStatus} (hps : P ps) :
    ∀ p ∈ setProblem m c ps, P p.2 := by
  intro p hp
  rcases mem_setProblem hp with e | hm
  · rw [e]; exact hps
  · exact h p hm

theorem pendingOk_default : PendingOk {} := by
  simp [PendingOk]

theorem teamInv_ranking {t : Team} (h : TeamInv t) (r : Int) :
    TeamInv { t with ranking := r } :=
  ⟨h.keys, ⟨h.score.sorted, h.score.length, h.score.solved, h.score.penalty⟩, h.pending⟩

theorem scoreOk_getProblem {m : List (Char × ProblemStatus)} {t : Team} (c : Char)
    (hk : KeysSorted m) (h : ScoreOk m t) : ScoreOk (setProblem m c (getProblem m c)) t :=
  scoreOk_congr h (mapSum_setProblem_get solvedOf rfl c hk)
    (mapSum_setProblem_get penaltyOf rfl c hk) rfl rfl rfl

theorem submitTeam_teamInv (frozen : Bool) (problem : Char) (status : String) (time : Int)
    {team : Team} (h : TeamInv team)
    (hlive : frozen = false → ∀ p ∈ team.problems, p.2.frozen_submissions = 0) :
    TeamInv (submitTeam frozen problem status time team) ∧
    (frozen = false →
      ∀ p ∈ (submitTeam frozen problem status time team).problems, p.2.frozen_submissions = 0) := by
  have hps : PendingOk (getProblem team.problems problem) :=
    getProblem_of_forall PendingOk pendingOk_default h.pending problem
  have hbase := scoreOk_getProblem problem h.keys h.score
  by_cases hs : (getProblem team.problems problem).solved = true
  · -- already solved: only `problems[problem]` is touched
    have e : submitTeam frozen problem status time team =
        { team with
          all_submissions := team.all_submissions ++ [⟨String.singleton problem, status, time⟩]
          problems := setProblem team.problems problem (getProblem team.problems problem) } := by
      cases frozen <;> simp [submitTeam, hs]
    rw [e]
    refine ⟨⟨keysSorted_setProblem _ _ h.keys, scoreOk_congr hbase rfl rfl rfl rfl rfl,
      forall_setProblem PendingOk h.pending _ hps⟩, ?_⟩
    intro hf
    exact forall_setProblem (fun ps => ps.frozen_submissions = 0) (hlive hf) _
      (getProblem_of_forall (fun ps => ps.frozen_submissions = 0) rfl (hlive hf) problem)
  · have hs1 : (getProblem team.problems problem).solved = false := by simpa using hs
    cases frozen with
    | true =>
      have e : submitTeam true problem status time team =
          { team with
            all_submissions :=
              team.all_submissions ++ [⟨String.singleton problem, status, time⟩]
            problems := setProblem team.problems problem
              ({ getProblem team.problems problem with
                frozen_submissions := (getProblem team.problems problem).frozen_submissions + 1
                frozen_subs := (getProblem team.problems problem).frozen_subs ++
                  [⟨String.singleton problem, status, time⟩] }) } := by
        simp [submitTeam, hs1]
      rw [e]
      refine ⟨⟨keysSorted_setProblem _ _ h.keys, ?_, ?_⟩, fun hf => by simp at hf⟩
      · refine scoreOk_congr hbase ?_ ?_ rfl rfl rfl
        · exact mapSum_setProblem_congr solvedOf _ _ _ h.keys (by simp [solvedOf])
        · exact mapSum_setProblem_congr penaltyOf _ _ _ h.keys (by simp [penaltyOf])
      · apply forall_setProblem PendingOk h.pending
        refine ⟨?_, fun hsol => ?_⟩
        · simp only [List.length_append, List.length_singleton]
          have := hps.1
          push_cast
          omega
        · simp [hs1] at hsol
    | false =>
      have hzero : (getProblem team.problems problem).frozen_submissions = 0 :=
        getProblem_of_forall (fun ps => ps.frozen_submissions = 0) rfl (hlive rfl) problem
      have hj := judge_scoreOk problem h.keys status time
        ({ team with
          all_submissions := team.all_submissions ++ [⟨String.singleton problem, status, time⟩] })
        (getProblem team.problems problem) hs1
        (scoreOk_congr hbase rfl rfl rfl rfl rfl)
      obtain ⟨_, _, _, _, f5, f6⟩ := judge_frame status time
        ({ team with
          all_submissions := team.all_submissions ++ [⟨String.singleton problem, status, time⟩] })
        (getProblem team.problems problem)
      simp only [submitTeam, hs1, Bool.false_and, Bool.false_eq_true, if_false, Bool.not_false,
        Bool.and_self, if_true]
      refine ⟨⟨keysSorted_setProblem _ _ h.keys, scoreOk_congr hj rfl rfl rfl rfl rfl, ?_⟩, ?_⟩
      · apply forall_setProblem PendingOk h.pending
        refine ⟨?_, fun _ => ?_⟩
        · rw [f5, f6]; exact hps.1
        · rw [f5]; exact hzero
      · intro _
        apply forall_setProblem (fun ps => ps.frozen_submissions = 0) (hlive rfl)
        show (judge _ _ _ _).2.frozen_submissions = 0
        rw [f5]; exact hzero

theorem resolveProblem_teamInv {target : Team} (h : TeamInv target) (c : Char) :
    TeamInv (resolveProblem target c) := by
  have hbase := scoreOk_getProblem c h.keys h.score
  have hr := replay_scoreOk c h.keys (getProblem target.problems c).frozen_subs target
    (getProblem target.problems c) hbase
  unfold resolveProblem
  refine ⟨keysSorted_setProblem _ _ h.keys, ?_, ?_⟩
  · refine scoreOk_congr hr ?_ ?_ rfl rfl rfl
    · exact mapSum_setProblem_congr solvedOf _ _ _ h.keys (by simp [solvedOf])
    · exact mapSum_setProblem_congr penaltyOf _ _ _ h.keys (by simp [penaltyOf])
  · apply forall_setProblem PendingOk h.pending
    simp [PendingOk]

/-! ## Re-sorting, team lookup and the target search -/

theorem assignRankings_map {β : Type} (f : Team → β)
    (hf : ∀ (t : Team) (r : Int), f { t with ranking := r } = f t) :
    ∀ (l : List Team) (i : Nat), (assignRankings l i).map f = l.map f := by
  intro l
  induction l with
  | nil => intro i; rfl
  | cons t ts ih =>
    intro i
    simp only [assignRankings, List.map_cons, hf, ih]

theorem mem_assignRankings {t : Team} :
    ∀ {l : List Team} {i : Nat}, t ∈ assignRankings l i →
      ∃ t0 ∈ l, ∃ r : Int, t = { t0 with ranking := r } := by
  intro l
  induction l with
  | nil => intro i h; simp [assignRankings] at h
  | cons a l ih =>
    intro i h
    simp only [assignRankings, List.mem_cons] at h
    rcases h with h | h
    · exact ⟨a, List.mem_cons_self _ _, _, h⟩
    · obtain ⟨t0, h0, r, e⟩ := ih h
      exact ⟨t0, List.mem_cons_of_mem _ h0, r, e⟩

theorem assignRankings_length : ∀ (l : List Team) (i : Nat),
    (assignRankings l i).length = l.length := by
  intro l
  induction l with
  | nil => intro i; rfl
  | cons t ts ih => intro i; simp [assignRankings, ih]

theorem sortTeams_perm (l : List Team) : (sortTeams l).Perm l :=
  List.perm_insertionSort _ l

theorem updateRankings_length (l : List Team) : (updateRankings l).length = l.length := by
  unfold updateRankings
  rw [assignRankings_length]
  exact (sortTeams_perm l).length_eq

theorem updateRankings_map_perm {β : Type} (f : Team → β)
    (hf : ∀ (t : Team) (r : Int), f { t with ranking := r } = f t) (l : List Team) :
    ((updateRankings l).map f).Perm (l.map f) := by
  unfold updateRankings
  rw [assignRankings_map f hf]
  exact (sortTeams_perm l).map f

theorem mem_updateRankings {t : Team} {l : List Team} (h : t ∈ updateRankings l) :
    ∃ t0 ∈ l, ∃ r : Int, t = { t0 with ranking := r } := by
  obtain ⟨t0, h0, r, e⟩ := mem_assignRankings h
  exact ⟨t0, (sortTeams_perm l).mem_iff.mp h0, r, e⟩

theorem updateRankings_names_nodup {l : List Team} (h : (l.map (fun t => t.name)).Nodup) :
    ((updateRankings l).map (fun t => t.name)).Nodup :=
  (updateRankings_map_perm (fun t => t.name) (fun _ _ => rfl) l).nodup_iff.mpr h

theorem updateRankings_teamInv {l : List Team} (h : ∀ t ∈ l, TeamInv t) :
    ∀ t ∈ updateRankings l, TeamInv t := by
  intro t ht
  obtain ⟨t0, h0, r, e⟩ := mem_updateRankings ht
  rw [e]
  exact teamInv_ranking (h t0 h0) r

theorem updateRankings_forall_problems (P : Char × ProblemStatus → Prop) {l : List Team}
    (h : ∀ t ∈ l, ∀ p ∈ t.problems, P p) : ∀ t ∈ updateRankings l, ∀ p ∈ t.problems, P p := by
  intro t ht
  obtain ⟨t0, h0, r, e⟩ := mem_updateRankings ht
  rw [e]
  exact h t0 h0

theorem modifyTeam_map {β : Type} (g : Team → β) (f : Team → Team) (hf : ∀ t, g (f t) = g t)
    (name : String) :
    ∀ sb sb1 : List Team, modifyTeam f name sb = some sb1 → sb1.map g = sb.map g := by
  intro sb
  induction sb with
  | nil => intro sb1 h; simp [modifyTeam] at h
  | cons t ts ih =>
    intro sb1 h
    unfold modifyTeam at h
    by_cases hn : t.name = name
    · simp only [hn, if_true, Option.some.injEq] at h
      subst h
      simp [hf]
    · simp only [hn, if_false, Option.map_eq_some'] at h
      obtain ⟨r, hr, rfl⟩ := h
      simp [ih r hr]

theorem modifyTeam_forall (P : Team → Prop) (f : Team → Team) (name : String) :
    ∀ sb sb1 : List Team, modifyTeam f name sb = some sb1 → (∀ t ∈ sb, P t) →
      (∀ t ∈ sb, P (f t)) → ∀ t ∈ sb1, P t := by
  intro sb
  induction sb with
  | nil => intro sb1 h; simp [modifyTeam] at h
  | cons a ts ih =>
    intro sb1 h hP hf t ht
    unfold modifyTeam at h
    by_cases hn : a.name = name
    · simp only [hn, if_true, Option.some.injEq] at h
      subst h
      rcases List.mem_cons.mp ht with e | hm
      · rw [e]; exact hf a (List.mem_cons_self _ _)
      · exact hP t (List.mem_cons_of_mem _ hm)
    · simp only [hn, if_false, Option.map_eq_some'] at h
      obtain ⟨r, hr, rfl⟩ := h
      rcases List.mem_cons.mp ht with e | hm
      · rw [e]; exact hP a (List.mem_cons_self _ _)
      · exact ih r hr (fun x hx => hP x (List.mem_cons_of_mem _ hx))
          (fun x hx => hf x (List.mem_cons_of_mem _ hx)) t hm

theorem submitTeam_name (frozen : Bool) (problem : Char) (status : String) (time : Int)
    (team : Team) : (submitTeam frozen problem status time team).name = team.name := by
  unfold submitTeam
  by_cases h1 : (frozen && !(getProblem team.problems problem).solved) = true
  · simp [h1]
  · by_cases h2 : (!frozen && !(getProblem team.problems problem).solved) = true
    · simp only [h1, h2, if_false, if_true]
      exact (judge_frame _ _ _ _).1
    · simp [h1, h2]

theorem hasFrozen_eq_false {t : Team} (h : hasFrozen t = false) :
    ∀ p ∈ t.problems, p.2.frozen_submissions ≤ 0 := by
  intro p hp
  unfold hasFrozen at h
  rw [List.any_eq_false] at h
  have := h p hp
  simpa using this

theorem findTarget_none {sb : List Team} :
    ∀ {n : Nat}, findTarget sb n = none → ∀ i t, i < n → sb[i]? = some t → hasFrozen t = false := by
  intro n
  induction n with
  | zero => intro _ i t hi; omega
  | succ n ih =>
    intro h i t hi hit
    unfold findTarget at h
    cases hn : sb[n]? with
    | none =>
      simp only [hn] at h
      rcases Nat.eq_or_lt_of_le (Nat.le_of_lt_succ hi) with e | l
      · subst e; rw [hn] at hit; cases hit
      · exact ih h i t l hit
    | some a =>
      simp only [hn] at h
      by_cases ha : hasFrozen a = true
      · simp [ha] at h
      · simp only [ha, Bool.false_eq_true, if_false] at h
        rcases Nat.eq_or_lt_of_le (Nat.le_of_lt_succ hi) with e | l
        · subst e
          rw [hn] at hit
          cases hit
          simpa using ha
        · exact ih h i t l hit

theorem findTarget_some {sb : List Team} :
    ∀ {n i : Nat}, findTarget sb n = some i →
      i < n ∧ (∃ t, sb[i]? = some t ∧ hasFrozen t = true) ∧
      ∀ j t, i < j → j < n → sb[j]? = some t → hasFrozen t = false := by
  intro n
  induction n with
  | zero => intro i h; simp [findTarget] at h
  | succ n ih =>
    intro i h
    unfold findTarget at h
    cases hn : sb[n]? with
    | none =>
      simp only [hn] at h
      obtain ⟨h1, h2, h3⟩ := ih h
      refine ⟨by omega, h2, ?_⟩
      intro j t hij hj hjt
      rcases Nat.eq_or_lt_of_le (Nat.le_of_lt_succ hj) with e | l
      · subst e; rw [hn] at hjt; cases hjt
      · exact h3 j t hij l hjt
    | some a =>
      simp only [hn] at h
      by_cases ha : hasFrozen a = true
      · simp only [ha, if_true, Option.some.injEq] at h
        subst h
        exact ⟨by omega, ⟨a, hn, ha⟩, fun j t hij hj _ => by omega⟩
      · simp only [ha, Bool.false_eq_true, if_false] at h
        obtain ⟨h1, h2, h3⟩ := ih h
        refine ⟨by omega, h2, ?_⟩
        intro j t hij hj hjt
        rcases Nat.eq_or_lt_of_le (Nat.le_of_lt_succ hj) with e | l
        · subst e
          rw [hn] at hjt
          cases hjt
          simpa using ha
        · exact h3 j t hij l hjt

/-! ## The sorted scoreboard is unique -/

theorem orderedInsert_sorted (a : Team) :
    ∀ l : List Team, l.Pairwise (fun x y => compareTeams x y = true) →
      (∀ x ∈ l, x.name ≠ a.name) →
      (l.orderedInsert (fun x y => compareTeams x y = true) a).Pairwise
        (fun x y => compareTeams x y = true) := by
  intro l
  induction l with
  | nil => intro _ _; simp
  | cons b l ih =>
    intro hs hn
    rw [List.pairwise_cons] at hs
    simp only [List.orderedInsert]
    by_cases hab : compareTeams a b = true
    · simp only [hab, if_true]
      refine List.Pairwise.cons ?_ (List.Pairwise.cons hs.1 hs.2)
      intro x hx
      rcases List.mem_cons.mp hx with e | hm
      · rw [e]; exact hab
      · exact compareTeams_trans a b x hab (hs.1 x hm)
    · simp only [hab, if_false]
      refine List.Pairwise.cons ?_ (ih hs.2 (fun x hx => hn x (List.mem_cons_of_mem _ hx)))
      intro x hx
      rcases (List.mem_orderedInsert _).mp hx with e | hm
      · rw [e]
        rcases compareTeams_total b a (hn b (List.mem_cons_self _ _)) with h | h
        · exact h.1
        · exact absurd h.2 hab
      · exact hs.1 x hm

theorem sortTeams_sorted :
    ∀ l : List Team, (l.map (fun t => t.name)).Nodup →
      (sortTeams l).Pairwise (fun x y => compareTeams x y = true) := by
  intro l
  induction l with
  | nil => intro _; exact List.Pairwise.nil
  | cons a l ih =>
    intro hn
    rw [List.map_cons, List.nodup_cons] at hn
    simp only [sortTeams, List.insertionSort]
    apply orderedInsert_sorted a _ (ih hn.2)
    intro x hx hxa
    have hx1 : x ∈ l := (sortTeams_perm l).mem_iff.mp hx
    exact hn.1 (List.mem_map.mpr ⟨x, hx1, hxa⟩)

theorem sortTeams_unique (l l1 : List Team) (hn : (l.map (fun t => t.name)).Nodup)
    (hp : l1.Perm l) (hs : l1.Pairwise (fun x y => compareTeams x y = true)) :
    l1 = sortTeams l := by
  haveI : IsAntisymm Team (fun x y => compareTeams x y = true) :=
    ⟨fun x y hxy hyx => by
      have := compareTeams_trans x y x hxy hyx
      rw [compareTeams_irrefl] at this
      cases this⟩
  exact List.eq_of_perm_of_sorted (hp.trans (sortTeams_perm l).symm) hs (sortTeams_sorted l hn)

/-! ## The invariant holds in every reachable state -/

theorem set_map_same {β : Type} (g : Team → β) (a target : Team) (hg : g a = g target) :
    ∀ (sb : List Team) (i : Nat), sb[i]? = some target → (sb.set i a).map g = sb.map g := by
  intro sb
  induction sb with
  | nil => intro i h; simp at h
  | cons t ts ih =>
    intro i h
    cases i with
    | zero =>
      simp only [List.getElem?_cons_zero, Option.some.injEq] at h
      simp [List.set, hg, h]
    | succ i =>
      simp only [List.getElem?_cons_succ] at h
      simp [List.set, ih i h]

theorem resolveProblem_name (target : Team) (c : Char) :
    (resolveProblem target c).name = target.name := by
  unfold resolveProblem
  exact (replay_frame _ _ _).1

theorem resolveProblem_ranking (target : Team) (c : Char) :
    (resolveProblem target c).ranking = target.ranking := by
  unfold resolveProblem
  exact (replay_frame _ _ _).2.2.2.1

theorem scrollStep_result (sb : List Team) (i : Nat) (target : Team) :
    (scrollStep sb i target).result =
      updateRankings (sb.set i (resolveProblem target (minProblem target))) := rfl

theorem scrollStep_inv {sb : List Team} {i : Nat} {target : Team}
    (hn : (sb.map (fun t => t.name)).Nodup) (ht : ∀ t ∈ sb, TeamInv t)
    (hi : sb[i]? = some target) :
    ((scrollStep sb i target).result.map (fun t => t.name)).Nodup ∧
    ∀ t ∈ (scrollStep sb i target).result, TeamInv t := by
  rw [scrollStep_result]
  have hmem : target ∈ sb := List.mem_iff_getElem?.mpr ⟨i, hi⟩
  constructor
  · apply updateRankings_names_nodup
    rw [set_map_same (fun t => t.name) _ target (resolveProblem_name _ _) sb i hi]
    exact hn
  · apply updateRankings_teamInv
    intro t htm
    rcases List.mem_or_eq_of_mem_set htm with h | h
    · exact ht t h
    · rw [h]
      exact resolveProblem_teamInv (ht target hmem) _

theorem scrollLoop_inv :
    ∀ (fuel : Nat) (sb : List Team) (r : List Team × List Output),
      scrollLoop fuel sb = some r → (sb.map (fun t => t.name)).Nodup → (∀ t ∈ sb, TeamInv t) →
      (r.1.map (fun t => t.name)).Nodup ∧ (∀ t ∈ r.1, TeamInv t) ∧
      ∀ t ∈ r.1, hasFrozen t = false := by
  intro fuel
  induction fuel with
  | zero => intro sb r h; simp [scrollLoop] at h
  | succ fuel ih =>
    intro sb r h hn ht
    unfold scrollLoop at h
    cases hf : findTarget sb sb.length with
    | none =>
      simp only [hf, Option.some.injEq] at h
      subst h
      refine ⟨hn, ht, ?_⟩
      intro t htm
      obtain ⟨i, hi⟩ := List.mem_iff_getElem?.mp htm
      have hlt : i < sb.length := (List.getElem?_eq_some.mp hi).1
      exact findTarget_none hf i t hlt hi
    | some i =>
      simp only [hf] at h
      cases hi : sb[i]? with
      | none => simp [hi] at h
      | some target =>
        simp only [hi, Option.map_eq_some'] at h
        obtain ⟨q, hq, rfl⟩ := h
        obtain ⟨n1, t1⟩ := scrollStep_inv hn ht hi
        exact ih _ q hq n1 t1

theorem hasTeam_eq_false {sb : List Team} {name : String} (h : hasTeam sb name = false) :
    name ∉ sb.map (fun t => t.name) := by
  intro hm
  obtain ⟨t, ht, e⟩ := List.mem_map.mp hm
  unfold hasTeam at h
  rw [List.any_eq_false] at h
  have := h t ht
  simp [e] at this

theorem teamInv_new (name : String) : TeamInv { name := name } :=
  ⟨List.Pairwise.nil, ⟨List.Pairwise.nil, rfl, rfl, rfl⟩, fun _ hp => by cases hp⟩

theorem inv_updateRankings {s : ICPCSystem} (h : Inv s) (s1 : ICPCSystem)
    (hsb : s1.scoreboard = updateRankings s.scoreboard) (hf : s1.frozen = s.frozen) : Inv s1 := by
  refine ⟨?_, ?_, ?_⟩
  · rw [hsb]; exact updateRankings_names_nodup h.names
  · rw [hsb]; exact updateRankings_teamInv h.teams
  · rw [hsb, hf]
    intro hl
    exact updateRankings_forall_problems (fun p => p.2.frozen_submissions = 0) (h.live hl)

theorem inv_addTeam {s : ICPCSystem} (h : Inv s) (name : String) : Inv (s.addTeam name).1 := by
  unfold ICPCSystem.addTeam
  by_cases hs : s.started = true
  · simpa [hs] using h
  · by_cases hd : hasTeam s.scoreboard name = true
    · simpa [hs, hd] using h
    · have hd1 : hasTeam s.scoreboard name = false := by simpa using hd
      simp only [hs, hd, Bool.false_eq_true, if_false]
      refine ⟨?_, ?_, ?_⟩
      · simp only [List.map_append, List.map_cons, List.map_nil]
        rw [List.nodup_append]
        refine ⟨h.names, List.nodup_singleton _, ?_⟩
        intro a ha hb
        rw [List.mem_singleton] at hb
        subst hb
        exact hasTeam_eq_false hd1 ha
      · intro t ht
        rcases List.mem_append.mp ht with hm | hm
        · exact h.teams t hm
        · rw [List.mem_singleton] at hm
          rw [hm]
          exact teamInv_new name
      · intro hl t ht
        rcases List.mem_append.mp ht with hm | hm
        · exact h.live hl t hm
        · rw [List.mem_singleton] at hm
          rw [hm]
          intro p hp
          cases hp

theorem inv_startCompetition {s : ICPCSystem} (h : Inv s) (duration problems : Int) :
    Inv (s.startCompetition duration problems).1 := by
  unfold ICPCSystem.startCompetition
  by_cases hs : s.started = true
  · simpa [hs] using h
  · simp only [hs, Bool.false_eq_true, if_false]
    exact inv_updateRankings h _ rfl rfl

theorem inv_submit {s s1 : ICPCSystem} (h : Inv s) {problem : Char} {team_name status : String}
    {time : Int} (e : s.submit problem team_name status time = some s1) : Inv s1 := by
  unfold ICPCSystem.submit at e
  rw [Option.map_eq_some'] at e
  obtain ⟨sb1, hm, rfl⟩ := e
  refine ⟨?_, ?_, ?_⟩
  · show (sb1.map (fun t => t.name)).Nodup
    rw [modifyTeam_map (fun t => t.name) _ (submitTeam_name _ _ _ _) _ _ _ hm]
    exact h.names
  · exact modifyTeam_forall TeamInv _ _ _ _ hm h.teams
      (fun t ht => (submitTeam_teamInv _ _ _ _ (h.teams t ht)
        (fun hf => h.live hf t ht)).1)
  · intro hf
    exact modifyTeam_forall (fun t => ∀ p ∈ t.problems, p.2.frozen_submissions = 0) _ _ _ _ hm
      (h.live hf)
      (fun t ht => (submitTeam_teamInv _ _ _ _ (h.teams t ht)
        (fun hf1 => h.live hf1 t ht)).2 hf)

theorem inv_flush {s : ICPCSystem} (h : Inv s) : Inv s.flush.1 :=
  inv_updateRankings h _ rfl rfl

theorem inv_freeze {s : ICPCSystem} (h : Inv s) : Inv s.freeze.1 := by
  unfold ICPCSystem.freeze
  by_cases hf : s.frozen = true
  · simpa [hf] using h
  · simp only [hf, Bool.false_eq_true, if_false]
    exact ⟨h.names, h.teams, fun hl => by simp at hl⟩

theorem inv_scroll {s : ICPCSystem} (h : Inv s) {fuel : Nat} {r : ICPCSystem × List Output}
    (e : s.scroll fuel = some r) : Inv r.1 := by
  unfold ICPCSystem.scroll at e
  by_cases hf : s.frozen = true
  · simp only [hf, Bool.not_true, Bool.false_eq_true, if_false] at e
    cases hl : scrollLoop fuel (updateRankings s.scoreboard) with
    | none => simp [hl] at e
    | some q =>
      simp only [hl, Option.some.injEq] at e
      subst e
      obtain ⟨n1, t1, z1⟩ := scrollLoop_inv fuel _ q hl (updateRankings_names_nodup h.names)
        (updateRankings_teamInv h.teams)
      refine ⟨n1, t1, ?_⟩
      intro _ t ht p hp
      have hle := hasFrozen_eq_false (z1 t ht) p hp
      have hge := ((t1 t ht).pending p hp).1
      omega
  · simp only [hf, Bool.not_false, if_true, Option.some.injEq] at e
    subst e
    exact h

theorem reachable_inv {s : ICPCSystem} (h : Reachable s) : Inv s := by
  induction h with
  | init => exact ⟨List.nodup_nil, fun _ ht => (by cases ht), fun _ _ ht => (by cases ht)⟩
  | addTeam name _ ih => exact inv_addTeam ih name
  | start duration problems _ ih => exact inv_startCompetition ih duration problems
  | submit problem team_name status time _ e ih => exact inv_submit ih e
  | flush _ ih => exact inv_flush ih
  | freeze _ ih => exact inv_freeze ih
  | scroll fuel r _ e ih => exact inv_scroll ih e

/-! ## The example states are reachable -/

theorem reachable_submitAll (subs : List (Char × String × String × Int)) :
    ∀ {s s1 : ICPCSystem}, Reachable s → submitAll s subs = some s1 → Reachable s1 := by
  induction subs with
  | nil =>
    intro s s1 h e
    simp only [submitAll, Option.some.injEq] at e
    subst e
    exact h
  | cons q rest ih =>
    intro s s1 h e
    simp only [submitAll, Option.bind_eq_some] at e
    obtain ⟨s2, e2, e3⟩ := e
    exact ih (Reachable.submit _ _ _ _ h e2) e3

theorem reachable_demoStart : Reachable demoStart :=
  Reachable.start 10 3 (Reachable.addTeam "a" (Reachable.addTeam "b" Reachable.init))

theorem reachable_demoLive : Reachable demoLive :=
  Reachable.flush (reachable_submitAll _ reachable_demoStart
    (show submitAll demoStart [('A', "b", "Wrong", 3), ('A', "b", "Accepted", 5)] = some _ from rfl))

theorem reachable_demoFrozen : Reachable demoFrozen :=
  reachable_submitAll _ (Reachable.freeze reachable_demoLive)
    (show submitAll demoLive.freeze.1
      [('B', "a", "Accepted", 7), ('A', "a", "Accepted", 8), ('C', "a", "Accepted", 6),
       ('C', "b", "Accepted", 6)] = some demoFrozen from by decide)

/-! ## Solve-time list invariant and score invariant -/

theorem mapSum_solvedOf (m : List (Char × ProblemStatus)) :
    mapSum solvedOf m = (m.filter (fun p => p.2.solved)).length := by
  induction m with
  | nil => rfl
  | cons kv m ih =>
    have e : mapSum solvedOf (kv :: m) = solvedOf kv.2 + mapSum solvedOf m := by
      simp [mapSum]
    rw [e, ih]
    by_cases h : kv.2.solved = true
    · simp [solvedOf, h, List.filter_cons, Nat.add_comm]
    · simp [solvedOf, h, List.filter_cons]

theorem mapSum_penaltyOf (m : List (Char × ProblemStatus)) :
    mapSum penaltyOf m =
      ((m.filter (fun p => p.2.solved)).map
        (fun p => 20 * p.2.wrong_attempts + p.2.solve_time)).sum := by
  induction m with
  | nil => rfl
  | cons kv m ih =>
    have e : mapSum penaltyOf (kv :: m) = penaltyOf kv.2 + mapSum penaltyOf m := by
      simp [mapSum]
    rw [e, ih]
    by_cases h : kv.2.solved = true
    · simp [penaltyOf, h, List.filter_cons]
    · simp [penaltyOf, h, List.filter_cons]

theorem keysSorted_nodup {m : List (Char × ProblemStatus)} (h : KeysSorted m) :
    (m.map (fun p => p.1)).Nodup := by
  unfold KeysSorted at h
  rw [List.Nodup, List.pairwise_map]
  exact h.imp (fun hab => ne_of_lt hab)

/-- C9: solve-time list invariant.  In every state reachable from the initial
state by `addTeam`, `start`, `submit`, `refresh`, `freeze` and `scroll`, the
solve-time list of each team is sorted in descending (non-increasing) order and
its length is the solved count of the team. -/
theorem solve_times_invariant (s : ICPCSystem) (h : Reachable s) :
    ∀ t ∈ s.scoreboard,
      t.solve_times.Pairwise (fun x y => x ≥ y) ∧
      (t.solve_times.length : Int) = t.solved_count := by
  intro t ht
  have hi := (reachable_inv h).teams t ht
  exact ⟨hi.score.sorted, hi.score.length⟩

/-- C10: score invariant.  In every reachable state each problem occurs once
in the problem map of a team, the solved count of the team is the number of
its problems with `solved = true`, and its penalty is the sum over its solved
problems of `20 × wrong_attempts + solve_time`. -/
theorem score_invariant (s : ICPCSystem) (h : Reachable s) :
    ∀ t ∈ s.scoreboard,
      (t.problems.map (fun p => p.1)).Nodup ∧
      t.solved_count = ((t.problems.filter (fun p => p.2.solved)).length : Int) ∧
      t.penalty =
        ((t.problems.filter (fun p => p.2.solved)).map
          (fun p => 20 * p.2.wrong_attempts + p.2.solve_time)).sum := by
  intro t ht
  have hi := (reachable_inv h).teams t ht
  refine ⟨keysSorted_nodup hi.keys, ?_, ?_⟩
  · rw [hi.score.solved, mapSum_solvedOf]
  · rw [hi.score.penalty, mapSum_penaltyOf]

theorem reachable_demoFinal : Reachable demoFinal :=
  Reachable.scroll 5 ((demoFrozen.scroll 5).getD (demoFrozen, [])) reachable_demoFrozen
    (by decide)

/-- C9 at team `a` of the example run (three problems solved during the scroll,
at times 8, 7 and 6). -/
theorem solve_times_invariant_witness :
    demoTeamA ∈ demoFinal.scoreboard ∧ demoTeamA.solve_times = [8, 7, 6] ∧
    (demoTeamA.solve_times.Pairwise (fun x y => x ≥ y) ∧
      (demoTeamA.solve_times.length : Int) = demoTeamA.solved_count) :=
  ⟨by decide, by decide,
    solve_times_invariant demoFinal reachable_demoFinal demoTeamA (by decide)⟩

/-- C10 at team `b` of the example run (problem `A` solved at 5 after one wrong
attempt, problem `C` solved at 6: penalty 25 + 6). -/
theorem score_invariant_witness :
    demoTeamB ∈ demoFinal.scoreboard ∧ demoTeamB.solved_count = 2 ∧ demoTeamB.penalty = 31 ∧
    ((demoTeamB.problems.map (fun p => p.1)).Nodup ∧
      demoTeamB.solved_count =
        ((demoTeamB.problems.filter (fun p => p.2.solved)).length : Int) ∧
      demoTeamB.penalty =
        ((demoTeamB.problems.filter (fun p => p.2.solved)).map
          (fun p => 20 * p.2.wrong_attempts + p.2.solve_time)).sum) :=
  ⟨by decide, by decide, by decide,
    score_invariant demoFinal reachable_demoFinal demoTeamB (by decide)⟩

/-- C3 at the frozen example state: an accepted submission of team `b` for
problem `B` while frozen. -/
theorem freeze_isolation_witness :
    demoFrozen.frozen = true ∧
    ∃ s1, demoFrozen.submit 'B' "b" "Accepted" 9 = some s1 ∧ s1.frozen = true ∧
      List.Forall₂ ScoreEq demoFrozen.scoreboard s1.scoreboard :=
  ⟨by decide, (freeze_isolation demoFrozen (by decide)).1 'B' "b" "Accepted" 9 (by decide)⟩

/-! ## Live submission on an unsolved problem -/

theorem getTeam_some {sb : List Team} {name : String} {t : Team}
    (h : getTeam sb name = some t) : t ∈ sb ∧ t.name = name := by
  unfold getTeam at h
  exact ⟨List.mem_of_find?_eq_some h, by simpa using List.find?_some h⟩

theorem modifyTeam_getTeam (f : Team → Team) (hf : ∀ t, (f t).name = t.name) (name : String) :
    ∀ (sb : List Team) (t : Team), getTeam sb name = some t →
      ∃ sb1, modifyTeam f name sb = some sb1 ∧ getTeam sb1 name = some (f t) ∧
        ∀ other : String, other ≠ name → getTeam sb1 other = getTeam sb other := by
  intro sb
  induction sb with
  | nil => intro t h; simp [getTeam] at h
  | cons a ts ih =>
    intro t h
    by_cases hn : a.name = name
    · have ht : a = t := by simpa [getTeam, List.find?_cons, hn] using h
      subst ht
      refine ⟨f a :: ts, by simp [modifyTeam, hn], by simp [getTeam, List.find?_cons, hf, hn], ?_⟩
      intro other ho
      have h1 : ¬ a.name = other := fun e => ho (e.symm.trans hn)
      simp [getTeam, List.find?_cons, hf, h1]
    · have ht : getTeam ts name = some t := by simpa [getTeam, List.find?_cons, hn] using h
      obtain ⟨r, hr, hg, ho⟩ := ih t ht
      refine ⟨a :: r, by simp [modifyTeam, hn, hr], ?_, ?_⟩
      · simpa [getTeam, List.find?_cons, hn] using hg
      · intro other hne
        have := ho other hne
        simp only [getTeam, List.find?_cons] at this ⊢
        rw [this]

theorem submitTeam_live_unsolved (problem : Char) (status : String) (time : Int) (team : Team)
    (hu : (getProblem team.problems problem).solved = false) :
    submitTeam false problem status time team =
      { (judge status time
          ({ team with
            all_submissions :=
              team.all_submissions ++ [⟨String.singleton problem, status, time⟩] })
          (getProblem team.problems problem)).1 with
        problems := setProblem team.problems problem
          (judge status time
            ({ team with
              all_submissions :=
                team.all_submissions ++ [⟨String.singleton problem, status, time⟩] })
            (getProblem team.problems problem)).2 } := by
  simp [submitTeam, hu]

/-- C8: live submit on an unsolved problem.  In a reachable state that is not
frozen, a `submit` for a team and a problem the team has not solved succeeds;
with verdict "Accepted" at time `t` it marks the problem solved with solve time
`t`, leaves its wrong attempts unchanged, adds 1 to the solved count and
`20 × wrong_attempts + t` to the penalty, and inserts `t` into the solve-time
list at the first position whose value is `≤ t` (all values before it are
`> t`); with any other verdict it adds 1 to the wrong attempts of the problem
and changes no other scoring field.  The other problems of the team and the
other teams are untouched in both cases. -/
theorem live_submit_unsolved (s : ICPCSystem) (hr : Reachable s) (hf : s.frozen = false)
    (problem : Char) (team_name status : String) (time : Int) (team : Team)
    (ht : getTeam s.scoreboard team_name = some team)
    (hu : (getProblem team.problems problem).solved = false) :
    ∃ s1 team1, s.submit problem team_name status time = some s1 ∧
      getTeam s1.scoreboard team_name = some team1 ∧
      (∀ other : String, other ≠ team_name →
        getTeam s1.scoreboard other = getTeam s.scoreboard other) ∧
      (∀ d : Char, d ≠ problem → getProblem team1.problems d = getProblem team.problems d) ∧
      (status = "Accepted" →
        (getProblem team1.problems problem).solved = true ∧
        (getProblem team1.problems problem).solve_time = time ∧
        (getProblem team1.problems problem).wrong_attempts =
          (getProblem team.problems problem).wrong_attempts ∧
        team1.solved_count = team.solved_count + 1 ∧
        team1.penalty =
          team.penalty + (20 * (getProblem team.problems problem).wrong_attempts + time) ∧
        ∃ pre post : List Int, team.solve_times = pre ++ post ∧
          team1.solve_times = pre ++ time :: post ∧
          (∀ x ∈ pre, x > time) ∧ (∀ y, post.head? = some y → y ≤ time)) ∧
      (status ≠ "Accepted" →
        (getProblem team1.problems problem).wrong_attempts =
          (getProblem team.problems problem).wrong_attempts + 1 ∧
        (getProblem team1.problems problem).solved = false ∧
        (getProblem team1.problems problem).solve_time =
          (getProblem team.problems problem).solve_time ∧
        team1.solved_count = team.solved_count ∧
        team1.penalty = team.penalty ∧
        team1.solve_times = team.solve_times) := by
  obtain ⟨sb1, hm, hg, ho⟩ := modifyTeam_getTeam (submitTeam s.frozen problem status time)
    (submitTeam_name _ _ _ _) team_name s.scoreboard team ht
  have hsorted := ((reachable_inv hr).teams team (getTeam_some ht).1).score.sorted
  refine ⟨{ s with scoreboard := sb1 }, _, by simp [ICPCSystem.submit, hm], hg, ho, ?_, ?_, ?_⟩
  · intro d hd
    rw [hf, submitTeam_live_unsolved _ _ _ _ hu]
    exact getProblem_setProblem_other _ _ _ _ hd
  · intro ha
    rw [hf, submitTeam_live_unsolved _ _ _ _ hu]
    rw [getProblem_setProblem_same]
    unfold judge
    rw [if_pos ha]
    refine ⟨rfl, rfl, rfl, rfl, rfl, _, _, (List.take_append_drop _ _).symm, rfl, ?_, ?_⟩
    · exact (lower_bound_spec team.solve_times time hsorted).1
    · intro y hy
      exact (lower_bound_spec team.solve_times time hsorted).2 y (List.mem_of_mem_head? hy)
  · intro ha
    rw [hf, submitTeam_live_unsolved _ _ _ _ hu]
    rw [getProblem_setProblem_same]
    unfold judge
    rw [if_neg ha]
    exact ⟨rfl, hu, rfl, rfl, rfl, rfl⟩

/-! ## The states at the head of the scroll loop -/

theorem assignRankings_ranking :
    ∀ (l : List Team) (k j : Nat) (t : Team), (assignRankings l k)[j]? = some t →
      t.ranking = ((k + j : Nat) : Int) + 1 := by
  intro l
  induction l with
  | nil => intro k j t h; simp [assignRankings] at h
  | cons a l ih =>
    intro k j t h
    cases j with
    | zero =>
      simp only [assignRankings, List.getElem?_cons_zero, Option.some.injEq] at h
      rw [← h]
      simp
    | succ j =>
      simp only [assignRankings, List.getElem?_cons_succ] at h
      have := ih (k + 1) j t h
      rw [this]
      congr 2
      omega

theorem updateRankings_ranking (l : List Team) (j : Nat) (t : Team)
    (h : (updateRankings l)[j]? = some t) : t.ranking = (j : Int) + 1 := by
  have := assignRankings_ranking (sortTeams l) 0 j t h
  simpa using this

theorem scrollState_inv {sb : List Team} (h : ScrollState sb) :
    (sb.map (fun t => t.name)).Nodup ∧ (∀ t ∈ sb, TeamInv t) ∧
    ∀ (j : Nat) (t : Team), sb[j]? = some t → t.ranking = (j : Int) + 1 := by
  induction h with
  | entry hr _ =>
    have hi := reachable_inv hr
    exact ⟨updateRankings_names_nodup hi.names, updateRankings_teamInv hi.teams,
      updateRankings_ranking _⟩
  | step _ _ hi ih =>
    obtain ⟨n1, t1⟩ := scrollStep_inv ih.1 ih.2.1 hi
    exact ⟨n1, t1, fun j t hj => by
      rw [scrollStep_result] at hj
      exact updateRankings_ranking _ j t hj⟩

/-! ## Selection of the problem to resolve -/

theorem minProblem_fold (l : List (Char × ProblemStatus)) :
    ∀ m0 : Char,
      l.foldl (fun m p => if p.2.frozen_submissions > 0 ∧ p.1 < m then p.1 else m) m0 ≤ m0 ∧
      (∀ p ∈ l, p.2.frozen_submissions > 0 →
        l.foldl (fun m p => if p.2.frozen_submissions > 0 ∧ p.1 < m then p.1 else m) m0 ≤ p.1) ∧
      (l.foldl (fun m p => if p.2.frozen_submissions > 0 ∧ p.1 < m then p.1 else m) m0 = m0 ∨
        ∃ p ∈ l, p.2.frozen_submissions > 0 ∧
          p.1 = l.foldl (fun m p => if p.2.frozen_submissions > 0 ∧ p.1 < m then p.1 else m) m0) := by
  induction l with
  | nil => intro m0; exact ⟨le_refl _, fun _ hp => (by cases hp), Or.inl rfl⟩
  | cons a l ih =>
    intro m0
    simp only [List.foldl_cons]
    by_cases ha : a.2.frozen_submissions > 0 ∧ a.1 < m0
    · simp only [ha, and_self, if_true]
      obtain ⟨h1, h2, h3⟩ := ih a.1
      refine ⟨le_trans h1 (le_of_lt ha.2), ?_, ?_⟩
      · intro p hp hpos
        rcases List.mem_cons.mp hp with e | hm
        · rw [e]; exact h1
        · exact h2 p hm hpos
      · right
        rcases h3 with e | ⟨p, hp, hpos, e⟩
        · exact ⟨a, List.mem_cons_self _ _, ha.1, e.symm⟩
        · exact ⟨p, List.mem_cons_of_mem _ hp, hpos, e⟩
    · simp only [ha, if_false]
      obtain ⟨h1, h2, h3⟩ := ih m0
      refine ⟨h1, ?_, ?_⟩
      · intro p hp hpos
        rcases List.mem_cons.mp hp with e | hm
        · subst e
          have : ¬ p.1 < m0 := fun hlt => ha ⟨hpos, hlt⟩
          exact le_trans h1 (not_lt.mp this)
        · exact h2 p hm hpos
      · rcases h3 with e | ⟨p, hp, hpos, e⟩
        · exact Or.inl e
        · exact Or.inr ⟨p, List.mem_cons_of_mem _ hp, hpos, e⟩

theorem findProblem_of_mem {m : List (Char × ProblemStatus)} (hk : KeysSorted m)
    {p : Char × ProblemStatus} (hp : p ∈ m) : findProblem m p.1 = some p.2 := by
  induction m with
  | nil => cases hp
  | cons kv m ih =>
    obtain ⟨k, v⟩ := kv
    unfold KeysSorted at hk ih
    rw [List.pairwise_cons] at hk
    rcases List.mem_cons.mp hp with e | hm
    · subst e
      simp [findProblem]
    · have hlt : k < p.1 := hk.1 p hm
      have hne : ¬ k = p.1 := ne_of_lt hlt
      simp only [findProblem, hne, if_false]
      exact ih hk.2 hm

theorem hasFrozen_eq_true {t : Team} (h : hasFrozen t = true) :
    ∃ p ∈ t.problems, p.2.frozen_submissions > 0 := by
  unfold hasFrozen at h
  rw [List.any_eq_true] at h
  obtain ⟨p, hp, hpos⟩ := h
  exact ⟨p, hp, by simpa using hpos⟩

theorem minProblem_spec {target : Team} (hk : KeysSorted target.problems)
    (hf : hasFrozen target = true)
    (hr : ∀ p ∈ target.problems, p.2.frozen_submissions > 0 → p.1 ≤ 'Z') :
    (∃ ps, findProblem target.problems (minProblem target) = some ps ∧
      (minProblem target, ps) ∈ target.problems ∧ ps.frozen_submissions > 0) ∧
    ∀ p ∈ target.problems, p.2.frozen_submissions > 0 → minProblem target ≤ p.1 := by
  obtain ⟨_, h2, h3⟩ := minProblem_fold target.problems (Char.ofNat 91)
  obtain ⟨q, hq, hqpos⟩ := hasFrozen_eq_true hf
  have hlt : minProblem target < Char.ofNat 91 :=
    lt_of_le_of_lt (h2 q hq hqpos) (lt_of_le_of_lt (hr q hq hqpos) (by decide))
  refine ⟨?_, h2⟩
  rcases h3 with e | ⟨p, hp, hpos, e⟩
  · exact absurd e (ne_of_lt hlt)
  · refine ⟨p.2, ?_, ?_, hpos⟩
    · have := findProblem_of_mem hk hp
      rw [e] at this
      exact this
    · have : (minProblem target, p.2) = p := by
        unfold minProblem
        rw [← e]
      rw [this]
      exact hp

/-! ## Every resolution step clears exactly one pending (team, problem) pair -/

theorem resolveProblem_problems (target : Team) (c : Char) :
    ∃ ps1 : ProblemStatus, ps1.frozen_submissions = 0 ∧ ps1.frozen_subs = [] ∧
      (resolveProblem target c).problems = setProblem target.problems c ps1 :=
  ⟨_, rfl, rfl, rfl⟩

theorem resolveProblem_pending {target : Team} {c : Char} {ps : ProblemStatus}
    (hk : KeysSorted target.problems) (hc : findProblem target.problems c = some ps)
    (hpos : ps.frozen_submissions > 0) :
    mapSum pendingOf (resolveProblem target c).problems + 1 =
      mapSum pendingOf target.problems := by
  obtain ⟨ps1, z1, _, e⟩ := resolveProblem_problems target c
  rw [e]
  have := mapSum_setProblem pendingOf c ps1 hk
  have hne : ps.frozen_submissions ≠ 0 := by omega
  simpa [valueAt, hc, pendingOf, z1, hne] using this

theorem sum_map_set (f : Team → Nat) (a target : Team) (hf : f a + 1 = f target) :
    ∀ (sb : List Team) (i : Nat), sb[i]? = some target →
      ((sb.set i a).map f).sum + 1 = (sb.map f).sum := by
  intro sb
  induction sb with
  | nil => intro i h; simp at h
  | cons t ts ih =>
    intro i h
    cases i with
    | zero =>
      simp only [List.getElem?_cons_zero, Option.some.injEq] at h
      subst h
      simp only [List.set, List.map_cons, List.sum_cons]
      omega
    | succ i =>
      simp only [List.getElem?_cons_succ] at h
      have := ih i h
      simp only [List.set, List.map_cons, List.sum_cons]
      omega

theorem pendingPairs_updateRankings (l : List Team) :
    pendingPairs (updateRankings l) = pendingPairs l :=
  (updateRankings_map_perm (fun t => mapSum pendingOf t.problems) (fun _ _ => rfl) l).sum_eq

theorem scrollStep_pendingPairs {sb : List Team} {i : Nat} {target : Team}
    (ht : ∀ t ∈ sb, TeamInv t) (hrange : PendingInRange sb) (hi : sb[i]? = some target)
    (hf : hasFrozen target = true) :
    pendingPairs (scrollStep sb i target).result + 1 = pendingPairs sb := by
  have hmem : target ∈ sb := List.mem_iff_getElem?.mpr ⟨i, hi⟩
  have hk := (ht target hmem).keys
  obtain ⟨⟨ps, hc, _, hpos⟩, _⟩ := minProblem_spec hk hf
    (fun p hp hpp => (hrange target hmem p hp hpp).2)
  rw [scrollStep_result, pendingPairs_updateRankings]
  exact sum_map_set (fun t => mapSum pendingOf t.problems) _ target
    (resolveProblem_pending hk hc hpos) sb i hi

theorem scrollStep_pendingInRange {sb : List Team} {i : Nat} {target : Team}
    (hrange : PendingInRange sb) (hi : sb[i]? = some target) :
    PendingInRange (scrollStep sb i target).result := by
  have hmem : target ∈ sb := List.mem_iff_getElem?.mpr ⟨i, hi⟩
  rw [scrollStep_result]
  apply updateRankings_forall_problems
    (fun p => p.2.frozen_submissions > 0 → 'A' ≤ p.1 ∧ p.1 ≤ 'Z')
  intro t htm
  rcases List.mem_or_eq_of_mem_set htm with h | h
  · exact hrange t h
  · rw [h]
    obtain ⟨ps1, z1, _, e⟩ := resolveProblem_problems target (minProblem target)
    rw [e]
    intro p hp hpos
    rcases mem_setProblem hp with e1 | hm
    · rw [e1] at hpos
      simp only at hpos
      omega
    · exact hrange target hmem p hm hpos

theorem mapSum_pendingOf_eq_zero {m : List (Char × ProblemStatus)}
    (h : ∀ p ∈ m, p.2.frozen_submissions = 0) : mapSum pendingOf m = 0 := by
  induction m with
  | nil => rfl
  | cons kv m ih =>
    have e : mapSum pendingOf (kv :: m) = pendingOf kv.2 + mapSum pendingOf m := by
      simp [mapSum]
    rw [e, ih (fun p hp => h p (List.mem_cons_of_mem _ hp))]
    simp [pendingOf, h kv (List.mem_cons_self _ _)]

theorem pendingPairs_eq_zero {sb : List Team}
    (h : ∀ t ∈ sb, ∀ p ∈ t.problems, p.2.frozen_submissions = 0) : pendingPairs sb = 0 := by
  unfold pendingPairs
  apply List.sum_eq_zero
  intro x hx
  obtain ⟨t, ht, e⟩ := List.mem_map.mp hx
  rw [← e]
  exact mapSum_pendingOf_eq_zero (h t ht)

theorem mapSum_pendingOf_pos {m : List (Char × ProblemStatus)} {p : Char × ProblemStatus}
    (hp : p ∈ m) (hpos : p.2.frozen_submissions > 0) : 0 < mapSum pendingOf m := by
  induction m with
  | nil => cases hp
  | cons kv m ih =>
    have e : mapSum pendingOf (kv :: m) = pendingOf kv.2 + mapSum pendingOf m := by
      simp [mapSum]
    rw [e]
    rcases List.mem_cons.mp hp with h | h
    · subst h
      have hne : p.2.frozen_submissions ≠ 0 := by omega
      simp [pendingOf, hne]
    · have := ih h
      omega

theorem pendingPairs_pos {sb : List Team} {t : Team} (ht : t ∈ sb) (hf : hasFrozen t = true) :
    0 < pendingPairs sb := by
  obtain ⟨p, hp, hpos⟩ := hasFrozen_eq_true hf
  have h1 := mapSum_pendingOf_pos hp hpos
  unfold pendingPairs
  have h2 : mapSum pendingOf t.problems ∈ sb.map (fun t => mapSum pendingOf t.problems) :=
    List.mem_map.mpr ⟨t, ht, rfl⟩
  have := List.single_le_sum (fun x _ => Nat.zero_le x) _ h2
  omega

theorem findTarget_none_settled {sb : List Team} (ht : ∀ t ∈ sb, TeamInv t)
    (hf : findTarget sb sb.length = none) :
    ∀ t ∈ sb, ∀ p ∈ t.problems, p.2.frozen_submissions = 0 ∧ p.2.frozen_subs = [] := by
  intro t htm p hp
  obtain ⟨i, hi⟩ := List.mem_iff_getElem?.mp htm
  have hlt : i < sb.length := (List.getElem?_eq_some.mp hi).1
  have hle := hasFrozen_eq_false (findTarget_none hf i t hlt hi) p hp
  have hge := ((ht t htm).pending p hp).1
  have hz : p.2.frozen_submissions = 0 := by omega
  refine ⟨hz, ?_⟩
  rw [hz] at hge
  exact List.length_eq_zero.mp (by exact_mod_cast hge.symm)

theorem scrollLoop_converges :
    ∀ (n : Nat) (sb : List Team), (sb.map (fun t => t.name)).Nodup → (∀ t ∈ sb, TeamInv t) →
      PendingInRange sb → pendingPairs sb = n →
      ∃ r : List Team × List Output,
        (∀ fuel, fuel ≤ n → scrollLoop fuel sb = none) ∧
        (∀ fuel, n < fuel → scrollLoop fuel sb = some r) ∧
        ∀ t ∈ r.1, ∀ p ∈ t.problems, p.2.frozen_submissions = 0 ∧ p.2.frozen_subs = [] := by
  intro n
  induction n with
  | zero =>
    intro sb _ ht _ hp
    have hnone : findTarget sb sb.length = none := by
      cases hf : findTarget sb sb.length with
      | none => rfl
      | some i =>
        obtain ⟨_, ⟨t, hi, hfr⟩, _⟩ := findTarget_some hf
        have := pendingPairs_pos (List.mem_iff_getElem?.mpr ⟨i, hi⟩) hfr
        omega
    refine ⟨(sb, []), ?_, ?_, findTarget_none_settled ht hnone⟩
    · intro fuel hfuel
      have : fuel = 0 := by omega
      subst this
      rfl
    · intro fuel hfuel
      cases fuel with
      | zero => omega
      | succ fuel => simp [scrollLoop, hnone]
  | succ n ih =>
    intro sb hn ht hrange hp
    cases hf : findTarget sb sb.length with
    | none =>
      have := pendingPairs_eq_zero (fun t htm p hpm => (findTarget_none_settled ht hf t htm p hpm).1)
      omega
    | some i =>
      obtain ⟨_, ⟨target, hi, hfr⟩, _⟩ := findTarget_some hf
      obtain ⟨n1, t1⟩ := scrollStep_inv hn ht hi
      have hdec := scrollStep_pendingPairs ht hrange hi hfr
      obtain ⟨r, h1, h2, h3⟩ := ih (scrollStep sb i target).result n1 t1
        (scrollStep_pendingInRange hrange hi) (by omega)
      refine ⟨(r.1, (scrollStep sb i target).output ++ r.2), ?_, ?_, h3⟩
      · intro fuel hfuel
        cases fuel with
        | zero => rfl
        | succ fuel =>
          simp only [scrollLoop, hf, hi]
          rw [h1 fuel (by omega)]
          rfl
      · intro fuel hfuel
        cases fuel with
        | zero => omega
        | succ fuel =>
          simp only [scrollLoop, hf, hi]
          rw [h2 fuel (by omega)]
          rfl

/-- C4: post-scroll convergence.  For a reachable frozen state whose pending
problem identifiers all lie in `'A'..'Z'`, with `n` the number of (team,
problem) pairs with a non-zero pending count at entry: the loop of `scroll`
exits after exactly `n` resolution steps (every amount of fuel above `n`, one
unit for each step and one for the final search, gives the same result, and no
amount up to `n` lets the loop exit), and in the resulting state `frozen` is
false and every problem of every team has pending count 0 and an empty pending
list. -/
theorem scroll_converges (s : ICPCSystem) (hr : Reachable s) (hf : s.frozen = true)
    (hrange : PendingInRange s.scoreboard) :
    ∃ r : ICPCSystem × List Output,
      (∀ fuel, fuel ≤ pendingPairs s.scoreboard → s.scroll fuel = none) ∧
      (∀ fuel, pendingPairs s.scoreboard < fuel → s.scroll fuel = some r) ∧
      r.1.frozen = false ∧
      ∀ t ∈ r.1.scoreboard, ∀ p ∈ t.problems,
        p.2.frozen_submissions = 0 ∧ p.2.frozen_subs = [] := by
  have hi := reachable_inv hr
  obtain ⟨q, h1, h2, h3⟩ := scrollLoop_converges (pendingPairs s.scoreboard)
    (updateRankings s.scoreboard) (updateRankings_names_nodup hi.names)
    (updateRankings_teamInv hi.teams)
    (updateRankings_forall_problems
      (fun p => p.2.frozen_submissions > 0 → 'A' ≤ p.1 ∧ p.1 ≤ 'Z') hrange)
    (pendingPairs_updateRankings _)
  refine ⟨({ s with scoreboard := q.1, frozen := false },
    [Output.info "Scroll scoreboard."]
      ++ printScoreboard s.problem_count (updateRankings s.scoreboard)
      ++ q.2 ++ printScoreboard s.problem_count q.1), ?_, ?_, rfl, h3⟩
  · intro fuel hfuel
    simp [ICPCSystem.scroll, hf, h1 fuel hfuel]
  · intro fuel hfuel
    simp [ICPCSystem.scroll, hf, h2 fuel hfuel]

/-! ## The rank-change event of a resolution step -/

theorem scrollStep_old_ranking (sb : List Team) (i : Nat) (target : Team) :
    (scrollStep sb i target).old_ranking = target.ranking := rfl

theorem scrollStep_new_rank (sb : List Team) (i : Nat) (target : Team) :
    (scrollStep sb i target).new_rank =
      1 + ((countBetter (resolveProblem target (minProblem target)) i
        (sb.set i (resolveProblem target (minProblem target))) 0 : Nat) : Int) := rfl

theorem scrollStep_replaced_name (sb : List Team) (i : Nat) (target : Team) :
    (scrollStep sb i target).replaced_name =
      if (scrollStep sb i target).new_rank < (scrollStep sb i target).old_ranking then
        match (sb.set i (resolveProblem target (minProblem target)))[
          ((scrollStep sb i target).new_rank - 1).toNat]? with
        | some t => t.name
        | none => ""
      else "" := rfl

theorem scrollStep_output (sb : List Team) (i : Nat) (target : Team) :
    (scrollStep sb i target).output =
      if (scrollStep sb i target).replaced_name ≠ "" then
        [Output.rankChange (resolveProblem target (minProblem target)).name
          (scrollStep sb i target).replaced_name
          (resolveProblem target (minProblem target)).solved_count
          (resolveProblem target (minProblem target)).penalty]
      else [] := rfl

theorem scrollStep_resolved (sb : List Team) (i : Nat) (target : Team) :
    (scrollStep sb i target).resolved =
      sb.set i (resolveProblem target (minProblem target)) := rfl

theorem scrollStep_output_nonempty (sb : List Team) (i : Nat) (target : Team) :
    (scrollStep sb i target).output ≠ [] ↔
      (scrollStep sb i target).new_rank < (scrollStep sb i target).old_ranking ∧
      (scrollStep sb i target).replaced_name ≠ "" := by
  rw [scrollStep_output]
  by_cases hn : (scrollStep sb i target).replaced_name = ""
  · simp [hn]
  · have hlt : (scrollStep sb i target).new_rank < (scrollStep sb i target).old_ranking := by
      by_contra hc
      apply hn
      rw [scrollStep_replaced_name, if_neg hc]
    simp [hn, hlt]

/-- C6: in a resolution step of `scroll` that emits a rank-change event, the
event is the only output of the step and consists of the name of the moved
team, the name of the displaced team, and the solved count and penalty of the
moved team after the resolution; the displaced team is the team at position
`new_rank` of the ordering before the step (its ranking there is `new_rank`);
it stands at another position than the moved team and has another name. -/
theorem scroll_step_event (sb : List Team) (hs : ScrollState sb) (i : Nat) (target : Team)
    (_hf : findTarget sb sb.length = some i) (hi : sb[i]? = some target) (e : Output)
    (he : e ∈ (scrollStep sb i target).output) :
    ∃ (k : Nat) (displaced moved : Team),
      (scrollStep sb i target).new_rank = (k : Int) + 1 ∧
      sb[k]? = some displaced ∧ displaced.ranking = (scrollStep sb i target).new_rank ∧
      k ≠ i ∧ displaced.name ≠ target.name ∧
      (scrollStep sb i target).resolved[i]? = some moved ∧ moved.name = target.name ∧
      (scrollStep sb i target).output = [e] ∧
      e = Output.rankChange moved.name displaced.name moved.solved_count moved.penalty := by
  obtain ⟨hnodup, _, hrank⟩ := scrollState_inv hs
  have hne : (scrollStep sb i target).output ≠ [] := List.ne_nil_of_mem he
  obtain ⟨hlt, hname⟩ := (scrollStep_output_nonempty sb i target).mp hne
  have hilt : i < sb.length := (List.getElem?_eq_some.mp hi).1
  have hold : (scrollStep sb i target).old_ranking = (i : Int) + 1 := by
    rw [scrollStep_old_ranking]; exact hrank i target hi
  have hnew := scrollStep_new_rank sb i target
  generalize hk : countBetter (resolveProblem target (minProblem target)) i
    (sb.set i (resolveProblem target (minProblem target))) 0 = k at hnew
  have hki : k < i := by omega
  have hkn : ((scrollStep sb i target).new_rank - 1).toNat = k := by omega
  have hrep := scrollStep_replaced_name sb i target
  rw [if_pos hlt, hkn, List.getElem?_set_ne (by omega : i ≠ k)] at hrep
  have hklt : k < sb.length := by omega
  rw [List.getElem?_eq_getElem hklt] at hrep
  have hout := scrollStep_output sb i target
  rw [if_pos hname] at hout
  rw [hout, List.mem_singleton] at he
  refine ⟨k, sb[k], resolveProblem target (minProblem target), by omega,
    List.getElem?_eq_getElem hklt, ?_, by omega, ?_, ?_, resolveProblem_name _ _, ?_, ?_⟩
  · rw [hrank k sb[k] (List.getElem?_eq_getElem hklt)]; omega
  · intro hsame
    have hn := List.nodup_iff_getElem?_ne_getElem?.mp hnodup k i hki (by simpa using hilt)
    apply hn
    rw [List.getElem?_map, List.getElem?_map, hi, List.getElem?_eq_getElem hklt]
    simp [hsame]
  · rw [scrollStep_resolved, List.getElem?_set_self hilt]
  · rw [hout, he]
  · rw [he, hrep]

/-- The event of C6 in the first resolution step of the example run: team `a`
(rank 2) solves problem `A` at 8 and displaces team `b` from rank 1. -/
theorem scroll_step_event_witness :
    ∃ (k : Nat) (displaced moved : Team),
      (scrollStep demoBoard 1 demoTarget).new_rank = (k : Int) + 1 ∧
      demoBoard[k]? = some displaced ∧
      displaced.ranking = (scrollStep demoBoard 1 demoTarget).new_rank ∧
      k ≠ 1 ∧ displaced.name ≠ demoTarget.name ∧
      (scrollStep demoBoard 1 demoTarget).resolved[1]? = some moved ∧
      moved.name = demoTarget.name ∧
      (scrollStep demoBoard 1 demoTarget).output = [Output.rankChange "a" "b" 1 8] ∧
      Output.rankChange "a" "b" 1 8 =
        Output.rankChange moved.name displaced.name moved.solved_count moved.penalty :=
  scroll_step_event demoBoard (ScrollState.entry reachable_demoFrozen (by decide)) 1 demoTarget
    (by decide) (by decide) (Output.rankChange "a" "b" 1 8) (by decide)

/-! ## Selection of the team and of the problem -/

theorem reachable_demoEmpty : Reachable demoEmpty :=
  Reachable.submit 'A' "b" "Accepted" 5
    (Reachable.freeze (Reachable.start 10 1
      (Reachable.addTeam "b" (Reachable.addTeam "" Reachable.init))))
    (show _ = some demoEmpty from by decide)

theorem scrollStep_output_iff_of_names (sb : List Team) (hs : ScrollState sb) (i : Nat)
    (target : Team) (hi : sb[i]? = some target) (hne : ∀ t ∈ sb, t.name ≠ "") :
    (scrollStep sb i target).output ≠ [] ↔
      (scrollStep sb i target).new_rank < (scrollStep sb i target).old_ranking := by
  constructor
  · intro h
    exact ((scrollStep_output_nonempty sb i target).mp h).1
  · intro hlt
    refine (scrollStep_output_nonempty sb i target).mpr ⟨hlt, ?_⟩
    obtain ⟨_, _, hrank⟩ := scrollState_inv hs
    have hilt : i < sb.length := (List.getElem?_eq_some.mp hi).1
    have hold : (scrollStep sb i target).old_ranking = (i : Int) + 1 := by
      rw [scrollStep_old_ranking]; exact hrank i target hi
    have hnew := scrollStep_new_rank sb i target
    generalize countBetter (resolveProblem target (minProblem target)) i
      (sb.set i (resolveProblem target (minProblem target))) 0 = k at hnew
    have hkn : ((scrollStep sb i target).new_rank - 1).toNat = k := by omega
    have hklt : k < sb.length := by omega
    rw [scrollStep_replaced_name, if_pos hlt, hkn, List.getElem?_set_ne (by omega : i ≠ k),
      List.getElem?_eq_getElem hklt]
    exact hne _ (List.getElem_mem hklt)

/-- C5 at the failing input: teams `""` and `b`, `b` solves problem `A` while
frozen.  In the resolution step of `scroll` the prospective rank of `b` is 1,
strictly smaller than its old rank 2, and no rank-change event is emitted:
the name of the displaced team is the empty string, which the code also uses
to mean "no team displaced".  The whole output of `scroll` holds the two
scoreboards only. -/
theorem rank_change_lost_for_empty_name :
    ScrollState demoEmptyBoard ∧
    findTarget demoEmptyBoard demoEmptyBoard.length = some 1 ∧
    demoEmptyBoard[1]? = some demoEmptyTarget ∧
    (scrollStep demoEmptyBoard 1 demoEmptyTarget).new_rank = 1 ∧
    (scrollStep demoEmptyBoard 1 demoEmptyTarget).old_ranking = 2 ∧
    (scrollStep demoEmptyBoard 1 demoEmptyTarget).output = [] ∧
    (demoEmpty.scroll 2).map (fun r => r.2) =
      some [Output.info "Scroll scoreboard.", Output.row "" 1 0 0 ["."],
        Output.row "b" 2 0 0 ["0/1"], Output.row "b" 1 1 5 ["+"], Output.row "" 2 0 0 ["."]] :=
  ⟨ScrollState.entry reachable_demoEmpty (by decide), by decide, by decide, by decide,
    by decide, by decide, by decide⟩

/-! ## Witnesses of the convergence and of the live submission -/

/-- C4 at the frozen example state, which has four pending (team, problem)
pairs. -/
theorem scroll_converges_witness :
    pendingPairs demoFrozen.scoreboard = 4 ∧
    ∃ r : ICPCSystem × List Output,
      (∀ fuel, fuel ≤ pendingPairs demoFrozen.scoreboard → demoFrozen.scroll fuel = none) ∧
      (∀ fuel, pendingPairs demoFrozen.scoreboard < fuel → demoFrozen.scroll fuel = some r) ∧
      r.1.frozen = false ∧
      ∀ t ∈ r.1.scoreboard, ∀ p ∈ t.problems,
        p.2.frozen_submissions = 0 ∧ p.2.frozen_subs = [] :=
  ⟨by decide, scroll_converges demoFrozen reachable_demoFrozen (by decide)
    (by unfold PendingInRange; decide)⟩

/-- C8 at the live example state: team `b` (problem `A` solved at 5) has an
accepted submission of problem `B` at 7. -/
theorem live_submit_unsolved_witness :
    ∃ s1 team1, demoLive.submit 'B' "b" "Accepted" 7 = some s1 ∧
      getTeam s1.scoreboard "b" = some team1 ∧
      (∀ other : String, other ≠ "b" →
        getTeam s1.scoreboard other = getTeam demoLive.scoreboard other) ∧
      (∀ d : Char, d ≠ 'B' → getProblem team1.problems d = getProblem demoLiveB.problems d) ∧
      ("Accepted" = "Accepted" →
        (getProblem team1.problems 'B').solved = true ∧
        (getProblem team1.problems 'B').solve_time = 7 ∧
        (getProblem team1.problems 'B').wrong_attempts =
          (getProblem demoLiveB.problems 'B').wrong_attempts ∧
        team1.solved_count = demoLiveB.solved_count + 1 ∧
        team1.penalty =
          demoLiveB.penalty + (20 * (getProblem demoLiveB.problems 'B').wrong_attempts + 7) ∧
        ∃ pre post : List Int, demoLiveB.solve_times = pre ++ post ∧
          team1.solve_times = pre ++ 7 :: post ∧
          (∀ x ∈ pre, x > 7) ∧ (∀ y, post.head? = some y → y ≤ 7)) ∧
      ("Accepted" ≠ "Accepted" →
        (getProblem team1.problems 'B').wrong_attempts =
          (getProblem demoLiveB.problems 'B').wrong_attempts + 1 ∧
        (getProblem team1.problems 'B').solved = false ∧
        (getProblem team1.problems 'B').solve_time =
          (getProblem demoLiveB.problems 'B').solve_time ∧
        team1.solved_count = demoLiveB.solved_count ∧
        team1.penalty = demoLiveB.penalty ∧
        team1.solve_times = demoLiveB.solve_times) :=
  live_submit_unsolved demoLive reachable_demoLive (by decide) 'B' "b" "Accepted" 7 demoLiveB
    (by decide) (by decide)

/-! ## The submission history -/

theorem submitTeam_all_submissions (frozen : Bool) (problem : Char) (status : String)
    (time : Int) (team : Team) :
    (submitTeam frozen problem status time team).all_submissions =
      team.all_submissions ++ [⟨String.singleton problem, status, time⟩] := by
  unfold submitTeam
  by_cases h1 : (frozen && !(getProblem team.problems problem).solved) = true
  · simp [h1]
  · by_cases h2 : (!frozen && !(getProblem team.problems problem).solved) = true
    · simp only [h1, h2, if_false, if_true]
      exact (judge_frame _ _ _ _).2.2.1
    · simp [h1, h2]

/-- C12: for every state (live or frozen, the problem solved or not) and every
`submit` for an existing team, the call succeeds and the submission history of
the team afterwards is the previous history with exactly the record (problem,
verdict, time) appended at the end; every other team, and so its history, is
unchanged. -/
theorem submit_appends_history (s : ICPCSystem) (problem : Char) (team_name status : String)
    (time : Int) (team : Team) (ht : getTeam s.scoreboard team_name = some team) :
    ∃ s1 team1, s.submit problem team_name status time = some s1 ∧
      getTeam s1.scoreboard team_name = some team1 ∧
      team1.all_submissions =
        team.all_submissions ++ [⟨String.singleton problem, status, time⟩] ∧
      (∀ other : String, other ≠ team_name →
        getTeam s1.scoreboard other = getTeam s.scoreboard other) ∧
      s1.scoreboard.map (fun t => t.name) = s.scoreboard.map (fun t => t.name) := by
  obtain ⟨sb1, hm, hg, ho⟩ := modifyTeam_getTeam (submitTeam s.frozen problem status time)
    (submitTeam_name _ _ _ _) team_name s.scoreboard team ht
  exact ⟨{ s with scoreboard := sb1 }, _, by simp [ICPCSystem.submit, hm], hg,
    submitTeam_all_submissions _ _ _ _ _, ho,
    modifyTeam_map (fun t => t.name) _ (submitTeam_name _ _ _ _) _ _ _ hm⟩

/-- C12 at the frozen example state: team `b` submits problem `A`, which it has
solved already. -/
theorem submit_appends_history_witness :
    ∃ s1 team1, demoFrozen.submit 'A' "b" "Wrong" 9 = some s1 ∧
      getTeam s1.scoreboard "b" = some team1 ∧
      team1.all_submissions =
        demoFrozenB.all_submissions ++ [⟨String.singleton 'A', "Wrong", 9⟩] ∧
      (∀ other : String, other ≠ "b" →
        getTeam s1.scoreboard other = getTeam demoFrozen.scoreboard other) ∧
      s1.scoreboard.map (fun t => t.name) = demoFrozen.scoreboard.map (fun t => t.name) :=
  submit_appends_history demoFrozen 'A' "b" "Wrong" 9 demoFrozenB (by decide)

/-! ## The submission query -/

theorem lastMatch_append (problem status : String) (l : List Submission) (a : Submission) :
    ICPCSystem.lastMatch problem status (l ++ [a]) =
      if matchesFilter problem status a then some a
      else ICPCSystem.lastMatch problem status l := by
  unfold ICPCSystem.lastMatch matchesFilter
  rw [List.reverse_append, List.reverse_singleton, List.singleton_append, List.find?_cons]
  by_cases hp : problem = "ALL" <;> by_cases hs : status = "ALL" <;>
    by_cases h1 : a.problem = problem <;> by_cases h2 : a.status = status <;>
    simp [hp, hs, h1, h2]

theorem lastMatch_nil (problem status : String) :
    ICPCSystem.lastMatch problem status [] = none := rfl

theorem lastMatch_eq_none (problem status : String) (subs : List Submission) :
    ICPCSystem.lastMatch problem status subs = none ↔
      ∀ sub ∈ subs, ¬ matchesFilter problem status sub := by
  induction subs using List.reverseRecOn with
  | nil => simp [lastMatch_nil]
  | append_singleton l a ih =>
    rw [lastMatch_append]
    by_cases hm : matchesFilter problem status a
    · simp only [hm, if_true]
      constructor
      · intro h; cases h
      · intro h; exact absurd hm (h a (by simp))
    · simp only [hm, if_false, ih]
      constructor
      · intro h sub hsub
        rcases List.mem_append.mp hsub with h1 | h1
        · exact h sub h1
        · rw [List.mem_singleton] at h1
          rw [h1]; exact hm
      · intro h sub hsub
        exact h sub (List.mem_append_left _ hsub)

theorem lastMatch_eq_some (problem status : String) (subs : List Submission) :
    ∀ (i : Nat) (sub : Submission), subs[i]? = some sub → matchesFilter problem status sub →
      (∀ (j : Nat) (other : Submission), i < j → subs[j]? = some other →
        ¬ matchesFilter problem status other) →
      ICPCSystem.lastMatch problem status subs = some sub := by
  induction subs using List.reverseRecOn with
  | nil => intro i sub h; simp at h
  | append_singleton l a ih =>
    intro i sub hi hm hlast
    rw [lastMatch_append]
    have hlen : i < (l ++ [a]).length := (List.getElem?_eq_some.mp hi).1
    simp only [List.length_append, List.length_singleton] at hlen
    by_cases hil : i < l.length
    · have ha : ¬ matchesFilter problem status a :=
        hlast l.length a hil (by simp)
      simp only [ha, if_false]
      apply ih i sub
      · rw [List.getElem?_append_left hil] at hi
        exact hi
      · exact hm
      · intro j other hij hj
        have hjl : j < l.length := (List.getElem?_eq_some.mp hj).1
        exact hlast j other hij (by rw [List.getElem?_append_left hjl]; exact hj)
    · have hil1 : i = l.length := by omega
      subst hil1
      have : a = sub := by simpa using hi
      subst this
      simp [hm]

/-- C13: the submission query for an existing team.  It reports the record of
the history of the team with the greatest index among the records that pass
both filters (a filter passes when it is `ALL` or equals the field); it reports
"no submission" if and only if no record of the history passes; in particular
with an empty history it reports "no submission", and with a history of exactly
one record and both filters `ALL` it reports that record. -/
theorem query_last_submission (s : ICPCSystem) (team_name problem status : String)
    (team : Team) (ht : getTeam s.scoreboard team_name = some team) :
    (∀ (i : Nat) (sub : Submission), team.all_submissions[i]? = some sub →
      matchesFilter problem status sub →
      (∀ (j : Nat) (other : Submission), i < j → team.all_submissions[j]? = some other →
        ¬ matchesFilter problem status other) →
      s.querySubmission team_name problem status =
        [Output.info "Complete query submission.",
          Output.submission team_name sub.problem sub.status sub.time]) ∧
    (s.querySubmission team_name problem status =
        [Output.info "Complete query submission.", Output.noSubmission] ↔
      ∀ sub ∈ team.all_submissions, ¬ matchesFilter problem status sub) ∧
    (team.all_submissions = [] →
      s.querySubmission team_name problem status =
        [Output.info "Complete query submission.", Output.noSubmission]) ∧
    (∀ sub : Submission, team.all_submissions = [sub] →
      s.querySubmission team_name "ALL" "ALL" =
        [Output.info "Complete query submission.",
          Output.submission team_name sub.problem sub.status sub.time]) := by
  have hq : ∀ p st : String, s.querySubmission team_name p st =
      [Output.info "Complete query submission."] ++
        (match ICPCSystem.lastMatch p st team.all_submissions with
          | none => [Output.noSubmission]
          | some r => [Output.submission team_name r.problem r.status r.time]) := by
    intro p st
    simp [ICPCSystem.querySubmission, ht]
  refine ⟨?_, ?_, ?_, ?_⟩
  · intro i sub hi hm hlast
    rw [hq, lastMatch_eq_some problem status _ i sub hi hm hlast]
    rfl
  · rw [hq, ← lastMatch_eq_none]
    cases hl : ICPCSystem.lastMatch problem status team.all_submissions with
    | none => simp
    | some r => simp
  · intro he
    rw [hq, he, lastMatch_nil]
    rfl
  · intro sub he
    rw [hq, lastMatch_eq_some "ALL" "ALL" _ 0 sub (by rw [he]; rfl)
      ⟨Or.inl rfl, Or.inl rfl⟩ (fun j other hj hjo => by
        rw [he] at hjo
        have := (List.getElem?_eq_some.mp hjo).1
        simp at this
        omega)]
    rfl

/-- C13 at team `b` of the final example state: its history is `A Wrong 3`,
`A Accepted 5`, `C Accepted 6`; the last record for problem `A` with any
verdict is the one at index 1. -/
theorem query_last_submission_witness :
    demoFinal.querySubmission "b" "A" "ALL" =
      [Output.info "Complete query submission.", Output.submission "b" "A" "Accepted" 5] :=
  (query_last_submission demoFinal "b" "A" "ALL" demoTeamB (by decide)).1 1
    ⟨"A", "Accepted", 5⟩ (by decide) ⟨Or.inr rfl, Or.inl rfl⟩
    (fun j other hj hjo => by
      have h2 : demoTeamB.all_submissions =
          [⟨"A", "Wrong", 3⟩, ⟨"A", "Accepted", 5⟩, ⟨"C", "Accepted", 6⟩] := by decide
      rw [h2] at hjo
      have hlen := (List.getElem?_eq_some.mp hjo).1
      simp only [List.length_cons, List.length_nil] at hlen
      have hj2 : j = 2 := by omega
      subst hj2
      simp only [List.getElem?_cons_succ, List.getElem?_cons_zero, Option.some.injEq] at hjo
      subst hjo
      rintro ⟨h1, _⟩
      rcases h1 with h1 | h1
      · exact absurd h1 (by decide)
      · exact absurd h1 (by decide))

/-! ## Rejected operations -/

theorem getTeam_eq_none (sb : List Team) (name : String) :
    getTeam sb name = none ↔ hasTeam sb name = false := by
  unfold getTeam hasTeam
  rw [List.find?_eq_none, List.any_eq_false]

theorem queryRanking_isError (s : ICPCSystem) (name : String) :
    isError (s.queryRanking name) ↔ hasTeam s.scoreboard name = false := by
  rw [← getTeam_eq_none]
  unfold ICPCSystem.queryRanking isError
  cases hg : getTeam s.scoreboard name with
  | none => simp
  | some team => simp

theorem querySubmission_isError (s : ICPCSystem) (name problem status : String) :
    isError (s.querySubmission name problem status) ↔ hasTeam s.scoreboard name = false := by
  rw [← getTeam_eq_none]
  unfold ICPCSystem.querySubmission isError
  cases hg : getTeam s.scoreboard name with
  | none => simp
  | some team => simp

theorem addTeam_isError (s : ICPCSystem) (name : String) :
    (isError (s.addTeam name).2 ↔ (s.started = true ∨ hasTeam s.scoreboard name = true)) ∧
    (isError (s.addTeam name).2 → (s.addTeam name).1 = s) := by
  unfold ICPCSystem.addTeam isError
  by_cases hs : s.started = true
  · simp [hs]
  · by_cases hd : hasTeam s.scoreboard name = true
    · simp [hs, hd]
    · simp [hs, hd]

theorem startCompetition_isError (s : ICPCSystem) (duration problems : Int) :
    (isError (s.startCompetition duration problems).2 ↔ s.started = true) ∧
    (isError (s.startCompetition duration problems).2 →
      (s.startCompetition duration problems).1 = s) := by
  unfold ICPCSystem.startCompetition isError
  by_cases hs : s.started = true
  · simp [hs]
  · simp [hs]

theorem freeze_isError (s : ICPCSystem) :
    (isError s.freeze.2 ↔ s.frozen = true) ∧ (isError s.freeze.2 → s.freeze.1 = s) := by
  unfold ICPCSystem.freeze isError
  by_cases hf : s.frozen = true
  · simp [hf]
  · simp [hf]

theorem scroll_isError (s : ICPCSystem) (fuel : Nat) :
    ((∃ r, s.scroll fuel = some r ∧ isError r.2) ↔ s.frozen = false) ∧
    (∀ r, s.scroll fuel = some r → isError r.2 → r.1 = s) := by
  unfold ICPCSystem.scroll isError
  by_cases hf : s.frozen = true
  · simp only [hf, Bool.not_true, Bool.false_eq_true, if_false]
    cases hl : scrollLoop fuel (updateRankings s.scoreboard) with
    | none => simp
    | some q => simp
  · have hf1 : s.frozen = false := by simpa using hf
    simp [hf1]

/-- C14: rejected operations change nothing.  `addTeam` fails exactly when the
contest has started or the name exists, `start` exactly when the contest has
started, `freeze` exactly when the scoreboard is frozen, `scroll` exactly when
it is not frozen, and the two queries exactly when the team does not exist; a
failing `addTeam`, `start`, `freeze` or `scroll` returns the state it was
given (the queries return no state at all). -/
theorem rejected_operations_change_nothing (s : ICPCSystem) :
    (∀ name : String,
      (isError (s.addTeam name).2 ↔ (s.started = true ∨ hasTeam s.scoreboard name = true)) ∧
      (isError (s.addTeam name).2 → (s.addTeam name).1 = s)) ∧
    (∀ duration problems : Int,
      (isError (s.startCompetition duration problems).2 ↔ s.started = true) ∧
      (isError (s.startCompetition duration problems).2 →
        (s.startCompetition duration problems).1 = s)) ∧
    ((isError s.freeze.2 ↔ s.frozen = true) ∧ (isError s.freeze.2 → s.freeze.1 = s)) ∧
    (∀ fuel : Nat,
      ((∃ r, s.scroll fuel = some r ∧ isError r.2) ↔ s.frozen = false) ∧
      (∀ r, s.scroll fuel = some r → isError r.2 → r.1 = s)) ∧
    (∀ name : String, isError (s.queryRanking name) ↔ hasTeam s.scoreboard name = false) ∧
    (∀ name problem status : String,
      isError (s.querySubmission name problem status) ↔ hasTeam s.scoreboard name = false) :=
  ⟨addTeam_isError s, startCompetition_isError s, freeze_isError s, scroll_isError s,
    queryRanking_isError s, querySubmission_isError s⟩

/-- C14 at the frozen example state: adding the existing team `a` after the
start fails and returns the state unchanged. -/
theorem rejected_operations_change_nothing_witness :
    isError (demoFrozen.addTeam "a").2 ∧ (demoFrozen.addTeam "a").1 = demoFrozen :=
  ⟨((rejected_operations_change_nothing demoFrozen).1 "a").1.mpr (Or.inl (by decide)),
    ((rejected_operations_change_nothing demoFrozen).1 "a").2
      (((rejected_operations_change_nothing demoFrozen).1 "a").1.mpr (Or.inl (by decide)))⟩

/-! ## Pending bookkeeping -/

/-- C20: pending bookkeeping invariant.  In every reachable state, for every
team and every problem identifier, the pending count of the problem is the
length of its pending list, a solved problem has pending count 0, and when the
scoreboard is not frozen every pending count is 0.  (No restriction to the
identifiers `'A'..'Z'` is needed.) -/
theorem pending_bookkeeping (s : ICPCSystem) (h : Reachable s) :
    ∀ t ∈ s.scoreboard, ∀ c : Char,
      (getProblem t.problems c).frozen_submissions =
        ((getProblem t.problems c).frozen_subs.length : Int) ∧
      ((getProblem t.problems c).solved = true →
        (getProblem t.problems c).frozen_submissions = 0) ∧
      (s.frozen = false → (getProblem t.problems c).frozen_submissions = 0) := by
  intro t ht c
  have hi := reachable_inv h
  have hp := getProblem_of_forall PendingOk pendingOk_default (hi.teams t ht).pending c
  exact ⟨hp.1, hp.2, fun hf =>
    getProblem_of_forall (fun ps => ps.frozen_submissions = 0) rfl (hi.live hf t ht) c⟩

/-- C20 at team `b` of the frozen example state: problem `C` has one pending
submission, the solved problem `A` has none. -/
theorem pending_bookkeeping_witness :
    (getProblem demoFrozenB.problems 'C').frozen_submissions = 1 ∧
    ((getProblem demoFrozenB.problems 'A').frozen_submissions =
        ((getProblem demoFrozenB.problems 'A').frozen_subs.length : Int) ∧
      ((getProblem demoFrozenB.problems 'A').solved = true →
        (getProblem demoFrozenB.problems 'A').frozen_submissions = 0) ∧
      (demoFrozen.frozen = false →
        (getProblem demoFrozenB.problems 'A').frozen_submissions = 0)) :=
  ⟨by decide, pending_bookkeeping demoFrozen reachable_demoFrozen demoFrozenB (by decide) 'A'⟩

/-! ## Solved is final -/

theorem replay_solved (subs : List Submission) (t : Team) (ps : ProblemStatus)
    (hs : ps.solved = true) : replay subs t ps = (t, ps) := by
  induction subs with
  | nil => rfl
  | cons sub subs ih => simp [replay, hs, ih]

theorem submitTeam_solved_getProblem (frozen : Bool) (problem c : Char) (status : String)
    (time : Int) (team : Team) (hs : (getProblem team.problems c).solved = true) :
    getProblem (submitTeam frozen problem status time team).problems c =
      getProblem team.problems c := by
  by_cases hc : c = problem
  · subst hc
    cases frozen <;> simp [submitTeam, hs, getProblem_setProblem_same]
  · unfold submitTeam
    by_cases h1 : (frozen && !(getProblem team.problems problem).solved) = true
    · simp only [h1, if_true]
      exact getProblem_setProblem_other _ _ _ _ hc
    · by_cases h2 : (!frozen && !(getProblem team.problems problem).solved) = true
      · simp only [h1, h2, if_false, if_true]
        exact getProblem_setProblem_other _ _ _ _ hc
      · simp only [h1, h2, if_false]
        exact getProblem_setProblem_other _ _ _ _ hc

theorem submitTeam_solved_score (frozen : Bool) (c : Char) (status : String) (time : Int)
    (team : Team) (hs : (getProblem team.problems c).solved = true) :
    (submitTeam frozen c status time team).solved_count = team.solved_count ∧
    (submitTeam frozen c status time team).penalty = team.penalty ∧
    (submitTeam frozen c status time team).solve_times = team.solve_times := by
  cases frozen <;> simp [submitTeam, hs]

theorem resolveProblem_solvedFields {c : Char} {time wa : Int} {target : Team}
    (h : SolvedFields c time wa target) (mp : Char) :
    SolvedFields c time wa (resolveProblem target mp) := by
  obtain ⟨h1, h2, h3, h4⟩ := h
  by_cases hc : c = mp
  · subst hc
    unfold resolveProblem SolvedFields
    simp only [replay_solved _ _ _ h1, getProblem_setProblem_same]
    exact ⟨h1, h2, h3, trivial⟩
  · obtain ⟨ps1, _, _, e⟩ := resolveProblem_problems target mp
    unfold SolvedFields
    rw [e, getProblem_setProblem_other _ _ _ _ hc]
    exact ⟨h1, h2, h3, h4⟩

theorem hasTeam_iff_mem (sb : List Team) (name : String) :
    hasTeam sb name = true ↔ name ∈ sb.map (fun t => t.name) := by
  unfold hasTeam
  rw [List.any_eq_true, List.mem_map]
  constructor
  · rintro ⟨t, ht, e⟩
    exact ⟨t, ht, by simpa using e⟩
  · rintro ⟨t, ht, e⟩
    exact ⟨t, ht, by simpa using e⟩

theorem hasTeam_updateRankings (sb : List Team) (name : String) :
    hasTeam (updateRankings sb) name = hasTeam sb name := by
  have h := (updateRankings_map_perm (fun t => t.name) (fun _ _ => rfl) sb).mem_iff (a := name)
  rw [← hasTeam_iff_mem, ← hasTeam_iff_mem] at h
  cases h1 : hasTeam (updateRankings sb) name <;> cases h2 : hasTeam sb name <;> simp_all

theorem solvedOn_updateRankings {name : String} {c : Char} {time wa : Int} {sb : List Team}
    (h : SolvedOn name c time wa sb) : SolvedOn name c time wa (updateRankings sb) := by
  refine ⟨by rw [hasTeam_updateRankings]; exact h.1, ?_⟩
  intro t ht hn
  obtain ⟨t0, h0, r, e⟩ := mem_updateRankings ht
  subst e
  exact h.2 t0 h0 hn

theorem solvedOn_scrollStep {name : String} {c : Char} {time wa : Int} {sb : List Team}
    {i : Nat} {target : Team} (h : SolvedOn name c time wa sb) (hi : sb[i]? = some target) :
    SolvedOn name c time wa (scrollStep sb i target).result := by
  rw [scrollStep_result]
  apply solvedOn_updateRankings
  have hmem : target ∈ sb := List.mem_iff_getElem?.mpr ⟨i, hi⟩
  refine ⟨?_, ?_⟩
  · rw [hasTeam_iff_mem,
      set_map_same (fun t => t.name) _ target (resolveProblem_name _ _) sb i hi,
      ← hasTeam_iff_mem]
    exact h.1
  · intro t ht hn
    rcases List.mem_or_eq_of_mem_set ht with hm | e
    · exact h.2 t hm hn
    · subst e
      rw [resolveProblem_name] at hn
      exact resolveProblem_solvedFields (h.2 target hmem hn) _

theorem solvedOn_scrollLoop {name : String} {c : Char} {time wa : Int} :
    ∀ (fuel : Nat) (sb : List Team) (r : List Team × List Output),
      scrollLoop fuel sb = some r → SolvedOn name c time wa sb → SolvedOn name c time wa r.1 := by
  intro fuel
  induction fuel with
  | zero => intro sb r h; simp [scrollLoop] at h
  | succ fuel ih =>
    intro sb r h hs
    unfold scrollLoop at h
    cases hf : findTarget sb sb.length with
    | none =>
      simp only [hf, Option.some.injEq] at h
      subst h
      exact hs
    | some i =>
      simp only [hf] at h
      cases hi : sb[i]? with
      | none => simp [hi] at h
      | some target =>
        simp only [hi, Option.map_eq_some'] at h
        obtain ⟨q, hq, rfl⟩ := h
        exact ih _ q hq (solvedOn_scrollStep hs hi)

theorem solvedOn_step {name : String} {c : Char} {time wa : Int} {s s1 : ICPCSystem}
    (hstep : Step s s1) (h : SolvedOn name c time wa s.scoreboard) :
    SolvedOn name c time wa s1.scoreboard := by
  cases hstep with
  | addTeam n =>
    unfold ICPCSystem.addTeam
    by_cases hs : s.started = true
    · simpa [hs] using h
    · by_cases hd : hasTeam s.scoreboard n = true
      · simpa [hs, hd] using h
      · simp only [hs, hd, Bool.false_eq_true, if_false]
        refine ⟨?_, ?_⟩
        · have := h.1
          simp only [hasTeam, List.any_append, Bool.or_eq_true] at this ⊢
          exact Or.inl this
        · intro t ht hn
          rcases List.mem_append.mp ht with hm | hm
          · exact h.2 t hm hn
          · rw [List.mem_singleton] at hm
            subst hm
            exfalso
            apply hd
            simp only at hn
            rw [hn]
            exact h.1
  | start d p =>
    unfold ICPCSystem.startCompetition
    by_cases hs : s.started = true
    · simpa [hs] using h
    · simp only [hs, Bool.false_eq_true, if_false]
      exact solvedOn_updateRankings h
  | submit _ problem team_name status tm e =>
    unfold ICPCSystem.submit at e
    rw [Option.map_eq_some'] at e
    obtain ⟨sb1, hm, rfl⟩ := e
    refine ⟨?_, ?_⟩
    · show hasTeam sb1 name = true
      rw [hasTeam_iff_mem, modifyTeam_map (fun t => t.name) _ (submitTeam_name _ _ _ _) _ _ _ hm,
        ← hasTeam_iff_mem]
      exact h.1
    · exact modifyTeam_forall (fun t => t.name = name → SolvedFields c time wa t) _ _ _ _ hm h.2
        (fun t ht hn => by
          rw [submitTeam_name] at hn
          obtain ⟨h1, h2, h3, h4⟩ := h.2 t ht hn
          unfold SolvedFields
          rw [submitTeam_solved_getProblem _ _ _ _ _ _ h1]
          exact ⟨h1, h2, h3, h4⟩)
  | flush => exact solvedOn_updateRankings h
  | freeze =>
    unfold ICPCSystem.freeze
    by_cases hf : s.frozen = true
    · simpa [hf] using h
    · simpa [hf] using h
  | scroll fuel r e =>
    unfold ICPCSystem.scroll at e
    by_cases hf : s.frozen = true
    · simp only [hf, Bool.not_true, Bool.false_eq_true, if_false] at e
      cases hl : scrollLoop fuel (updateRankings s.scoreboard) with
      | none => simp [hl] at e
      | some q =>
        simp only [hl, Option.some.injEq] at e
        subst e
        exact solvedOn_scrollLoop fuel _ q hl (solvedOn_updateRankings h)
    · simp only [hf, Bool.not_false, if_true, Option.some.injEq] at e
      subst e
      exact h

theorem solvedOn_steps {name : String} {c : Char} {time wa : Int} {s s1 : ICPCSystem}
    (hsteps : Steps s s1) (h : SolvedOn name c time wa s.scoreboard) :
    SolvedOn name c time wa s1.scoreboard := by
  induction hsteps with
  | refl => exact h
  | tail _ hstep ih => exact solvedOn_step hstep ih

theorem reachable_step {s s1 : ICPCSystem} (h : Reachable s) (hstep : Step s s1) :
    Reachable s1 := by
  cases hstep with
  | addTeam n => exact Reachable.addTeam n h
  | start d p => exact Reachable.start d p h
  | submit _ problem team_name status time e => exact Reachable.submit _ _ _ _ h e
  | flush => exact Reachable.flush h
  | freeze => exact Reachable.freeze h
  | scroll fuel r e => exact Reachable.scroll fuel r h e

theorem reachable_steps {s s1 : ICPCSystem} (h : Reachable s) (hsteps : Steps s s1) :
    Reachable s1 := by
  induction hsteps with
  | refl => exact h
  | tail _ hstep ih => exact reachable_step ih hstep

theorem getTeam_of_mem {sb : List Team} (hn : (sb.map (fun t => t.name)).Nodup) {t : Team}
    (ht : t ∈ sb) : getTeam sb t.name = some t := by
  induction sb with
  | nil => cases ht
  | cons a l ih =>
    rw [List.map_cons, List.nodup_cons] at hn
    rcases List.mem_cons.mp ht with e | hm
    · subst e
      simp [getTeam]
    · have hne : ¬ a.name = t.name := fun e => hn.1 (List.mem_map.mpr ⟨t, hm, e.symm⟩)
      have := ih hn.2 hm
      simp only [getTeam, List.find?_cons, hne, decide_False] at this ⊢
      exact this

theorem solvedOn_of_getTeam {sb : List Team} (hn : (sb.map (fun t => t.name)).Nodup)
    {name : String} {c : Char} {team : Team} (ht : getTeam sb name = some team)
    (hs : (getProblem team.problems c).solved = true)
    (he : (getProblem team.problems c).frozen_subs = []) :
    SolvedOn name c (getProblem team.problems c).solve_time
      (getProblem team.problems c).wrong_attempts sb := by
  obtain ⟨hm, hname⟩ := getTeam_some ht
  refine ⟨(hasTeam_iff_mem _ _).mpr (List.mem_map.mpr ⟨team, hm, hname⟩), ?_⟩
  intro t htm htn
  have h1 := getTeam_of_mem hn htm
  rw [htn, ht] at h1
  cases h1
  exact ⟨hs, rfl, rfl, he⟩

theorem getTeam_of_solvedOn {sb : List Team} {name : String} {c : Char} {time wa : Int}
    (h : SolvedOn name c time wa sb) :
    ∃ team, getTeam sb name = some team ∧ SolvedFields c time wa team := by
  cases hg : getTeam sb name with
  | none =>
    rw [getTeam_eq_none] at hg
    rw [h.1] at hg
    cases hg
  | some team =>
    obtain ⟨hm, hname⟩ := getTeam_some hg
    exact ⟨team, rfl, h.2 team hm hname⟩

/-- C11: solved is final.  In a reachable state in which a team has solved a
problem, the pending list of that problem is empty; after every later sequence
of operations (`addTeam`, `start`, `submit` of any team for any problem with
any verdict, live or frozen, `refresh`, `freeze`, `scroll`) the team still has
the problem solved with the same solve time and wrong attempts and an empty
pending list; and a `submit` of the team for that problem succeeds and leaves
its solved count, penalty and solve-time list unchanged. -/
theorem solved_is_final (s : ICPCSystem) (hr : Reachable s) (name : String) (c : Char)
    (team : Team) (ht : getTeam s.scoreboard name = some team)
    (hs : (getProblem team.problems c).solved = true) :
    (getProblem team.problems c).frozen_subs = [] ∧
    (∀ s1 : ICPCSystem, Steps s s1 →
      ∃ team1, getTeam s1.scoreboard name = some team1 ∧
        (getProblem team1.problems c).solved = true ∧
        (getProblem team1.problems c).solve_time = (getProblem team.problems c).solve_time ∧
        (getProblem team1.problems c).wrong_attempts =
          (getProblem team.problems c).wrong_attempts ∧
        (getProblem team1.problems c).frozen_subs = []) ∧
    (∀ (status : String) (time : Int),
      ∃ s1 team1, s.submit c name status time = some s1 ∧
        getTeam s1.scoreboard name = some team1 ∧
        team1.solved_count = team.solved_count ∧ team1.penalty = team.penalty ∧
        team1.solve_times = team.solve_times) := by
  have hi := reachable_inv hr
  have hp := getProblem_of_forall PendingOk pendingOk_default
    (hi.teams team (getTeam_some ht).1).pending c
  have he : (getProblem team.problems c).frozen_subs = [] := by
    have h0 := hp.2 hs
    have h1 := hp.1
    rw [h0] at h1
    exact List.length_eq_zero.mp (by exact_mod_cast h1.symm)
  refine ⟨he, ?_, ?_⟩
  · intro s1 hsteps
    exact getTeam_of_solvedOn (solvedOn_steps hsteps (solvedOn_of_getTeam hi.names ht hs he))
  · intro status time
    obtain ⟨sb1, hm, hg, _⟩ := modifyTeam_getTeam (submitTeam s.frozen c status time)
      (submitTeam_name _ _ _ _) name s.scoreboard team ht
    exact ⟨{ s with scoreboard := sb1 }, _, by simp [ICPCSystem.submit, hm], hg,
      submitTeam_solved_score _ _ _ _ _ hs⟩

/-- C11 along the example run: team `b` has solved problem `A` at 5 after one
wrong attempt in the live state; the scoreboard is then frozen, four
submissions arrive and the scoreboard is scrolled. -/
theorem solved_is_final_witness :
    (getProblem demoLiveB.problems 'A').frozen_subs = [] ∧
    ∃ team1, getTeam demoFinal.scoreboard "b" = some team1 ∧
      (getProblem team1.problems 'A').solved = true ∧
      (getProblem team1.problems 'A').solve_time = (getProblem demoLiveB.problems 'A').solve_time ∧
      (getProblem team1.problems 'A').wrong_attempts =
        (getProblem demoLiveB.problems 'A').wrong_attempts ∧
      (getProblem team1.problems 'A').frozen_subs = [] :=
  ⟨(solved_is_final demoLive reachable_demoLive "b" 'A' demoLiveB (by decide) (by decide)).1,
    (solved_is_final demoLive reachable_demoLive "b" 'A' demoLiveB (by decide) (by decide)).2.1
      demoFinal
      (Steps.tail
        (Steps.tail
          (Steps.tail
            (Steps.tail
              (Steps.tail
                (Steps.tail (Steps.refl demoLive) (Step.freeze demoLive))
                (Step.submit _ ((demoLive.freeze.1.submit 'B' "a" "Accepted" 7).getD {})
                  'B' "a" "Accepted" 7 (by decide)))
              (Step.submit _ ((submitAll demoLive.freeze.1
                  [('B', "a", "Accepted", 7), ('A', "a", "Accepted", 8)]).getD {})
                'A' "a" "Accepted" 8 (by decide)))
            (Step.submit _ ((submitAll demoLive.freeze.1
                [('B', "a", "Accepted", 7), ('A', "a", "Accepted", 8),
                  ('C', "a", "Accepted", 6)]).getD {})
              'C' "a" "Accepted" 6 (by decide)))
          (Step.submit _ demoFrozen 'C' "b" "Accepted" 6 (by decide)))
        (Step.scroll demoFrozen 5 ((demoFrozen.scroll 5).getD (demoFrozen, [])) (by decide)))⟩

/-! ## Re-sorting: permutation, order and ranks -/

theorem compareTeams_unranked (a b : Team) :
    compareTeams (unranked a) (unranked b) = compareTeams a b := rfl

theorem pairwise_unranked (l : List Team) :
    (l.map unranked).Pairwise (fun a b => compareTeams a b = true) ↔
      l.Pairwise (fun a b => compareTeams a b = true) := by
  rw [List.pairwise_map]
  rfl

theorem assignRankings_unranked : ∀ (l : List Team) (i : Nat),
    assignRankings (l.map unranked) i = assignRankings l i := by
  intro l
  induction l with
  | nil => intro i; rfl
  | cons a l ih =>
    intro i
    simp only [List.map_cons, assignRankings, ih]
    rfl

theorem orderedInsert_map_unranked (a : Team) : ∀ l : List Team,
    (l.orderedInsert (fun x y => compareTeams x y = true) a).map unranked =
      (l.map unranked).orderedInsert (fun x y => compareTeams x y = true) (unranked a) := by
  intro l
  induction l with
  | nil => rfl
  | cons b l ih =>
    simp only [List.orderedInsert, List.map_cons, compareTeams_unranked]
    by_cases h : compareTeams a b = true
    · simp [h]
    · simp [h, ih]

theorem sortTeams_map_unranked (l : List Team) :
    (sortTeams l).map unranked = sortTeams (l.map unranked) := by
  induction l with
  | nil => rfl
  | cons a l ih =>
    simp only [sortTeams, List.insertionSort, List.map_cons] at ih ⊢
    rw [orderedInsert_map_unranked, ih]

theorem updateRankings_eq_unranked (l : List Team) :
    updateRankings l = assignRankings (sortTeams (l.map unranked)) 0 := by
  unfold updateRankings
  rw [← sortTeams_map_unranked, assignRankings_unranked]

theorem names_map_unranked (l : List Team) :
    (l.map unranked).map (fun t => t.name) = l.map (fun t => t.name) := by
  rw [List.map_map]
  rfl

theorem updateRankings_congr {l1 l2 : List Team} (hn : (l1.map (fun t => t.name)).Nodup)
    (hp : (l1.map unranked).Perm (l2.map unranked)) :
    updateRankings l1 = updateRankings l2 := by
  rw [updateRankings_eq_unranked l1, updateRankings_eq_unranked l2]
  congr 1
  have hn1 : ((l1.map unranked).map (fun t => t.name)).Nodup := by
    rw [names_map_unranked]; exact hn
  have hn2 : ((l2.map unranked).map (fun t => t.name)).Nodup :=
    (hp.map (fun t => t.name)).nodup_iff.mp hn1
  exact sortTeams_unique (l2.map unranked) _ hn2 ((sortTeams_perm _).trans hp)
    (sortTeams_sorted _ hn1)

theorem updateRankings_sorted {l : List Team} (hn : (l.map (fun t => t.name)).Nodup) :
    (updateRankings l).Pairwise (fun a b => compareTeams a b = true) := by
  rw [← pairwise_unranked]
  unfold updateRankings
  rw [assignRankings_map unranked (fun _ _ => rfl), pairwise_unranked]
  exact sortTeams_sorted l hn

theorem ranks_of_ranking (l : List Team)
    (h : ∀ (i : Nat) (t : Team), l[i]? = some t → t.ranking = (i : Int) + 1) :
    l.map (fun t => t.ranking) = (List.range l.length).map (fun i : Nat => (i : Int) + 1) := by
  apply List.ext_getElem?
  intro i
  rw [List.getElem?_map, List.getElem?_map]
  by_cases hi : i < l.length
  · rw [List.getElem?_eq_getElem hi, List.getElem?_range hi]
    simp only [Option.map_some']
    rw [h i l[i] (List.getElem?_eq_getElem hi)]
  · rw [List.getElem?_eq_none (by omega), List.getElem?_eq_none (by simpa using hi)]
    rfl

theorem resorted_updateRankings {l : List Team} (hn : (l.map (fun t => t.name)).Nodup) :
    Resorted l (updateRankings l) :=
  ⟨updateRankings_map_perm unranked (fun _ _ => rfl) l, updateRankings_sorted hn,
    updateRankings_ranking l, ranks_of_ranking _ (updateRankings_ranking l)⟩

theorem registered_foldl (names : List String) :
    ∀ s : ICPCSystem, Reachable s → s.started = false →
      (∀ t ∈ s.scoreboard, unranked t = { name := t.name }) →
      Reachable (names.foldl (fun s n => (s.addTeam n).1) s) ∧
      (names.foldl (fun s n => (s.addTeam n).1) s).started = false ∧
      ∀ t ∈ (names.foldl (fun s n => (s.addTeam n).1) s).scoreboard,
        unranked t = { name := t.name } := by
  induction names with
  | nil => intro s hr hs hf; exact ⟨hr, hs, hf⟩
  | cons n names ih =>
    intro s hr hs hf
    simp only [List.foldl_cons]
    apply ih _ (Reachable.addTeam n hr)
    · unfold ICPCSystem.addTeam
      by_cases hd : hasTeam s.scoreboard n = true
      · simp [hs, hd]
      · simp [hs, hd]
    · unfold ICPCSystem.addTeam
      by_cases hd : hasTeam s.scoreboard n = true
      · simpa [hs, hd] using hf
      · simp only [hs, hd, Bool.false_eq_true, if_false]
        intro t ht
        rcases List.mem_append.mp ht with hm | hm
        · exact hf t hm
        · rw [List.mem_singleton] at hm
          subst hm
          rfl

theorem registered_spec (names : List String) :
    Reachable (registered names) ∧ (registered names).started = false ∧
    ∀ t ∈ (registered names).scoreboard, unranked t = { name := t.name } :=
  registered_foldl names {} Reachable.init rfl (fun _ ht => (by cases ht))

theorem compareTeams_fresh {a b : Team} (ha : unranked a = { name := a.name })
    (hb : unranked b = { name := b.name }) (h : compareTeams a b = true) : a.name < b.name := by
  rw [← compareTeams_unranked, ha, hb] at h
  rw [String.lt_iff_toList_lt]
  simpa [compareTeams, firstDiff] using h

/-- C15: after every re-sort the scoreboard holds the same teams, every team
outranks the teams after it under `compareTeams`, and the team at 0-based
position `i` has ranking `i + 1` (the rankings are `1..n`, each used once).
This holds for `refresh` and for `start` in every reachable state, for the
re-sort at the entry of `scroll` and for the re-sort of every resolution step
of `scroll`; and when `start` follows the registration of the teams with no
submission, the teams are ranked by ascending name. -/
theorem resort_ranks :
    (∀ s : ICPCSystem, Reachable s → Resorted s.scoreboard s.flush.1.scoreboard) ∧
    (∀ (s : ICPCSystem) (duration problems : Int), Reachable s → s.started = false →
      Resorted s.scoreboard (s.startCompetition duration problems).1.scoreboard) ∧
    (∀ s : ICPCSystem, Reachable s → s.frozen = true →
      Resorted s.scoreboard (updateRankings s.scoreboard) ∧
      ScrollState (updateRankings s.scoreboard)) ∧
    (∀ (sb : List Team) (i : Nat) (target : Team), ScrollState sb →
      findTarget sb sb.length = some i → sb[i]? = some target →
      Resorted (scrollStep sb i target).resolved (scrollStep sb i target).result) ∧
    (∀ (names : List String) (duration problems : Int),
      Resorted (registered names).scoreboard
        ((registered names).startCompetition duration problems).1.scoreboard ∧
      ((registered names).startCompetition duration problems).1.scoreboard.Pairwise
        (fun a b => a.name < b.name)) := by
  refine ⟨?_, ?_, ?_, ?_, ?_⟩
  · intro s hr
    exact resorted_updateRankings (reachable_inv hr).names
  · intro s duration problems hr hs
    simp only [ICPCSystem.startCompetition, hs, Bool.false_eq_true, if_false]
    exact resorted_updateRankings (reachable_inv hr).names
  · intro s hr hf
    exact ⟨resorted_updateRankings (reachable_inv hr).names, ScrollState.entry hr hf⟩
  · intro sb i target hs _ hi
    rw [scrollStep_result, scrollStep_resolved]
    apply resorted_updateRankings
    rw [set_map_same (fun t => t.name) _ target (resolveProblem_name _ _) sb i hi]
    exact (scrollState_inv hs).1
  · intro names duration problems
    obtain ⟨hr, hs, hf⟩ := registered_spec names
    have hres : Resorted (registered names).scoreboard
        ((registered names).startCompetition duration problems).1.scoreboard := by
      simp only [ICPCSystem.startCompetition, hs, Bool.false_eq_true, if_false]
      exact resorted_updateRankings (reachable_inv hr).names
    refine ⟨hres, ?_⟩
    have hfresh : ∀ t ∈ ((registered names).startCompetition duration problems).1.scoreboard,
        unranked t = { name := t.name } := by
      intro t ht
      have h1 : unranked t ∈ (registered names).scoreboard.map unranked :=
        hres.perm.mem_iff.mp (List.mem_map.mpr ⟨t, ht, rfl⟩)
      obtain ⟨t0, h0, e⟩ := List.mem_map.mp h1
      have := hf t0 h0
      rw [e] at this
      rw [this]
      have hn : t0.name = t.name := congrArg (fun x => x.name) e
      rw [hn]
    exact List.Pairwise.imp_of_mem (fun {a b} ha hb h =>
      compareTeams_fresh (hfresh a ha) (hfresh b hb) h) hres.sorted

/-- C15 at the start of the example run: teams `b` and `a` are registered in
this order and the contest starts: `a` is first. -/
theorem resort_ranks_witness :
    ((registered ["b", "a"]).startCompetition 10 3).1.scoreboard.map
        (fun t => (t.name, t.ranking)) = [("a", 1), ("b", 2)] ∧
    ((registered ["b", "a"]).startCompetition 10 3).1.scoreboard.Pairwise
      (fun a b => a.name < b.name) :=
  ⟨by decide, (resort_ranks.2.2.2.2 ["b", "a"] 10 3).2⟩

/-! ## Determinism of the ranking -/

/-- C16: determinism of the ranking.  For two orderings of the same teams with
pairwise distinct names, `updateRankings` gives the same scoreboard (the same
order and the same ranking of every team); a re-sort of a re-sorted scoreboard
changes nothing, so that in any state whose scoreboard it is, live or frozen, a
second `refresh` gives the state of the first. -/
theorem ranking_deterministic (l1 l2 : List Team) (hn : (l1.map (fun t => t.name)).Nodup)
    (hp : l1.Perm l2) :
    updateRankings l1 = updateRankings l2 ∧
    updateRankings (updateRankings l1) = updateRankings l1 ∧
    (∀ s : ICPCSystem, s.scoreboard = l1 → s.flush.1.flush.1 = s.flush.1) := by
  have hidem : updateRankings (updateRankings l1) = updateRankings l1 :=
    updateRankings_congr (updateRankings_names_nodup hn)
      (updateRankings_map_perm unranked (fun _ _ => rfl) l1)
  refine ⟨updateRankings_congr hn (hp.map unranked), hidem, ?_⟩
  intro s hs
  subst hs
  simp only [ICPCSystem.flush, hidem]

/-- C16 at the scoreboard of the frozen example state and its reverse. -/
theorem ranking_deterministic_witness :
    updateRankings demoFrozen.scoreboard = updateRankings demoFrozen.scoreboard.reverse ∧
    updateRankings (updateRankings demoFrozen.scoreboard) =
      updateRankings demoFrozen.scoreboard ∧
    (∀ s : ICPCSystem, s.scoreboard = demoFrozen.scoreboard → s.flush.1.flush.1 = s.flush.1) :=
  ranking_deterministic demoFrozen.scoreboard demoFrozen.scoreboard.reverse (by decide)
    (List.reverse_perm _).symm

/-! ## The position of the resolved team in the re-sorted scoreboard -/

theorem compareTeams_asymm {a b : Team} (h : compareTeams a b = true) :
    compareTeams b a = false := by
  cases hba : compareTeams b a with
  | false => rfl
  | true =>
    have := compareTeams_trans a b a h hba
    rw [compareTeams_irrefl] at this
    cases this

theorem scrollState_sorted {sb : List Team} (hs : ScrollState sb) :
    sb.Pairwise (fun a b => compareTeams a b = true) := by
  cases hs with
  | entry hr _ => exact updateRankings_sorted (reachable_inv hr).names
  | step hprev _ hi =>
    rw [scrollStep_result]
    apply updateRankings_sorted
    rw [set_map_same (fun t => t.name) _ _ (resolveProblem_name _ _) _ _ hi]
    exact (scrollState_inv hprev).1

theorem countBetter_eq_countP (target : Team) (i : Nat) :
    ∀ (l : List Team) (j : Nat),
      (∀ t, j ≤ i → l[i - j]? = some t → compareTeams t target = false) →
      countBetter target i l j = l.countP (fun t => compareTeams t target) := by
  intro l
  induction l with
  | nil => intro j _; rfl
  | cons a l ih =>
    intro j h
    rw [countBetter, List.countP_cons]
    have hrec : countBetter target i l (j + 1) = l.countP (fun t => compareTeams t target) := by
      apply ih
      intro t hj ht
      apply h t (by omega)
      have e : i - j = (i - (j + 1)) + 1 := by omega
      rw [e, List.getElem?_cons_succ]
      exact ht
    rw [hrec]
    by_cases hji : j = i
    · subst hji
      have ha : compareTeams a target = false := h a (le_refl _) (by simp)
      simp [ha]
    · by_cases hc : compareTeams a target = true
      · simp [hji, hc, Nat.add_comm]
      · simp [hji, hc]

theorem perm_cons_eraseIdx (target : Team) :
    ∀ (sb : List Team) (i : Nat), sb[i]? = some target → sb.Perm (target :: sb.eraseIdx i) := by
  intro sb
  induction sb with
  | nil => intro i h; simp at h
  | cons a l ih =>
    intro i h
    cases i with
    | zero =>
      simp only [List.getElem?_cons_zero, Option.some.injEq] at h
      subst h
      exact List.Perm.refl _
    | succ i =>
      simp only [List.getElem?_cons_succ] at h
      simp only [List.eraseIdx_cons_succ]
      exact ((ih i h).cons a).trans (List.Perm.swap _ _ _)

theorem set_perm_cons_eraseIdx (a target : Team) :
    ∀ (sb : List Team) (i : Nat), sb[i]? = some target →
      (sb.set i a).Perm (a :: sb.eraseIdx i) := by
  intro sb
  induction sb with
  | nil => intro i h; simp at h
  | cons b l ih =>
    intro i h
    cases i with
    | zero => exact List.Perm.refl _
    | succ i =>
      simp only [List.getElem?_cons_succ] at h
      simp only [List.set_cons_succ, List.eraseIdx_cons_succ]
      exact ((ih i h).cons b).trans (List.Perm.swap _ _ _)

theorem eraseIdx_names_ne {sb : List Team} (hn : (sb.map (fun t => t.name)).Nodup) {i : Nat}
    {target : Team} (hi : sb[i]? = some target) :
    ∀ y ∈ sb.eraseIdx i, y.name ≠ target.name := by
  have hp := (perm_cons_eraseIdx target sb i hi).map (fun t => t.name)
  have hnd := hp.nodup_iff.mp hn
  rw [List.map_cons, List.nodup_cons] at hnd
  intro y hy e
  exact hnd.1 (List.mem_map.mpr ⟨y, hy, e⟩)

theorem insert_position (x : Team) :
    ∀ L : List Team, L.Pairwise (fun a b => compareTeams a b = true) →
      (∀ y ∈ L, y.name ≠ x.name) →
      (∀ y ∈ L.take (L.countP (fun t => compareTeams t x)), compareTeams y x = true) ∧
      (∀ y ∈ L.drop (L.countP (fun t => compareTeams t x)), compareTeams x y = true) := by
  intro L
  induction L with
  | nil => intro _ _; exact ⟨fun _ hy => (by cases hy), fun _ hy => (by cases hy)⟩
  | cons a L ih =>
    intro hs hn
    rw [List.pairwise_cons] at hs
    obtain ⟨ih1, ih2⟩ := ih hs.2 (fun y hy => hn y (List.mem_cons_of_mem _ hy))
    rw [List.countP_cons]
    by_cases hc : compareTeams a x = true
    · simp only [hc, if_true, List.take_succ_cons, List.drop_succ_cons]
      refine ⟨?_, ih2⟩
      intro y hy
      rcases List.mem_cons.mp hy with e | hm
      · rw [e]; exact hc
      · exact ih1 y hm
    · have hxa : compareTeams x a = true := by
        rcases compareTeams_total a x (hn a (List.mem_cons_self _ _)) with h | h
        · exact absurd h.1 hc
        · exact h.2
      have hzero : L.countP (fun t => compareTeams t x) = 0 := by
        rw [List.countP_eq_zero]
        intro z hz hzx
        have := compareTeams_asymm (compareTeams_trans x a z hxa (hs.1 z hz))
        rw [this] at hzx
        cases hzx
      simp only [hc, Bool.false_eq_true, if_false, hzero, Nat.add_zero, List.take_zero,
        List.drop_zero]
      refine ⟨fun _ hy => (by cases hy), ?_⟩
      intro y hy
      rcases List.mem_cons.mp hy with e | hm
      · rw [e]; exact hxa
      · exact compareTeams_trans x a y hxa (hs.1 y hm)

theorem insert_sorted (x : Team) (L : List Team)
    (hs : L.Pairwise (fun a b => compareTeams a b = true)) (hn : ∀ y ∈ L, y.name ≠ x.name) :
    (L.take (L.countP (fun t => compareTeams t x)) ++
      x :: L.drop (L.countP (fun t => compareTeams t x))).Pairwise
        (fun a b => compareTeams a b = true) := by
  obtain ⟨h1, h2⟩ := insert_position x L hs hn
  have hsplit : (L.take (L.countP (fun t => compareTeams t x)) ++
      L.drop (L.countP (fun t => compareTeams t x))).Pairwise
        (fun a b => compareTeams a b = true) := by
    rw [List.take_append_drop]; exact hs
  rw [List.pairwise_append] at hsplit ⊢
  refine ⟨hsplit.1, List.Pairwise.cons h2 hsplit.2.1, ?_⟩
  intro a ha b hb
  rcases List.mem_cons.mp hb with e | hm
  · rw [e]; exact h1 a ha
  · exact hsplit.2.2 a ha b hm

theorem sortTeams_set {sb : List Team} (hsorted : sb.Pairwise (fun a b => compareTeams a b = true))
    (hn : (sb.map (fun t => t.name)).Nodup) {i : Nat} {target : Team}
    (hi : sb[i]? = some target) (t1 : Team) (hname : t1.name = target.name) :
    sortTeams (sb.set i t1) =
      (sb.eraseIdx i).take ((sb.eraseIdx i).countP (fun t => compareTeams t t1)) ++
        t1 :: (sb.eraseIdx i).drop ((sb.eraseIdx i).countP (fun t => compareTeams t t1)) := by
  symm
  apply sortTeams_unique
  · rw [set_map_same (fun t => t.name) _ target hname sb i hi]
    exact hn
  · refine List.Perm.trans ?_ (set_perm_cons_eraseIdx t1 target sb i hi).symm
    refine List.perm_middle.trans (List.Perm.cons _ ?_)
    rw [List.take_append_drop]
  · apply insert_sorted
    · exact hsorted.sublist (List.eraseIdx_sublist sb i)
    · intro y hy
      rw [hname]
      exact eraseIdx_names_ne hn hi y hy

theorem assignRankings_getElem? :
    ∀ (l : List Team) (j n : Nat),
      (assignRankings l j)[n]? =
        l[n]?.map (fun t => { t with ranking := ((j + n : Nat) : Int) + 1 }) := by
  intro l
  induction l with
  | nil => intro j n; simp [assignRankings]
  | cons a l ih =>
    intro j n
    cases n with
    | zero => simp [assignRankings]
    | succ n =>
      simp only [assignRankings, List.getElem?_cons_succ, ih]
      have e : j + 1 + n = j + (n + 1) := by omega
      rw [e]

theorem map_eraseIdx {β : Type} (f : Team → β) :
    ∀ (l : List Team) (k : Nat), (l.eraseIdx k).map f = (l.map f).eraseIdx k := by
  intro l
  induction l with
  | nil => intro k; rfl
  | cons a l ih =>
    intro k
    cases k with
    | zero => rfl
    | succ k => simp [List.eraseIdx_cons_succ, ih]

theorem countP_set_self {sb : List Team} {i : Nat} {target : Team} (hi : sb[i]? = some target)
    (t1 : Team) :
    countBetter t1 i (sb.set i t1) 0 = (sb.eraseIdx i).countP (fun t => compareTeams t t1) := by
  have hilt : i < sb.length := (List.getElem?_eq_some.mp hi).1
  rw [countBetter_eq_countP t1 i (sb.set i t1) 0 (fun t _ ht => by
    rw [Nat.sub_zero, List.getElem?_set_self hilt] at ht
    cases ht
    exact compareTeams_irrefl _)]
  rw [(set_perm_cons_eraseIdx t1 target sb i hi).countP_eq, List.countP_cons]
  simp [compareTeams_irrefl]

theorem scrollStep_shape {sb : List Team} (hs : ScrollState sb) {i : Nat} {target : Team}
    (hi : sb[i]? = some target) :
    ∃ k : Nat, k ≤ (sb.eraseIdx i).length ∧
      k = (sb.eraseIdx i).countP
        (fun t => compareTeams t (resolveProblem target (minProblem target))) ∧
      (scrollStep sb i target).new_rank = (k : Int) + 1 ∧
      (scrollStep sb i target).result =
        assignRankings ((sb.eraseIdx i).take k ++
          resolveProblem target (minProblem target) :: (sb.eraseIdx i).drop k) 0 := by
  refine ⟨(sb.eraseIdx i).countP
    (fun t => compareTeams t (resolveProblem target (minProblem target))),
    List.countP_le_length _, rfl, ?_, ?_⟩
  · rw [scrollStep_new_rank, countP_set_self hi]
    omega
  · rw [scrollStep_result]
    unfold updateRankings
    rw [sortTeams_set (scrollState_sorted hs) (scrollState_inv hs).1 hi _
      (resolveProblem_name _ _)]

/-- C18: in every resolution step of `scroll`, the prospective `new_rank` is
the ranking that the following full re-sort gives to the resolved team (the
team is at 0-based position `new_rank - 1` of the re-sorted scoreboard); the
other teams keep their relative order (the re-sorted scoreboard without the
moved team is the old scoreboard without it, apart from the ranking fields);
and when `new_rank < old_rank`, the team displaced from position `new_rank`
stands immediately below the moved team afterwards, with ranking
`new_rank + 1`. -/
theorem prospective_rank_is_authoritative (sb : List Team) (hs : ScrollState sb) (i : Nat)
    (target : Team) (_hf : findTarget sb sb.length = some i) (hi : sb[i]? = some target) :
    ∃ (k : Nat) (moved : Team),
      (scrollStep sb i target).new_rank = (k : Int) + 1 ∧
      (scrollStep sb i target).result[k]? = some moved ∧
      getTeam (scrollStep sb i target).result target.name = some moved ∧
      unranked moved = unranked (resolveProblem target (scrollStep sb i target).min_problem) ∧
      moved.ranking = (scrollStep sb i target).new_rank ∧
      ((scrollStep sb i target).result.eraseIdx k).map unranked =
        (sb.eraseIdx i).map unranked ∧
      ((scrollStep sb i target).new_rank < (scrollStep sb i target).old_ranking →
        ∃ displaced below : Team, sb[k]? = some displaced ∧
          (scrollStep sb i target).result[k + 1]? = some below ∧
          unranked below = unranked displaced ∧
          below.ranking = (scrollStep sb i target).new_rank + 1) := by
  obtain ⟨k, hk, _, hnew, hres⟩ := scrollStep_shape hs hi
  obtain ⟨_, _, hrank⟩ := scrollState_inv hs
  have hilt : i < sb.length := (List.getElem?_eq_some.mp hi).1
  have hlen : (List.take k (sb.eraseIdx i)).length = k := by
    rw [List.length_take]; omega
  have hmoved : (scrollStep sb i target).result[k]? =
      some { resolveProblem target (minProblem target) with ranking := (k : Int) + 1 } := by
    rw [hres, assignRankings_getElem?, List.getElem?_append_right (by omega), hlen]
    simp
  have hnodup : ((scrollStep sb i target).result.map (fun t => t.name)).Nodup :=
    (scrollStep_inv (scrollState_inv hs).1 (scrollState_inv hs).2.1 hi).1
  refine ⟨k, _, hnew, hmoved, ?_, rfl, ?_, ?_, ?_⟩
  · have hm := getTeam_of_mem hnodup (List.mem_iff_getElem?.mpr ⟨k, hmoved⟩)
    have hname : ({ resolveProblem target (minProblem target) with
        ranking := (k : Int) + 1 } : Team).name = target.name := resolveProblem_name _ _
    rw [hname] at hm
    exact hm
  · rw [hnew]
  · rw [map_eraseIdx, hres, assignRankings_map unranked (fun _ _ => rfl), ← map_eraseIdx,
      List.eraseIdx_append_of_length_le (by omega), hlen, Nat.sub_self]
    simp only [List.eraseIdx_cons_zero, List.take_append_drop]
  · intro hlt
    have hold : (scrollStep sb i target).old_ranking = (i : Int) + 1 := by
      rw [scrollStep_old_ranking]; exact hrank i target hi
    have hki : k < i := by omega
    have hklt : k < sb.length := by omega
    have hO : (sb.eraseIdx i)[k]? = some sb[k] := by
      rw [List.getElem?_eraseIdx_of_lt _ _ _ hki, List.getElem?_eq_getElem hklt]
    refine ⟨sb[k], { sb[k] with ranking := ((k + 1 : Nat) : Int) + 1 },
      List.getElem?_eq_getElem hklt, ?_, rfl, ?_⟩
    · rw [hres, assignRankings_getElem?, List.getElem?_append_right (by omega), hlen]
      have e : k + 1 - k = 1 := by omega
      have hO1 : (sb.eraseIdx i)[k + 0]? = some sb[k] := hO
      rw [e, List.getElem?_cons_succ, List.getElem?_drop, hO1]
      simp
    · rw [hnew]
      push_cast
      ring

/-- C18 in the first resolution step of the example run: team `a` moves from
rank 2 to rank 1 and team `b` stands below it afterwards. -/
theorem prospective_rank_is_authoritative_witness :
    ∃ (k : Nat) (moved : Team),
      (scrollStep demoBoard 1 demoTarget).new_rank = (k : Int) + 1 ∧
      (scrollStep demoBoard 1 demoTarget).result[k]? = some moved ∧
      getTeam (scrollStep demoBoard 1 demoTarget).result demoTarget.name = some moved ∧
      unranked moved =
        unranked (resolveProblem demoTarget (scrollStep demoBoard 1 demoTarget).min_problem) ∧
      moved.ranking = (scrollStep demoBoard 1 demoTarget).new_rank ∧
      ((scrollStep demoBoard 1 demoTarget).result.eraseIdx k).map unranked =
        (demoBoard.eraseIdx 1).map unranked ∧
      ((scrollStep demoBoard 1 demoTarget).new_rank <
          (scrollStep demoBoard 1 demoTarget).old_ranking →
        ∃ displaced below : Team, demoBoard[k]? = some displaced ∧
          (scrollStep demoBoard 1 demoTarget).result[k + 1]? = some below ∧
          unranked below = unranked displaced ∧
          below.ranking = (scrollStep demoBoard 1 demoTarget).new_rank + 1) :=
  prospective_rank_is_authoritative demoBoard
    (ScrollState.entry reachable_demoFrozen (by decide)) 1 demoTarget (by decide) (by decide)

/-! ## Resolving a frozen problem never lowers a team -/

theorem compareTeams_scoreOnly (a b : Team) :
    compareTeams (scoreOnly a) (scoreOnly b) = compareTeams a b := rfl

theorem compareTeams_congr_right (y : Team) {a b : Team} (h : scoreOnly a = scoreOnly b) :
    compareTeams y a = compareTeams y b := by
  rw [← compareTeams_scoreOnly y a, ← compareTeams_scoreOnly y b, h]

theorem compareTeams_of_solved_gt {a b : Team} (h : a.solved_count > b.solved_count) :
    compareTeams a b = true := by
  have hne : a.solved_count ≠ b.solved_count := by omega
  simp [compareTeams_eq_compareTail, hne, h]

theorem solved_ge_of_compareTeams {a b : Team} (h : compareTeams a b = true) :
    a.solved_count ≥ b.solved_count := by
  by_cases hne : a.solved_count = b.solved_count
  · omega
  · simp only [compareTeams_eq_compareTail, ne_eq, hne, not_false_eq_true, if_true,
      decide_eq_true_eq] at h
    omega

theorem replay_score (subs : List Submission) :
    ∀ (t : Team) (ps : ProblemStatus),
      ((replay subs t ps).1.solved_count = t.solved_count ∧
        (replay subs t ps).1.penalty = t.penalty ∧
        (replay subs t ps).1.solve_times = t.solve_times) ∨
      (replay subs t ps).1.solved_count = t.solved_count + 1 := by
  induction subs with
  | nil => intro t ps; exact Or.inl ⟨rfl, rfl, rfl⟩
  | cons sub subs ih =>
    intro t ps
    unfold replay
    by_cases hs : ps.solved = true
    · simp only [hs, Bool.not_true, Bool.false_eq_true, if_false]
      exact ih t ps
    · have hs1 : ps.solved = false := by simpa using hs
      simp only [hs1, Bool.not_false, if_true]
      by_cases ha : sub.status = "Accepted"
      · right
        have hj : (judge sub.status sub.time t ps).2.solved = true := by simp [judge, ha]
        rw [replay_solved _ _ _ hj]
        simp [judge, ha]
      · have hj : (judge sub.status sub.time t ps).1 = t := by simp [judge, ha]
        rw [hj]
        exact ih t _

theorem replay_no_accept (subs : List Submission)
    (hno : ∀ sub ∈ subs, sub.status ≠ "Accepted") :
    ∀ (t : Team) (ps : ProblemStatus),
      (replay subs t ps).1.solved_count = t.solved_count ∧
      (replay subs t ps).1.penalty = t.penalty ∧
      (replay subs t ps).1.solve_times = t.solve_times := by
  induction subs with
  | nil => intro t ps; exact ⟨rfl, rfl, rfl⟩
  | cons sub subs ih =>
    intro t ps
    have ih1 := ih (fun x hx => hno x (List.mem_cons_of_mem _ hx))
    unfold replay
    by_cases hs : ps.solved = true
    · simp only [hs, Bool.not_true, Bool.false_eq_true, if_false]
      exact ih1 t ps
    · have hs1 : ps.solved = false := by simpa using hs
      have ha : ¬ sub.status = "Accepted" := hno sub (List.mem_cons_self _ _)
      have hj : (judge sub.status sub.time t ps).1 = t := by simp [judge, ha]
      simp only [hs1, Bool.not_false, if_true, hj]
      exact ih1 t _

theorem resolveProblem_score (target : Team) (c : Char) :
    scoreOnly (resolveProblem target c) = scoreOnly target ∨
    (resolveProblem target c).solved_count = target.solved_count + 1 := by
  rcases replay_score (getProblem target.problems c).frozen_subs target
    (getProblem target.problems c) with ⟨h1, h2, h3⟩ | h
  · left
    have hn := resolveProblem_name target c
    unfold resolveProblem at hn ⊢
    simp only [scoreOnly] at hn ⊢
    rw [h1, h2, h3, hn]
  · right
    exact h

theorem resolveProblem_no_accept (target : Team) (c : Char)
    (hno : ∀ sub ∈ (getProblem target.problems c).frozen_subs, sub.status ≠ "Accepted") :
    (resolveProblem target c).solved_count = target.solved_count ∧
    (resolveProblem target c).penalty = target.penalty ∧
    (resolveProblem target c).solve_times = target.solve_times :=
  replay_no_accept _ hno target (getProblem target.problems c)

theorem position_count {sb : List Team} (hsorted : sb.Pairwise (fun a b => compareTeams a b = true))
    {i : Nat} {target : Team} (hi : sb[i]? = some target) :
    (sb.eraseIdx i).countP (fun t => compareTeams t target) = i := by
  have hilt : i < sb.length := (List.getElem?_eq_some.mp hi).1
  have htarget : sb[i] = target := by
    have := List.getElem?_eq_getElem hilt
    rw [hi] at this
    exact (Option.some.inj this).symm
  have hsplit : sb = sb.take i ++ target :: sb.drop (i + 1) := by
    rw [← htarget, ← List.drop_eq_getElem_cons hilt, List.take_append_drop]
  rw [hsplit, List.pairwise_append, List.pairwise_cons] at hsorted
  rw [List.eraseIdx_eq_take_drop_succ, List.countP_append]
  have h1 : (sb.take i).countP (fun t => compareTeams t target) = (sb.take i).length := by
    rw [List.countP_eq_length]
    intro a ha
    exact hsorted.2.2 a ha target (List.mem_cons_self _ _)
  have h2 : (sb.drop (i + 1)).countP (fun t => compareTeams t target) = 0 := by
    rw [List.countP_eq_zero]
    intro a ha hc
    have := compareTeams_asymm (hsorted.2.1.1 a ha)
    rw [this] at hc
    cases hc
  rw [h1, h2, List.length_take]
  omega

theorem assignRankings_of_ranked :
    ∀ (l : List Team) (k : Nat),
      (∀ (j : Nat) (t : Team), l[j]? = some t → t.ranking = ((k + j : Nat) : Int) + 1) →
      assignRankings l k = l := by
  intro l
  induction l with
  | nil => intro k _; rfl
  | cons a l ih =>
    intro k h
    have ha := h 0 a (by simp)
    simp only [assignRankings]
    rw [ih (k + 1) (fun j t hj => by
      have := h (j + 1) t (by simpa using hj)
      rw [this]
      congr 2
      omega)]
    congr 1
    cases a
    simp only [Nat.add_zero] at ha
    simp only [Team.mk.injEq, true_and]
    exact ha.symm

theorem pairwise_scoreOnly (l : List Team) :
    (l.map scoreOnly).Pairwise (fun a b => compareTeams a b = true) ↔
      l.Pairwise (fun a b => compareTeams a b = true) := by
  rw [List.pairwise_map]
  rfl

/-- C19: resolving a frozen problem never lowers a team.  In every resolution
step of `scroll` the prospective `new_rank` is at most the old rank of the
team; and if the pending list that is resolved holds no "Accepted" verdict,
the solved count, penalty and solve-time list of the team are unchanged,
`new_rank` equals the old rank, and the re-sort leaves the scoreboard as it
is: the same teams at the same positions with the same rankings. -/
theorem resolution_never_lowers (sb : List Team) (hs : ScrollState sb) (i : Nat)
    (target : Team) (_hf : findTarget sb sb.length = some i) (hi : sb[i]? = some target) :
    (scrollStep sb i target).new_rank ≤ (scrollStep sb i target).old_ranking ∧
    ((∀ sub ∈ (getProblem target.problems (scrollStep sb i target).min_problem).frozen_subs,
        sub.status ≠ "Accepted") →
      ∃ moved : Team, (scrollStep sb i target).resolved[i]? = some moved ∧
        moved.solved_count = target.solved_count ∧ moved.penalty = target.penalty ∧
        moved.solve_times = target.solve_times ∧
        (scrollStep sb i target).new_rank = (scrollStep sb i target).old_ranking ∧
        (scrollStep sb i target).result = (scrollStep sb i target).resolved ∧
        (scrollStep sb i target).result.map (fun t => t.name) = sb.map (fun t => t.name)) := by
  obtain ⟨hnodup, _, hrank⟩ := scrollState_inv hs
  have hsorted := scrollState_sorted hs
  have hilt : i < sb.length := (List.getElem?_eq_some.mp hi).1
  obtain ⟨k, _, hk, hnew, _⟩ := scrollStep_shape hs hi
  have hold : (scrollStep sb i target).old_ranking = (i : Int) + 1 := by
    rw [scrollStep_old_ranking]; exact hrank i target hi
  have hpos := position_count hsorted hi
  constructor
  · have hmono : (sb.eraseIdx i).countP
          (fun t => compareTeams t (resolveProblem target (minProblem target))) ≤
        (sb.eraseIdx i).countP (fun t => compareTeams t target) := by
      apply List.countP_mono_left
      intro y _ hy
      rcases resolveProblem_score target (minProblem target) with h | h
      · rw [← compareTeams_congr_right y h]
        exact hy
      · apply compareTeams_of_solved_gt
        have := solved_ge_of_compareTeams hy
        omega
    omega
  · intro hno
    obtain ⟨h1, h2, h3⟩ := resolveProblem_no_accept target (minProblem target) hno
    have hscore : scoreOnly (resolveProblem target (minProblem target)) = scoreOnly target := by
      simp only [scoreOnly, h1, h2, h3, resolveProblem_name]
    have heq : (sb.eraseIdx i).countP
          (fun t => compareTeams t (resolveProblem target (minProblem target))) =
        (sb.eraseIdx i).countP (fun t => compareTeams t target) := by
      congr 1
      funext y
      exact compareTeams_congr_right y hscore
    have hki : k = i := by omega
    have hnames : (sb.set i (resolveProblem target (minProblem target))).map (fun t => t.name) =
        sb.map (fun t => t.name) :=
      set_map_same (fun t => t.name) _ target (resolveProblem_name _ _) sb i hi
    have hsorted1 : (sb.set i (resolveProblem target (minProblem target))).Pairwise
        (fun a b => compareTeams a b = true) := by
      rw [← pairwise_scoreOnly, set_map_same scoreOnly _ target hscore sb i hi,
        pairwise_scoreOnly]
      exact hsorted
    have hres : (scrollStep sb i target).result = (scrollStep sb i target).resolved := by
      rw [scrollStep_result, scrollStep_resolved]
      unfold updateRankings
      rw [← sortTeams_unique _ _ (by rw [hnames]; exact hnodup) (List.Perm.refl _) hsorted1]
      apply assignRankings_of_ranked
      intro j t hj
      rw [Nat.zero_add]
      by_cases hji : j = i
      · subst hji
        rw [List.getElem?_set_self hilt] at hj
        cases hj
        rw [resolveProblem_ranking]
        exact hrank j target hi
      · rw [List.getElem?_set_ne (fun e => hji e.symm)] at hj
        exact hrank j t hj
    refine ⟨_, ?_, h1, h2, h3, by omega, hres, ?_⟩
    · rw [scrollStep_resolved, List.getElem?_set_self hilt]
    · rw [hres, scrollStep_resolved, hnames]

/-- C19 in a resolution step whose pending list holds a rejected submission
only: team `b` keeps rank 2 and the scoreboard order. -/
theorem resolution_never_lowers_witness :
    (scrollStep demoWrongBoard 1 demoWrongTarget).new_rank ≤
      (scrollStep demoWrongBoard 1 demoWrongTarget).old_ranking ∧
    ∃ moved : Team, (scrollStep demoWrongBoard 1 demoWrongTarget).resolved[1]? = some moved ∧
      moved.solved_count = demoWrongTarget.solved_count ∧
      moved.penalty = demoWrongTarget.penalty ∧
      moved.solve_times = demoWrongTarget.solve_times ∧
      (scrollStep demoWrongBoard 1 demoWrongTarget).new_rank =
        (scrollStep demoWrongBoard 1 demoWrongTarget).old_ranking ∧
      (scrollStep demoWrongBoard 1 demoWrongTarget).result =
        (scrollStep demoWrongBoard 1 demoWrongTarget).resolved ∧
      (scrollStep demoWrongBoard 1 demoWrongTarget).result.map (fun t => t.name) =
        demoWrongBoard.map (fun t => t.name) :=
  ⟨(resolution_never_lowers demoWrongBoard
      (ScrollState.entry
        (Reachable.submit 'A' "b" "Wrong" 3
          (Reachable.freeze (Reachable.start 10 1
            (Reachable.addTeam "b" (Reachable.addTeam "a" Reachable.init))))
          (show _ = some demoWrong from by decide))
        (by decide))
      1 demoWrongTarget (by decide) (by decide)).1,
   (resolution_never_lowers demoWrongBoard
      (ScrollState.entry
        (Reachable.submit 'A' "b" "Wrong" 3
          (Reachable.freeze (Reachable.start 10 1
            (Reachable.addTeam "b" (Reachable.addTeam "a" Reachable.init))))
          (show _ = some demoWrong from by decide))
        (by decide))
      1 demoWrongTarget (by decide) (by decide)).2 (by decide)⟩

/-! ## Resolving pending lists, problem by problem -/

theorem judge_snd (status : String) (time : Int) (t : Team) (ps : ProblemStatus) :
    (judge status time t ps).2 = judgePs status time ps := by
  unfold judge judgePs
  by_cases h : status = "Accepted" <;> simp [h]

theorem replay_snd (subs : List Submission) :
    ∀ (t : Team) (ps : ProblemStatus), (replay subs t ps).2 = replayPs subs ps := by
  induction subs with
  | nil => intro t ps; rfl
  | cons sub subs ih =>
    intro t ps
    unfold replay replayPs
    by_cases hs : ps.solved = true
    · simp only [hs, Bool.not_true, Bool.false_eq_true, if_false]
      exact ih t ps
    · have hs1 : ps.solved = false := by simpa using hs
      simp only [hs1, Bool.not_false, if_true, judge_snd]
      exact ih _ _

theorem replayPs_append (l1 l2 : List Submission) :
    ∀ ps : ProblemStatus, replayPs (l1 ++ l2) ps = replayPs l2 (replayPs l1 ps) := by
  induction l1 with
  | nil => intro ps; rfl
  | cons sub l1 ih =>
    intro ps
    simp only [List.cons_append, replayPs]
    by_cases hs : ps.solved = true
    · simp [hs, ih]
    · simp [hs, ih]

theorem clearPending_judgePs (status : String) (time : Int) (ps : ProblemStatus) :
    clearPending (judgePs status time ps) = judgePs status time (clearPending ps) := by
  unfold judgePs clearPending
  by_cases h : status = "Accepted" <;> simp [h]

theorem clearPending_replayPs (subs : List Submission) :
    ∀ ps : ProblemStatus, clearPending (replayPs subs ps) = replayPs subs (clearPending ps) := by
  induction subs with
  | nil => intro ps; rfl
  | cons sub subs ih =>
    intro ps
    have hc : (clearPending ps).solved = ps.solved := rfl
    simp only [replayPs, hc]
    by_cases hs : ps.solved = true
    · simp [hs, ih]
    · simp [hs, ih, clearPending_judgePs]

theorem replayPs_solved (subs : List Submission) (ps : ProblemStatus) (hs : ps.solved = true) :
    replayPs subs ps = ps := by
  induction subs with
  | nil => rfl
  | cons sub subs ih => simp [replayPs, hs, ih]

theorem settlePs_default : settlePs {} = {} := rfl

theorem settlePs_of_clear (ps : ProblemStatus) (h0 : ps.frozen_submissions = 0)
    (h1 : ps.frozen_subs = []) : settlePs ps = ps := by
  unfold settlePs clearPending
  rw [h1]
  simp only [replayPs]
  cases ps
  simp only at h0 h1
  simp [h0, h1]

theorem settlePs_settlePs (ps : ProblemStatus) : settlePs (settlePs ps) = settlePs ps :=
  settlePs_of_clear _ rfl rfl

theorem findProblem_settleMap (m : List (Char × ProblemStatus)) (c : Char) :
    findProblem (settleMap m) c = (findProblem m c).map settlePs := by
  induction m with
  | nil => rfl
  | cons kv m ih =>
    obtain ⟨k, v⟩ := kv
    simp only [settleMap, List.map_cons, findProblem] at ih ⊢
    by_cases h : k = c
    · simp [h]
    · simp [h, ih]

theorem getProblem_settleMap (m : List (Char × ProblemStatus)) (c : Char) :
    getProblem (settleMap m) c = settlePs (getProblem m c) := by
  unfold getProblem
  rw [findProblem_settleMap]
  cases findProblem m c with
  | none => rfl
  | some v => rfl

theorem settleMap_setProblem (m : List (Char × ProblemStatus)) (c : Char)
    (ps : ProblemStatus) :
    settleMap (setProblem m c ps) = setProblem (settleMap m) c (settlePs ps) := by
  induction m with
  | nil => rfl
  | cons kv m ih =>
    obtain ⟨k, v⟩ := kv
    simp only [settleMap, List.map_cons, setProblem] at ih ⊢
    by_cases h1 : c < k
    · simp [h1]
    · by_cases h2 : c = k
      · simp [h1, h2]
      · simp [h1, h2, ih]

theorem keysSorted_settleMap {m : List (Char × ProblemStatus)} (h : KeysSorted m) :
    KeysSorted (settleMap m) := by
  unfold KeysSorted settleMap at *
  rw [List.pairwise_map]
  exact h

theorem setProblem_self {m : List (Char × ProblemStatus)} (hk : KeysSorted m) {c : Char}
    {v : ProblemStatus} (hf : findProblem m c = some v) : setProblem m c v = m := by
  induction m with
  | nil => simp [findProblem] at hf
  | cons kv m ih =>
    obtain ⟨k, w⟩ := kv
    unfold KeysSorted at hk ih
    rw [List.pairwise_cons] at hk
    unfold setProblem
    by_cases hkc : k = c
    · subst hkc
      simp only [findProblem, if_true, Option.some.injEq] at hf
      subst hf
      simp
    · simp only [findProblem, hkc, if_false] at hf
      have hmem := findProblem_mem hf
      have hlt : k < c := hk.1 (c, v) hmem
      have h1 : ¬ c < k := not_lt.mpr (le_of_lt hlt)
      have h2 : ¬ c = k := fun e => hkc e.symm
      simp only [h1, h2, if_false]
      rw [ih hk.2 hf]

theorem settleMap_of_clear {m : List (Char × ProblemStatus)}
    (h : ∀ p ∈ m, p.2.frozen_submissions = 0 ∧ p.2.frozen_subs = []) : settleMap m = m := by
  induction m with
  | nil => rfl
  | cons kv m ih =>
    have h0 := h kv (List.mem_cons_self _ _)
    simp only [settleMap, List.map_cons] at ih ⊢
    rw [ih (fun p hp => h p (List.mem_cons_of_mem _ hp)), settlePs_of_clear _ h0.1 h0.2]

/-! ## Frozen submissions simulate live submissions -/

theorem submitTeam_problems_frozen (problem : Char) (status : String) (time : Int) (t : Team) :
    (submitTeam true problem status time t).problems =
      setProblem t.problems problem
        (if (getProblem t.problems problem).solved = true then getProblem t.problems problem
          else { getProblem t.problems problem with
            frozen_submissions := (getProblem t.problems problem).frozen_submissions + 1
            frozen_subs := (getProblem t.problems problem).frozen_subs ++
              [⟨String.singleton problem, status, time⟩] }) := by
  by_cases hs : (getProblem t.problems problem).solved = true
  · simp [submitTeam, hs]
  · simp [submitTeam, hs]

theorem submitTeam_problems_live (problem : Char) (status : String) (time : Int) (t : Team) :
    (submitTeam false problem status time t).problems =
      setProblem t.problems problem
        (if (getProblem t.problems problem).solved = true then getProblem t.problems problem
          else judgePs status time (getProblem t.problems problem)) := by
  by_cases hs : (getProblem t.problems problem).solved = true
  · simp [submitTeam, hs]
  · simp [submitTeam, hs, judge_snd]

theorem settlePs_solved (ps : ProblemStatus) (hs : ps.solved = true) :
    (settlePs ps).solved = true := by
  unfold settlePs
  rw [replayPs_solved _ _ hs]
  exact hs

theorem settlePs_push (ps : ProblemStatus) (sub : Submission) (n : Int) :
    settlePs { ps with frozen_submissions := n, frozen_subs := ps.frozen_subs ++ [sub] } =
      if (settlePs ps).solved = true then settlePs ps
      else judgePs sub.status sub.time (settlePs ps) := by
  have e1 : settlePs { ps with frozen_submissions := n, frozen_subs := ps.frozen_subs ++ [sub] } =
      replayPs [sub] (settlePs ps) := by
    unfold settlePs
    rw [clearPending_replayPs, clearPending_replayPs, replayPs_append]
    rfl
  rw [e1]
  simp only [replayPs]
  by_cases hs : (settlePs ps).solved = true
  · simp [hs]
  · simp [hs]

theorem sim_submitTeam {tF tL : Team} (h : Sim tF tL) (problem : Char) (status : String)
    (time : Int) :
    Sim (submitTeam true problem status time tF) (submitTeam false problem status time tL) := by
  refine ⟨?_, ?_, ?_⟩
  · rw [submitTeam_name, submitTeam_name]; exact h.name
  · rw [submitTeam_all_submissions, submitTeam_all_submissions, h.history]
  · rw [submitTeam_problems_frozen, submitTeam_problems_live, settleMap_setProblem, h.problems,
      getProblem_settleMap]
    congr 1
    by_cases hs : (getProblem tF.problems problem).solved = true
    · rw [if_pos hs, if_pos (settlePs_solved _ hs)]
    · rw [if_neg hs, settlePs_push]

theorem modifyTeam_sim (f1 f2 : Team → Team) (hf : ∀ a b, Sim a b → Sim (f1 a) (f2 b))
    (name : String) :
    ∀ l1 l2 : List Team, List.Forall₂ Sim l1 l2 → hasTeam l1 name = true →
      ∃ r1 r2, modifyTeam f1 name l1 = some r1 ∧ modifyTeam f2 name l2 = some r2 ∧
        List.Forall₂ Sim r1 r2 := by
  intro l1 l2 h
  induction h with
  | nil => intro ht; simp [hasTeam] at ht
  | cons hab hl ih =>
    rename_i a b l1 l2
    intro ht
    by_cases hn : a.name = name
    · have hn2 : b.name = name := hab.name.trans hn
      exact ⟨f1 a :: l1, f2 b :: l2, by simp [modifyTeam, hn], by simp [modifyTeam, hn2],
        List.Forall₂.cons (hf a b hab) hl⟩
    · have hn2 : ¬ b.name = name := fun e => hn (hab.name.symm.trans e)
      have ht1 : hasTeam l1 name = true := by simpa [hasTeam, hn] using ht
      obtain ⟨r1, r2, e1, e2, hr⟩ := ih ht1
      exact ⟨a :: r1, b :: r2, by simp [modifyTeam, hn, e1], by simp [modifyTeam, hn2, e2],
        List.Forall₂.cons hab hr⟩

theorem submitAll_sim (subs : List (Char × String × String × Int)) :
    ∀ sF sL : ICPCSystem, sF.frozen = true → sL.frozen = false →
      List.Forall₂ Sim sF.scoreboard sL.scoreboard →
      (∀ q ∈ subs, hasTeam sF.scoreboard q.2.1 = true) →
      ∃ rF rL : List Team,
        submitAll sF subs = some { sF with scoreboard := rF } ∧
        submitAll sL subs = some { sL with scoreboard := rL } ∧
        List.Forall₂ Sim rF rL := by
  induction subs with
  | nil =>
    intro sF sL _ _ h _
    exact ⟨sF.scoreboard, sL.scoreboard, rfl, rfl, h⟩
  | cons q rest ih =>
    intro sF sL hF hL h ht
    obtain ⟨r1, r2, e1, e2, hr⟩ := modifyTeam_sim
      (submitTeam true q.1 q.2.2.1 q.2.2.2) (submitTeam false q.1 q.2.2.1 q.2.2.2)
      (fun a b hab => sim_submitTeam hab _ _ _) q.2.1 _ _ h (ht q (List.mem_cons_self _ _))
    have hnames : r1.map (fun t => t.name) = sF.scoreboard.map (fun t => t.name) :=
      modifyTeam_map (fun t => t.name) _ (submitTeam_name _ _ _ _) _ _ _ e1
    obtain ⟨rF, rL, eF, eL, hfin⟩ := ih { sF with scoreboard := r1 } { sL with scoreboard := r2 }
      hF hL hr (fun q1 hq1 => by
        have := ht q1 (List.mem_cons_of_mem _ hq1)
        rw [hasTeam_iff_mem] at this ⊢
        rw [hnames]
        exact this)
    have e1a : modifyTeam (submitTeam sF.frozen q.1 q.2.2.1 q.2.2.2) q.2.1 sF.scoreboard =
        some r1 := by rw [hF]; exact e1
    have e2a : modifyTeam (submitTeam sL.frozen q.1 q.2.2.1 q.2.2.2) q.2.1 sL.scoreboard =
        some r2 := by rw [hL]; exact e2
    refine ⟨rF, rL, ?_, ?_, hfin⟩
    · simp only [submitAll, ICPCSystem.submit, e1a, Option.map_some', Option.some_bind]
      exact eF
    · simp only [submitAll, ICPCSystem.submit, e2a, Option.map_some', Option.some_bind]
      exact eL

/-! ## The solve-time list holds the solve times of the solved problems -/

theorem insertAt_coe (v : List Int) (pos : Nat) (val : Int) :
    (↑(insertAt v pos val) : Multiset Int) = ↑v + {val} := by
  have hp : (insertAt v pos val).Perm (val :: v) := by
    unfold insertAt
    refine List.perm_middle.trans (List.Perm.cons _ ?_)
    rw [List.take_append_drop]
  rw [Multiset.coe_eq_coe.mpr hp, ← Multiset.cons_coe, ← Multiset.singleton_add, add_comm]

theorem timesOk_congr {m m1 : List (Char × ProblemStatus)} {t t1 : Team} (h : TimesOk m t)
    (e1 : mapSum timesOf m1 = mapSum timesOf m) (e2 : t1.solve_times = t.solve_times) :
    TimesOk m1 t1 := by
  unfold TimesOk at *
  rw [e1, e2]
  exact h

theorem judge_timesOk {m : List (Char × ProblemStatus)} (c : Char) (hk : KeysSorted m)
    (status : String) (time : Int) (t : Team) (ps : ProblemStatus) (hs : ps.solved = false)
    (h : TimesOk (setProblem m c ps) t) :
    TimesOk (setProblem m c (judge status time t ps).2) (judge status time t ps).1 := by
  unfold judge
  by_cases ha : status = "Accepted"
  · simp only [ha, if_true]
    have e1 := mapSum_setProblem_twice timesOf c ps
      ({ ps with solved := true, solve_time := time }) hk
    have z1 : timesOf ps = 0 := by simp [timesOf, hs]
    have z2 : timesOf ({ ps with solved := true, solve_time := time }) = {time} := by
      simp [timesOf]
    rw [z1, z2, add_zero] at e1
    unfold TimesOk at *
    rw [insertAt_coe, h]
    exact e1.symm
  · simp only [ha, if_false]
    exact timesOk_congr h
      (mapSum_setProblem_congr timesOf c ps _ hk (by simp [timesOf, hs])) rfl

theorem replay_timesOk {m : List (Char × ProblemStatus)} (c : Char) (hk : KeysSorted m)
    (subs : List Submission) :
    ∀ (t : Team) (ps : ProblemStatus), TimesOk (setProblem m c ps) t →
      TimesOk (setProblem m c (replay subs t ps).2) (replay subs t ps).1 := by
  induction subs with
  | nil => intro t ps h; exact h
  | cons sub subs ih =>
    intro t ps h
    unfold replay
    by_cases hs : ps.solved = true
    · simp only [hs, Bool.not_true, Bool.false_eq_true, if_false]
      exact ih t ps h
    · have hs1 : ps.solved = false := by simpa using hs
      simp only [hs1, Bool.not_false, if_true]
      exact ih _ _ (judge_timesOk c hk sub.status sub.time t ps hs1 h)

theorem timesOk_getProblem {m : List (Char × ProblemStatus)} {t : Team} (c : Char)
    (hk : KeysSorted m) (h : TimesOk m t) : TimesOk (setProblem m c (getProblem m c)) t :=
  timesOk_congr h (mapSum_setProblem_get timesOf rfl c hk) rfl

theorem submitTeam_timesOk (frozen : Bool) (problem : Char) (status : String) (time : Int)
    {team : Team} (hk : KeysSorted team.problems) (h : TimesOk team.problems team) :
    TimesOk (submitTeam frozen problem status time team).problems
      (submitTeam frozen problem status time team) := by
  have hbase := timesOk_getProblem problem hk h
  by_cases hs : (getProblem team.problems problem).solved = true
  · have e : submitTeam frozen problem status time team =
        { team with
          all_submissions := team.all_submissions ++ [⟨String.singleton problem, status, time⟩]
          problems := setProblem team.problems problem (getProblem team.problems problem) } := by
      cases frozen <;> simp [submitTeam, hs]
    rw [e]
    exact timesOk_congr hbase rfl rfl
  · have hs1 : (getProblem team.problems problem).solved = false := by simpa using hs
    cases frozen with
    | true =>
      rw [submitTeam_problems_frozen, if_neg hs]
      refine timesOk_congr hbase
        (mapSum_setProblem_congr timesOf _ _ _ hk (by simp [timesOf])) ?_
      simp [submitTeam, hs1]
    | false =>
      rw [submitTeam_live_unsolved _ _ _ _ hs1]
      have hj := judge_timesOk problem hk status time
        ({ team with
          all_submissions := team.all_submissions ++ [⟨String.singleton problem, status, time⟩] })
        (getProblem team.problems problem) hs1 (timesOk_congr hbase rfl rfl)
      exact timesOk_congr hj rfl rfl

theorem resolveProblem_timesOk {target : Team} (hk : KeysSorted target.problems)
    (h : TimesOk target.problems target) (c : Char) :
    TimesOk (resolveProblem target c).problems (resolveProblem target c) := by
  have hr := replay_timesOk c hk (getProblem target.problems c).frozen_subs target
    (getProblem target.problems c) (timesOk_getProblem c hk h)
  unfold resolveProblem
  exact timesOk_congr hr (mapSum_setProblem_congr timesOf _ _ _ hk (by simp [timesOf])) rfl

/-! ## A property of teams kept by every operation holds in every reachable state -/

theorem scrollLoop_forall (P : Team → Prop)
    (hrank : ∀ (t : Team) (r : Int), P t → P { t with ranking := r })
    (hres : ∀ (t : Team) (c : Char), TeamInv t → P t → P (resolveProblem t c)) :
    ∀ (fuel : Nat) (sb : List Team) (r : List Team × List Output),
      scrollLoop fuel sb = some r → (sb.map (fun t => t.name)).Nodup → (∀ t ∈ sb, TeamInv t) →
      (∀ t ∈ sb, P t) → ∀ t ∈ r.1, P t := by
  intro fuel
  induction fuel with
  | zero => intro sb r h; simp [scrollLoop] at h
  | succ fuel ih =>
    intro sb r h hn ht hp
    unfold scrollLoop at h
    cases hf : findTarget sb sb.length with
    | none =>
      simp only [hf, Option.some.injEq] at h
      subst h
      exact hp
    | some i =>
      simp only [hf] at h
      cases hi : sb[i]? with
      | none => simp [hi] at h
      | some target =>
        simp only [hi, Option.map_eq_some'] at h
        obtain ⟨q, hq, rfl⟩ := h
        obtain ⟨n1, t1⟩ := scrollStep_inv hn ht hi
        have hmem : target ∈ sb := List.mem_iff_getElem?.mpr ⟨i, hi⟩
        refine ih _ q hq n1 t1 ?_
        intro t htm
        rw [scrollStep_result] at htm
        obtain ⟨t0, h0, r, e⟩ := mem_updateRankings htm
        subst e
        apply hrank
        rcases List.mem_or_eq_of_mem_set h0 with h1 | h1
        · exact hp t0 h1
        · rw [h1]
          exact hres target _ (ht target hmem) (hp target hmem)

theorem reachable_forall (P : Team → Prop) (hnew : ∀ n : String, P { name := n })
    (hrank : ∀ (t : Team) (r : Int), P t → P { t with ranking := r })
    (hsub : ∀ (frozen : Bool) (c : Char) (status : String) (time : Int) (t : Team),
      TeamInv t → P t → P (submitTeam frozen c status time t))
    (hres : ∀ (t : Team) (c : Char), TeamInv t → P t → P (resolveProblem t c))
    {s : ICPCSystem} (h : Reachable s) : ∀ t ∈ s.scoreboard, P t := by
  have hupd : ∀ l : List Team, (∀ t ∈ l, P t) → ∀ t ∈ updateRankings l, P t := by
    intro l hl t ht
    obtain ⟨t0, h0, r, e⟩ := mem_updateRankings ht
    subst e
    exact hrank t0 r (hl t0 h0)
  induction h with
  | init => intro t ht; cases ht
  | @addTeam s0 name hprev ih =>
    unfold ICPCSystem.addTeam
    by_cases hs : s0.started = true
    · simpa [hs] using ih
    · by_cases hd : hasTeam s0.scoreboard name = true
      · simpa [hs, hd] using ih
      · simp only [hs, hd, Bool.false_eq_true, if_false]
        intro t ht
        rcases List.mem_append.mp ht with hm | hm
        · exact ih t hm
        · rw [List.mem_singleton] at hm
          rw [hm]
          exact hnew name
  | @start s0 duration problems hprev ih =>
    unfold ICPCSystem.startCompetition
    by_cases hs : s0.started = true
    · simpa [hs] using ih
    · simp only [hs, Bool.false_eq_true, if_false]
      exact hupd _ ih
  | @submit s0 s1 problem team_name status time hprev e ih =>
    unfold ICPCSystem.submit at e
    rw [Option.map_eq_some'] at e
    obtain ⟨sb1, hm, rfl⟩ := e
    exact modifyTeam_forall P _ _ _ _ hm ih
      (fun t ht => hsub _ _ _ _ t ((reachable_inv hprev).teams t ht) (ih t ht))
  | @flush s0 hprev ih => exact hupd _ ih
  | @freeze s0 hprev ih =>
    unfold ICPCSystem.freeze
    by_cases hf : s0.frozen = true
    · simpa [hf] using ih
    · simpa [hf] using ih
  | @scroll s0 fuel r hprev e ih =>
    unfold ICPCSystem.scroll at e
    by_cases hf : s0.frozen = true
    · simp only [hf, Bool.not_true, Bool.false_eq_true, if_false] at e
      cases hl : scrollLoop fuel (updateRankings s0.scoreboard) with
      | none => simp [hl] at e
      | some q =>
        simp only [hl, Option.some.injEq] at e
        subst e
        have hi := reachable_inv hprev
        exact scrollLoop_forall P hrank hres fuel _ q hl (updateRankings_names_nodup hi.names)
          (updateRankings_teamInv hi.teams) (hupd _ ih)
    · simp only [hf, Bool.not_false, if_true, Option.some.injEq] at e
      subst e
      exact ih

theorem reachable_timesOk {s : ICPCSystem} (h : Reachable s) :
    ∀ t ∈ s.scoreboard, TimesOk t.problems t :=
  reachable_forall (fun t => TimesOk t.problems t) (fun _ => rfl) (fun _ _ ht => ht)
    (fun _ _ _ _ _ hinv ht => submitTeam_timesOk _ _ _ _ hinv.keys ht)
    (fun _ _ hinv ht => resolveProblem_timesOk hinv.keys ht _) h

/-! ## The score of a team is determined by its problem map -/

theorem unranked_eq_of_teamKey {a b : Team} (ha : TeamInv a) (hb : TeamInv b)
    (hta : TimesOk a.problems a) (htb : TimesOk b.problems b) (hk : teamKey a = teamKey b) :
    unranked a = unranked b := by
  simp only [teamKey, Prod.mk.injEq] at hk
  obtain ⟨hname, hhist, hprob⟩ := hk
  have h1 : a.solved_count = b.solved_count := by
    rw [ha.score.solved, hb.score.solved, hprob]
  have h2 : a.penalty = b.penalty := by
    rw [ha.score.penalty, hb.score.penalty, hprob]
  have h3 : a.solve_times = b.solve_times := by
    haveI : IsAntisymm Int (fun x y => x ≥ y) := ⟨fun x y hxy hyx => le_antisymm hyx hxy⟩
    have hperm : a.solve_times.Perm b.solve_times := by
      apply Multiset.coe_eq_coe.mp
      unfold TimesOk at hta htb
      rw [hta, htb, hprob]
    exact List.eq_of_perm_of_sorted hperm ha.score.sorted hb.score.sorted
  cases a
  cases b
  simp only [unranked] at *
  simp only [Team.mk.injEq, and_true]
  exact ⟨hname, h1, h2, h3, hprob, hhist⟩

theorem perm_unranked_of_teamKey {l1 l2 : List Team}
    (h1 : ∀ t ∈ l1, TeamInv t ∧ TimesOk t.problems t)
    (h2 : ∀ t ∈ l2, TeamInv t ∧ TimesOk t.problems t)
    (hp : (l1.map teamKey).Perm (l2.map teamKey)) :
    (l1.map unranked).Perm (l2.map unranked) := by
  classical
  let g : String × List Submission × List (Char × ProblemStatus) → Team := fun k =>
    if h : ∃ t : Team, (TeamInv t ∧ TimesOk t.problems t) ∧ teamKey t = k then
      unranked (Classical.choose h)
    else { name := "" }
  have hg : ∀ t : Team, TeamInv t ∧ TimesOk t.problems t → g (teamKey t) = unranked t := by
    intro t ht
    have hex : ∃ t1 : Team, (TeamInv t1 ∧ TimesOk t1.problems t1) ∧ teamKey t1 = teamKey t :=
      ⟨t, ht, rfl⟩
    have hspec := Classical.choose_spec hex
    show (if h : ∃ t1 : Team, (TeamInv t1 ∧ TimesOk t1.problems t1) ∧ teamKey t1 = teamKey t then
      unranked (Classical.choose h) else { name := "" }) = unranked t
    rw [dif_pos hex]
    exact unranked_eq_of_teamKey hspec.1.1 ht.1 hspec.1.2 ht.2 hspec.2
  have e1 : l1.map unranked = (l1.map teamKey).map g := by
    rw [List.map_map]
    apply List.map_congr_left
    intro t ht
    exact (hg t (h1 t ht)).symm
  have e2 : l2.map unranked = (l2.map teamKey).map g := by
    rw [List.map_map]
    apply List.map_congr_left
    intro t ht
    exact (hg t (h2 t ht)).symm
  rw [e1, e2]
  exact hp.map g

/-! ## The scroll loop resolves every team to its settled form -/

theorem resolveProblem_eq (target : Team) (c : Char) :
    (resolveProblem target c).problems =
      setProblem target.problems c (settlePs (getProblem target.problems c)) := by
  unfold resolveProblem settlePs
  simp only [replay_snd]
  rfl

theorem settledKey_resolveProblem {target : Team} (hk : KeysSorted target.problems) {c : Char}
    {ps : ProblemStatus} (hc : findProblem target.problems c = some ps) :
    settledKey (resolveProblem target c) = settledKey target := by
  have hg : getProblem target.problems c = ps := by simp [getProblem, hc]
  have hf : findProblem (settleMap target.problems) c = some (settlePs ps) := by
    rw [findProblem_settleMap, hc]; rfl
  have hp : settleMap (resolveProblem target c).problems = settleMap target.problems := by
    rw [resolveProblem_eq, settleMap_setProblem, settlePs_settlePs, hg,
      setProblem_self (keysSorted_settleMap hk) hf]
  have hh : (resolveProblem target c).all_submissions = target.all_submissions := by
    unfold resolveProblem
    exact (replay_frame _ _ _).2.2.1
  unfold settledKey
  rw [resolveProblem_name, hh, hp]

theorem scrollLoop_settledKey :
    ∀ (fuel : Nat) (sb : List Team) (r : List Team × List Output),
      scrollLoop fuel sb = some r → (sb.map (fun t => t.name)).Nodup → (∀ t ∈ sb, TeamInv t) →
      PendingInRange sb → (r.1.map settledKey).Perm (sb.map settledKey) := by
  intro fuel
  induction fuel with
  | zero => intro sb r h; simp [scrollLoop] at h
  | succ fuel ih =>
    intro sb r h hn ht hrange
    unfold scrollLoop at h
    cases hf : findTarget sb sb.length with
    | none =>
      simp only [hf, Option.some.injEq] at h
      subst h
      exact List.Perm.refl _
    | some i =>
      simp only [hf] at h
      cases hi : sb[i]? with
      | none => simp [hi] at h
      | some target =>
        simp only [hi, Option.map_eq_some'] at h
        obtain ⟨q, hq, rfl⟩ := h
        obtain ⟨n1, t1⟩ := scrollStep_inv hn ht hi
        have hmem : target ∈ sb := List.mem_iff_getElem?.mpr ⟨i, hi⟩
        obtain ⟨_, ⟨tg, hi2, hfr⟩, _⟩ := findTarget_some hf
        rw [hi] at hi2
        cases hi2
        obtain ⟨⟨ps, hc, _, _⟩, _⟩ := minProblem_spec (ht target hmem).keys hfr
          (fun p hp hpp => (hrange target hmem p hp hpp).2)
        have hstep : ((scrollStep sb i target).result.map settledKey).Perm (sb.map settledKey) := by
          rw [scrollStep_result]
          refine (updateRankings_map_perm settledKey (fun _ _ => rfl) _).trans ?_
          rw [set_map_same settledKey _ target
            (settledKey_resolveProblem (ht target hmem).keys hc) sb i hi]
        exact (ih _ q hq n1 t1 (scrollStep_pendingInRange hrange hi)).trans hstep

theorem scrollLoop_scrollState :
    ∀ (fuel : Nat) (sb : List Team) (r : List Team × List Output),
      scrollLoop fuel sb = some r → ScrollState sb → ScrollState r.1 := by
  intro fuel
  induction fuel with
  | zero => intro sb r h; simp [scrollLoop] at h
  | succ fuel ih =>
    intro sb r h hs
    unfold scrollLoop at h
    cases hf : findTarget sb sb.length with
    | none =>
      simp only [hf, Option.some.injEq] at h
      subst h
      exact hs
    | some i =>
      simp only [hf] at h
      cases hi : sb[i]? with
      | none => simp [hi] at h
      | some target =>
        simp only [hi, Option.map_eq_some'] at h
        obtain ⟨q, hq, rfl⟩ := h
        exact ih _ q hq (ScrollState.step hs hf hi)

theorem scrollState_fixed {sb : List Team} (hs : ScrollState sb) : updateRankings sb = sb := by
  obtain ⟨hn, _, hrank⟩ := scrollState_inv hs
  unfold updateRankings
  rw [← sortTeams_unique sb sb hn (List.Perm.refl _) (scrollState_sorted hs)]
  apply assignRankings_of_ranked
  intro j t hj
  rw [Nat.zero_add]
  exact hrank j t hj

/-! ## Pending identifiers after frozen submissions -/

theorem submitTeam_problems_range (frozen : Bool) (problem : Char) (status : String) (time : Int)
    (t : Team) (hc : 'A' ≤ problem ∧ problem ≤ 'Z')
    (h : ∀ p ∈ t.problems, p.2.frozen_submissions > 0 → 'A' ≤ p.1 ∧ p.1 ≤ 'Z') :
    ∀ p ∈ (submitTeam frozen problem status time t).problems,
      p.2.frozen_submissions > 0 → 'A' ≤ p.1 ∧ p.1 ≤ 'Z' := by
  have hset : ∃ x, (submitTeam frozen problem status time t).problems =
      setProblem t.problems problem x := by
    cases frozen
    · exact ⟨_, submitTeam_problems_live _ _ _ _⟩
    · exact ⟨_, submitTeam_problems_frozen _ _ _ _⟩
  obtain ⟨x, e⟩ := hset
  rw [e]
  intro p hp hpos
  rcases mem_setProblem hp with e1 | hm
  · rw [e1]; exact hc
  · exact h p hm hpos

theorem submitAll_pendingInRange (subs : List (Char × String × String × Int)) :
    ∀ s s1 : ICPCSystem, submitAll s subs = some s1 → PendingInRange s.scoreboard →
      (∀ q ∈ subs, 'A' ≤ q.1 ∧ q.1 ≤ 'Z') → PendingInRange s1.scoreboard := by
  induction subs with
  | nil =>
    intro s s1 e h _
    simp only [submitAll, Option.some.injEq] at e
    subst e
    exact h
  | cons q rest ih =>
    intro s s1 e h hq
    simp only [submitAll, Option.bind_eq_some] at e
    obtain ⟨s2, e2, e3⟩ := e
    apply ih s2 s1 e3 _ (fun q1 hq1 => hq q1 (List.mem_cons_of_mem _ hq1))
    unfold ICPCSystem.submit at e2
    rw [Option.map_eq_some'] at e2
    obtain ⟨sb1, hm, rfl⟩ := e2
    exact modifyTeam_forall
      (fun t => ∀ p ∈ t.problems, p.2.frozen_submissions > 0 → 'A' ≤ p.1 ∧ p.1 ≤ 'Z')
      _ _ _ _ hm h
      (fun t ht => submitTeam_problems_range _ _ _ _ t (hq q (List.mem_cons_self _ _)) (h t ht))

/-! ## Freeze, submit and scroll against live processing -/

theorem forall₂_sim_keys {l1 l2 : List Team} (h : List.Forall₂ Sim l1 l2) :
    l1.map settledKey = l2.map teamKey := by
  induction h with
  | nil => rfl
  | cons hab _ ih =>
    simp only [List.map_cons, ih, settledKey, teamKey, hab.name, hab.history, hab.problems]

theorem live_sim {s : ICPCSystem} (hi : Inv s) (hlive : s.frozen = false) :
    List.Forall₂ Sim s.scoreboard s.scoreboard := by
  apply List.forall₂_same.mpr
  intro t ht
  refine ⟨rfl, rfl, (settleMap_of_clear ?_).symm⟩
  intro p hp
  have h0 := hi.live hlive t ht p hp
  have h1 := ((hi.teams t ht).pending p hp).1
  refine ⟨h0, ?_⟩
  rw [h0] at h1
  exact List.length_eq_zero.mp (by exact_mod_cast h1.symm)

/-- C17: freeze-then-scroll equals live processing.  From a reachable state
that is not frozen, and for every sequence of submissions of existing teams
with problem identifiers in `'A'..'Z'`: freezing, making the submissions and
scrolling terminates, and the state it ends in is the state obtained by making
the same submissions without freezing and then refreshing.  The two states are
equal as a whole: the same scoreboard order and, for every team, the same
ranking, solved count, penalty, solve-time list, problem map (solved flag,
solve time, wrong attempts, no pending submissions) and submission history. -/
theorem freeze_scroll_eq_live (s : ICPCSystem) (hr : Reachable s) (hlive : s.frozen = false)
    (subs : List (Char × String × String × Int))
    (hids : ∀ q ∈ subs, 'A' ≤ q.1 ∧ q.1 ≤ 'Z')
    (hteams : ∀ q ∈ subs, hasTeam s.scoreboard q.2.1 = true) :
    ∃ (sL sF : ICPCSystem) (r : ICPCSystem × List Output),
      submitAll s subs = some sL ∧ submitAll s.freeze.1 subs = some sF ∧
      (∀ fuel, pendingPairs sF.scoreboard < fuel → sF.scroll fuel = some r) ∧
      r.1 = sL.flush.1 := by
  have hi := reachable_inv hr
  have hfr : s.freeze.1 = { s with frozen := true } := by
    simp [ICPCSystem.freeze, hlive]
  obtain ⟨rF, rL, eF, eL, hsim⟩ := submitAll_sim subs s.freeze.1 s (by rw [hfr]) hlive
    (by rw [hfr]; exact live_sim (s := s) hi hlive) (by rw [hfr]; exact hteams)
  have hrF : Reachable { s.freeze.1 with scoreboard := rF } :=
    reachable_submitAll subs (Reachable.freeze hr) eF
  have hrL : Reachable { s with scoreboard := rL } := reachable_submitAll subs hr eL
  have hfrozen : ({ s.freeze.1 with scoreboard := rF } : ICPCSystem).frozen = true := by
    rw [hfr]
  have hiF := reachable_inv hrF
  have hrange : PendingInRange rF := by
    apply submitAll_pendingInRange subs s.freeze.1 _ eF _ hids
    rw [hfr]
    intro t ht p hp hpos
    have := hi.live hlive t ht p hp
    omega
  obtain ⟨q, h1, h2, h3⟩ := scrollLoop_converges (pendingPairs rF) (updateRankings rF)
    (updateRankings_names_nodup hiF.names) (updateRankings_teamInv hiF.teams)
    (updateRankings_forall_problems
      (fun p => p.2.frozen_submissions > 0 → 'A' ≤ p.1 ∧ p.1 ≤ 'Z') hrange)
    (pendingPairs_updateRankings _)
  have hq := h2 (pendingPairs rF + 1) (Nat.lt_succ_self _)
  have hscroll : ∀ fuel, pendingPairs rF < fuel →
      ({ s.freeze.1 with scoreboard := rF } : ICPCSystem).scroll fuel =
        some ({ s.freeze.1 with scoreboard := q.1, frozen := false },
          [Output.info "Scroll scoreboard."]
            ++ printScoreboard s.freeze.1.problem_count (updateRankings rF)
            ++ q.2 ++ printScoreboard s.freeze.1.problem_count q.1) := by
    intro fuel hfuel
    have hfz : s.freeze.1.frozen = true := by rw [hfr]
    simp [ICPCSystem.scroll, hfz, h2 fuel hfuel]
  have hrR := Reachable.scroll _ _ hrF (hscroll _ (Nat.lt_succ_self _))
  have hstate : ScrollState q.1 :=
    scrollLoop_scrollState _ _ q hq (ScrollState.entry hrF hfrozen)
  have hkeys : (q.1.map teamKey).Perm (rL.map teamKey) := by
    have e1 : q.1.map teamKey = q.1.map settledKey := by
      apply List.map_congr_left
      intro t ht
      unfold teamKey settledKey
      rw [settleMap_of_clear (h3 t ht)]
    rw [e1, ← forall₂_sim_keys hsim]
    exact (scrollLoop_settledKey _ _ q hq (updateRankings_names_nodup hiF.names)
      (updateRankings_teamInv hiF.teams)
      (updateRankings_forall_problems
        (fun p => p.2.frozen_submissions > 0 → 'A' ≤ p.1 ∧ p.1 ≤ 'Z') hrange)).trans
      (updateRankings_map_perm settledKey (fun _ _ => rfl) rF)
  have hperm : (q.1.map unranked).Perm (rL.map unranked) :=
    perm_unranked_of_teamKey
      (fun t ht => ⟨(reachable_inv hrR).teams t ht, reachable_timesOk hrR t ht⟩)
      (fun t ht => ⟨(reachable_inv hrL).teams t ht, reachable_timesOk hrL t ht⟩) hkeys
  have hboard : q.1 = updateRankings rL := by
    rw [← scrollState_fixed hstate]
    exact updateRankings_congr (scrollState_inv hstate).1 hperm
  refine ⟨_, _, _, eL, eF, hscroll, ?_⟩
  rw [hfr]
  simp only [ICPCSystem.flush, hboard]
  cases s
  simp only at hlive
  simp [hlive]

/-- C17 on the example run: from the live example state, the four submissions
of the frozen phase. -/
theorem freeze_scroll_eq_live_witness :
    ∃ (sL sF : ICPCSystem) (r : ICPCSystem × List Output),
      submitAll demoLive
        [('B', "a", "Accepted", 7), ('A', "a", "Accepted", 8), ('C', "a", "Accepted", 6),
          ('C', "b", "Accepted", 6)] = some sL ∧
      submitAll demoLive.freeze.1
        [('B', "a", "Accepted", 7), ('A', "a", "Accepted", 8), ('C', "a", "Accepted", 6),
          ('C', "b", "Accepted", 6)] = some sF ∧
      (∀ fuel, pendingPairs sF.scoreboard < fuel → sF.scroll fuel = some r) ∧
      r.1 = sL.flush.1 :=
  freeze_scroll_eq_live demoLive reachable_demoLive (by decide) _ (by decide) (by decide)

end ICPC
